import Mathlib

set_option maxHeartbeats 16000000
set_option maxRecDepth 4000

/-!
Verification of the toktrie packed token-vocabulary trie
(src/core/src/toktree.rs) against its specification.

Modelling conventions:
* Rust `u8`/`u32` values are `Nat`s; wrapping casts and shifts are explicit
  `% 256` / `% 4294967296`.  Checked arithmetic that would panic on overflow
  (the `num_parents + 1` u8 addition in `TrieHash::serialize`) is modelled by
  returning `none`.
* Rust panics (assert!, unwrap, out-of-bounds slicing) are modelled by
  `Option`-valued functions returning `none`.  Divergence (an infinite loop)
  is modelled by fuel exhaustion, which also yields `none`.
* The external collaborators that are not part of src/ are modelled from the
  spec: `SimpleVob` (the token-set bitset contract of spec section 6) is the
  list of allowed token ids; `vec_from_bytes` / `bytemuck` casts (binary codec
  of spec section 4.5) are little-endian fixed-width record codecs.
-/

namespace Toktrie

/-- Reduction modulo 2^32: models Rust `as u32` casts and wrapping `u32` shifts. -/
def u32mod (n : Nat) : Nat := n % 4294967296

/-- The 24-bit sentinel stored in a node's token field meaning "no token here". -/
def NO_TOKEN : Nat := 16777215

/-- Max token length is 1023 bytes: `LEN_BITS = 10`. -/
def LEN_BITS : Nat := 10

/-- Packed trie node: two 32-bit words `bits` and `bits2`, as in the Rust
struct `TrieNode`. -/
structure TrieNode where
  bits : Nat
  bits2 : Nat
  deriving DecidableEq

/-- `TrieNode::new` combined with the `bits2 |= subtree_size << 8` patch done at
the end of `TrieHash::serialize`.  In Rust `bits = (token_id << 8) | byte` where
`byte : u8` and the shift is a wrapping `u32` shift; since `token_id << 8` has
zero low byte and `byte < 256`, the bitwise or is addition.  Likewise
`bits2 = num_parents | (subtree_size << 8)` with `num_parents : u8`. -/
def TrieNode.make (byte token_id num_parents size : Nat) : TrieNode :=
  ⟨u32mod (token_id <<< 8) + byte % 256, num_parents % 256 + u32mod (size <<< 8)⟩

/-- `TrieNode::byte`: `bits & 0xff`. -/
def TrieNode.byte (n : TrieNode) : Nat := n.bits % 256

/-- `TrieNode::subtree_size`: `bits2 >> 8`. -/
def TrieNode.subtree_size (n : TrieNode) : Nat := n.bits2 / 256

/-- `TrieNode::num_parents`: `bits2 & 0xff`. -/
def TrieNode.num_parents (n : TrieNode) : Nat := n.bits2 % 256

/-- `TrieNode::token_id`: `bits >> 8`, with `NO_TOKEN` mapped to `none`. -/
def TrieNode.token_id (n : TrieNode) : Option Nat :=
  let r := n.bits / 256
  if r = NO_TOKEN then none else some r

/-- The builder's intermediate hash-trie (`struct TrieHash`): an edge byte, a
candidate token id (`NO_TOKEN` if none), and a child list. -/
inductive TrieHash where
  | mk (token_id : Nat) (byte : Nat) (children : List TrieHash)

def TrieHash.token_id : TrieHash → Nat
  | ⟨t, _, _⟩ => t

def TrieHash.byte : TrieHash → Nat
  | ⟨_, b, _⟩ => b

def TrieHash.children : TrieHash → List TrieHash
  | ⟨_, _, cs⟩ => cs

/-- `TrieHash::new`. -/
def TrieHash.new (byte : Nat) : TrieHash := ⟨NO_TOKEN, byte, []⟩

/-- The dense-conversion step of `TrieHash::insert`: build 256 placeholder
children indexed by byte and move the existing children into their slots. -/
def densify (cs : List TrieHash) : List TrieHash :=
  cs.foldl (fun v2 ch => v2.set ch.byte ch) ((List.range 256).map TrieHash.new)

/-- `TrieHash::insert`.  Walks/extends the hash-trie; on the dense (256-child)
representation it indexes the child directly by byte, otherwise it scans the
child list.  When a fresh child pushes the sparse list past 250 entries the
list is densified.  Bytes are `u8` in Rust; out-of-range list accesses that the
`u8` type makes impossible are modelled as no-ops. -/
def TrieHash.insert : TrieHash → List Nat → Nat → TrieHash
  | ⟨_tok, byte, children⟩, [], tid => ⟨tid, byte, children⟩
  | ⟨tok, byte, children⟩, b :: rest, tid =>
    if children.length = 256 then
      match children.get? b with
      | some c => ⟨tok, byte, children.set b (c.insert rest tid)⟩
      | none => ⟨tok, byte, children⟩
    else
      let i := children.findIdx (fun c => c.byte == b)
      if h : i < children.length then
        ⟨tok, byte, children.set i ((children.get ⟨i, h⟩).insert rest tid)⟩
      else
        let cs := children ++ [(TrieHash.new b).insert rest tid]
        if cs.length > 250 then ⟨tok, byte, densify cs⟩ else ⟨tok, byte, cs⟩

/-- Stable sort of the child list by edge byte (`sort_by_key(|e| e.byte)`);
a stable insertion sort computes the same list as any stable sort. -/
def insertByByte (c : TrieHash) : List TrieHash → List TrieHash
  | [] => [c]
  | d :: ds => if d.byte < c.byte then d :: insertByByte c ds else c :: d :: ds

def sortByByte : List TrieHash → List TrieHash
  | [] => []
  | c :: cs => insertByByte c (sortByByte cs)

mutual
/-- `TrieHash::serialize`: emit this node then its children sorted by byte, in
depth-first pre-order; the emitted node records `num_parents` and its subtree
length.  The fuel argument only bounds the recursion depth (the wrapper below
supplies enough for the whole tree, so exhaustion is unreachable). -/
def TrieHash.serializeNodes : Nat → TrieHash → Nat → Option (List TrieNode)
  | 0, _, _ => none
  | fuel+1, ⟨tok, byte, children⟩, np =>
    match serializeChildList fuel (sortByByte children) np with
    | none => none
    | some body => some (TrieNode.make byte tok np (1 + body.length) :: body)

/-- Serialize a child list: every child but the last gets `num_parents = 1`,
the last child gets `num_parents + 1` of its parent — a checked `u8` addition
whose overflow (a panic in Rust) is modelled by `none`. -/
def serializeChildList : Nat → List TrieHash → Nat → Option (List TrieNode)
  | _, [], _ => some []
  | 0, _ :: _, _ => none
  | fuel+1, [c], np =>
    if np + 1 ≥ 256 then none else TrieHash.serializeNodes fuel c (np + 1)
  | fuel+1, c :: c2 :: cs, np =>
    match TrieHash.serializeNodes fuel c 1, serializeChildList fuel (c2 :: cs) np with
    | some l1, some l2 => some (l1 ++ l2)
    | _, _ => none
end

mutual
/-- Number of nodes of a hash-trie (used to provide serializer fuel). -/
def TrieHash.nNodes : TrieHash → Nat
  | ⟨_, _, cs⟩ => 1 + TrieHash.nNodesList cs

def TrieHash.nNodesList : List TrieHash → Nat
  | [] => 0
  | c :: cs => TrieHash.nNodes c + TrieHash.nNodesList cs
end

/-- `TrieHash::serialize` with sufficient fuel for the whole tree. -/
def TrieHash.serialize (t : TrieHash) (np : Nat) : Option (List TrieNode) :=
  TrieHash.serializeNodes (2 * t.nNodes + 2) t np

/-- Vocabulary info record (`TokRxInfo`). -/
structure TokRxInfo where
  vocab_size : Nat
  tok_eos : Nat
  tok_bos : Option Nat
  tok_pad : Option Nat
  tok_unk : Option Nat
  tok_end_of_turn : Option Nat
  deriving DecidableEq

/-- `TokRxInfo::new`. -/
def TokRxInfo.new (vocab_size tok_eos : Nat) : TokRxInfo :=
  ⟨vocab_size, tok_eos, none, none, none, none⟩

/-- `TokRxInfo::from_bin`: only `vocab_size` and `tok_eos` survive the binary
form; the optional ids are reconstructed as absent. -/
def TokRxInfo.from_bin (vocab_size tok_eos : Nat) : TokRxInfo :=
  ⟨vocab_size, tok_eos, none, none, none, none⟩

/-- The core trie object (`struct TokTrie`).  The duplicate map (an
`FxHashMap` in Rust) is modelled as an association list in entry-insertion
order; only its graph matters to the operations below. -/
structure TokTrie where
  info : TokRxInfo
  token_offsets : List Nat
  token_data : List Nat
  nodes : List TrieNode
  max_token_len : Nat
  token_duplicates : List (Nat × List Nat)
  deriving DecidableEq

/-- Node lookup by offset.  In Rust nodes are addressed through references that
cannot dangle; all offsets used by the code below stay in bounds for tries the
constructors produce, so the default value is never observed there. -/
def TokTrie.nodeAt (T : TokTrie) (off : Nat) : TrieNode :=
  (T.nodes.get? off).getD ⟨0, 0⟩

/-- `TokTrie::next_node`: the index just past a node's subtree. -/
def TokTrie.next_node (T : TokTrie) (off : Nat) : Nat :=
  off + (T.nodeAt off).subtree_size

def TokTrie.vocab_size (T : TokTrie) : Nat := T.info.vocab_size

/-- The offsets of the children of the node at `off`, in order: the
`NodeChildren` iterator starts at `off + 1` and steps by `subtree_size` until
`off + subtree_size(off)`.  Fuel bounds the iteration; it suffices whenever all
subtree sizes in the range are positive, which holds for constructed tries (a
zero size would make the Rust iterator loop forever as well). -/
def TokTrie.childScan (T : TokTrie) : Nat → Nat → Nat → List Nat
  | _, _, 0 => []
  | cur, endo, fuel+1 =>
    if cur < endo then
      cur :: T.childScan (cur + (T.nodeAt cur).subtree_size) endo fuel
    else []

def TokTrie.childOffsets (T : TokTrie) (off : Nat) : List Nat :=
  T.childScan (off + 1) (T.next_node off) (T.nodes.length + 1)

/-- `TokTrie::child_at_byte`: linear scan of the children for the first one
with the given edge byte. -/
def TokTrie.child_at_byte (T : TokTrie) (off b : Nat) : Option Nat :=
  (T.childOffsets off).find? (fun c => (T.nodeAt c).byte == b)

/-- `TokTrie::child_at_bytes`: iterated `child_at_byte`. -/
def TokTrie.child_at_bytes (T : TokTrie) (off : Nat) : List Nat → Option Nat
  | [] => some off
  | b :: rest =>
    match T.child_at_byte off b with
    | none => none
    | some c => T.child_at_bytes c rest

/-- Rust slice `l[a..b]`: `none` models the panic when `a > b` or `b > len`. -/
def sliceQ (l : List Nat) (a b : Nat) : Option (List Nat) :=
  if a ≤ b ∧ b ≤ l.length then some ((l.drop a).take (b - a)) else none

/-- `TokTrie::token`: out-of-range ids give the empty slice; otherwise decode
the `(length, offset)` descriptor and slice the byte store. -/
def TokTrie.token (T : TokTrie) (idx : Nat) : Option (List Nat) :=
  if idx ≥ T.token_offsets.length then some []
  else
    let off := (T.token_offsets.get? idx).getD 0
    let len := off % 1024
    sliceQ T.token_data (off / 1024) (off / 1024 + len)

/-- `TokTrie::decode_raw`: concatenation of the token byte strings. -/
def TokTrie.decode_raw (T : TokTrie) : List Nat → Option (List Nat)
  | [] => some []
  | t :: ts =>
    match T.token t, T.decode_raw ts with
    | some w, some rest => some (w ++ rest)
    | _, _ => none

/-- `TokTrie::decode`: like `decode_raw` but with every `0xFF` special-token
marker byte removed (the Rust code only runs `retain` when a marker is present,
which computes the same list). -/
def TokTrie.decode (T : TokTrie) (tokens : List Nat) : Option (List Nat) :=
  (T.decode_raw tokens).map (List.filter (fun b => b != 255))

/-- The loop of `TokTrie::greedy_tokenize`.  State: current node offset,
input position, `last_tok`/`last_idx` of the most recent token match, and the
output so far.  `none` models the `last_tok.unwrap()` panic on a byte with no
coverage, and fuel exhaustion models the infinite loop the Rust code enters
when a restart makes no progress (the stale `last_tok` is kept, exactly as in
the source, which does not clear it on emit). -/
def TokTrie.greedyGo (T : TokTrie) (bytes : List Nat) :
    Nat → Nat → Option Nat → Nat → List Nat → Nat → Option (List Nat)
  | _, _, _, _, _, 0 => none
  | n, idx, last_tok, last_idx, r, fuel+1 =>
    if idx < bytes.length then
      match T.child_at_byte n ((bytes.get? idx).getD 0) with
      | some c =>
        match (T.nodeAt c).token_id with
        | some tok => T.greedyGo bytes c (idx + 1) (some tok) idx r fuel
        | none => T.greedyGo bytes c (idx + 1) last_tok last_idx r fuel
      | none =>
        match last_tok with
        | none => none
        | some tk => T.greedyGo bytes 0 (last_idx + 1) last_tok last_idx (r ++ [tk]) fuel
    else
      match last_tok with
      | none => none
      | some tk => some (r ++ [tk])

/-- `TokTrie::greedy_tokenize`. -/
def TokTrie.greedy_tokenize (T : TokTrie) (bytes : List Nat) : Option (List Nat) :=
  if bytes.length = 0 then some []
  else T.greedyGo bytes 0 0 none 0 [] ((bytes.length + 2) * (bytes.length + 2))

/-- The walk of `TokTrie::prefix_token_id`: track the deepest token found on
the path, as `(token, length)`. -/
def TokTrie.prefixGo (T : TokTrie) : List Nat → Nat → Nat → Nat × Nat → Nat × Nat
  | [], _, _, last => last
  | b :: rest, n, idx, last =>
    match T.child_at_byte n b with
    | none => last
    | some c =>
      match (T.nodeAt c).token_id with
      | some tok => T.prefixGo rest c (idx + 1) (tok, idx + 1)
      | none => T.prefixGo rest c (idx + 1) last

/-- `TokTrie::prefix_token_id`; `none` models the `assert!(bytes.len() > 0)`
panic. -/
def TokTrie.prefix_token_id (T : TokTrie) (bytes : List Nat) : Option (Nat × Nat) :=
  if bytes.length = 0 then none else some (T.prefixGo bytes 0 0 (0, 0))

/-- `TokTrie::token_id`: the exact-match case of `prefix_token_id`. -/
def TokTrie.token_id (T : TokTrie) (bytes : List Nat) : Option Nat :=
  match T.prefix_token_id bytes with
  | none => none
  | some (tok, len) => if len = bytes.length then some tok else none

mutual
/-- `TokTrie::validate_node`: check the node's token id (in range, not seen
before) and that its subtree ends within the parent's, then recurse into the
children.  The used-marks array is threaded; `none` models an assertion
failure.  Fuel bounds the recursion (sufficient for constructed tries). -/
def TokTrie.validateGo (T : TokTrie) : Nat → Nat → List Bool → Nat → Option (List Bool)
  | _, _, _, 0 => none
  | off, ep, used, fuel+1 =>
    let n := T.nodeAt off
    let used1? :=
      match n.token_id with
      | none => some used
      | some tok =>
        if tok < T.info.vocab_size then
          match used.get? tok with
          | some false => some (used.set tok true)
          | _ => none
        else none
    match used1? with
    | none => none
    | some used1 =>
      let endp := T.next_node off
      if endp ≤ ep then T.validateKids (off + 1) endp used1 fuel else none

def TokTrie.validateKids (T : TokTrie) : Nat → Nat → List Bool → Nat → Option (List Bool)
  | _, _, _, 0 => none
  | cur, endp, used, fuel+1 =>
    if cur < endp then
      match T.validateGo cur endp used fuel with
      | none => none
      | some used2 => T.validateKids (cur + (T.nodeAt cur).subtree_size) endp used2 fuel
    else some used
end

/-- The final loop of `TokTrie::validate`: touching `token(idx)` for every id
panics if a descriptor is out of range of the byte store. -/
def TokTrie.touchTokens (T : TokTrie) : Nat → Option Unit
  | 0 => some ()
  | n+1 =>
    match T.touchTokens n, T.token n with
    | some _, some _ => some ()
    | _, _ => none

/-- `TokTrie::validate`. -/
def TokTrie.validate (T : TokTrie) : Option Unit :=
  match T.validateGo 0 (T.next_node 0) (List.replicate T.info.vocab_size false)
      (2 * T.nodes.length + 4) with
  | none => none
  | some _ => T.touchTokens T.info.vocab_size

/-- `entry(k).or_insert_with(Vec::new).push(v)` on the association list. -/
def dupPush : List (Nat × List Nat) → Nat → Nat → List (Nat × List Nat)
  | [], k, v => [(k, [v])]
  | (k0, l0) :: rest, k, v =>
    if k0 = k then (k0, l0 ++ [v]) :: rest
    else (k0, l0) :: dupPush rest k v

/-- The per-token loop of `TokTrie::finalize_ctor`: re-tokenize every token
greedily; record a duplicate when the result is a one-token sequence with a
different id; track the maximum token length. -/
def TokTrie.finalizeLoop (T : TokTrie) :
    Nat → Nat → Nat → List (Nat × List Nat) → Option (Nat × List (Nat × List Nat))
  | _, 0, maxl, dups => some (maxl, dups)
  | i, rem+1, maxl, dups =>
    match T.token i with
    | none => none
    | some bytes =>
      match T.greedy_tokenize bytes with
      | none => none
      | some tok_ids =>
        let maxl2 := max maxl bytes.length
        let dups2 :=
          match tok_ids with
          | [k] => if k = i then dups else dupPush dups k i
          | _ => dups
        T.finalizeLoop (i + 1) rem maxl2 dups2

/-- `TokTrie::finalize_ctor`. -/
def TokTrie.finalize_ctor (T : TokTrie) : Option TokTrie :=
  match T.finalizeLoop 0 T.info.vocab_size T.max_token_len T.token_duplicates with
  | none => none
  | some (maxl, dups) =>
    let T2 : TokTrie :=
      { T with max_token_len := maxl, token_duplicates := dups }
    match T2.validate with
    | none => none
    | some _ => some T2

/-- The construction loop of `TokTrie::from`: insert each non-empty word,
check the length asserts, append the `(length, offset)` descriptor (the or of
disjoint bit fields, hence a sum under the asserts) and extend the byte
store.  Token ids are `idx as u32`. -/
def buildLoop :
    TrieHash → List Nat → List Nat → Nat → List (List Nat) →
    Option (TrieHash × List Nat × List Nat)
  | trie, offsets, data, _, [] => some (trie, offsets, data)
  | trie, offsets, data, idx, w :: ws =>
    let trie2 := if w.length > 0 then trie.insert w (u32mod idx) else trie
    if w.length < 1024 ∧ data.length < 4194304 then
      buildLoop trie2 (offsets ++ [w.length + data.length * 1024]) (data ++ w) (idx + 1) ws
    else none

/-- `TokTrie::from`: build the hash-trie and byte store, serialize the packed
nodes (root has `num_parents = 0` and edge byte `0xFF`), then finalize. -/
def TokTrie.fromVocab (info : TokRxInfo) (words : List (List Nat)) : Option TokTrie :=
  if info.vocab_size = u32mod words.length then
    match buildLoop (TrieHash.new 255) [] [] 0 words with
    | none => none
    | some (trie, offsets, data) =>
      match trie.serialize 0 with
      | none => none
      | some nodes =>
        TokTrie.finalize_ctor ⟨info, offsets, data, nodes, 0, []⟩
  else none

/-- Little-endian bytes of a `u32`. -/
def writeU32 (n : Nat) : List Nat :=
  [u32mod n % 256, u32mod n / 256 % 256, u32mod n / 65536 % 256, u32mod n / 16777216]

/-- Assemble a `u32` from four little-endian bytes (`% 256` models the `u8`
type of the input). -/
def mkLE (a b c d : Nat) : Nat :=
  a % 256 + b % 256 * 256 + c % 256 * 65536 + d % 256 * 16777216

/-- Read the little-endian `u32` at byte offset `off`. -/
def readU32 (l : List Nat) (off : Nat) : Nat :=
  mkLE ((l.get? off).getD 0) ((l.get? (off + 1)).getD 0)
    ((l.get? (off + 2)).getD 0) ((l.get? (off + 3)).getD 0)

/-- Byte image of the packed node array: each node is its two `u32` words,
little-endian (`repr(C)` layout of `TrieNode`). -/
def nodesToBytes : List TrieNode → List Nat
  | [] => []
  | n :: ns => writeU32 n.bits ++ writeU32 n.bits2 ++ nodesToBytes ns

/-- Modelled from the spec: `vec_from_bytes::<TrieNode>` decodes consecutive
8-byte little-endian records; a length that is not a multiple of the record
size is a cast failure (`none`). -/
def bytesToNodes : List Nat → Option (List TrieNode)
  | [] => some []
  | b0 :: b1 :: b2 :: b3 :: b4 :: b5 :: b6 :: b7 :: rest =>
    (bytesToNodes rest).map (fun ns => ⟨mkLE b0 b1 b2 b3, mkLE b4 b5 b6 b7⟩ :: ns)
  | _ => none

/-- Byte image of the token descriptor table. -/
def offsetsToBytes : List Nat → List Nat
  | [] => []
  | o :: os => writeU32 o ++ offsetsToBytes os

/-- Modelled from the spec: `vec_from_bytes::<u32>` decodes consecutive 4-byte
little-endian words. -/
def bytesToU32s : List Nat → Option (List Nat)
  | [] => some []
  | b0 :: b1 :: b2 :: b3 :: rest =>
    (bytesToU32s rest).map (fun os => mkLE b0 b1 b2 b3 :: os)
  | _ => none

/-- The header magic `0x558B6FD3`. -/
def MAGIC : Nat := 1435201491

/-- `TokTrie::serialize`: the 28-byte header followed by the node bytes, the
descriptor bytes and the token data.  Note the `token_data_bytes` header field
is written as `trie_data.len()` exactly as in the source. -/
def TokTrie.serialize (T : TokTrie) : List Nat :=
  writeU32 MAGIC ++ writeU32 28 ++
  writeU32 (nodesToBytes T.nodes).length ++
  writeU32 (offsetsToBytes T.token_offsets).length ++
  writeU32 (nodesToBytes T.nodes).length ++
  writeU32 T.info.vocab_size ++ writeU32 T.info.tok_eos ++
  nodesToBytes T.nodes ++ offsetsToBytes T.token_offsets ++ T.token_data

/-- `TokTrie::from_bytes`: parse the header (asserting the magic and the
header size), slice the three regions (token data is the remainder), decode
them, and finalize.  All assertion and slicing panics are `none`. -/
def TokTrie.from_bytes (bytes : List Nat) : Option TokTrie :=
  match sliceQ bytes 0 28 with
  | none => none
  | some _ =>
    let trie_bytes := readU32 bytes 8
    let token_offset_bytes := readU32 bytes 12
    if readU32 bytes 0 = MAGIC ∧ readU32 bytes 4 = 28 then
      match sliceQ bytes 28 (28 + trie_bytes) with
      | none => none
      | some nodeB =>
        match sliceQ bytes (28 + trie_bytes) (28 + trie_bytes + token_offset_bytes) with
        | none => none
        | some offB =>
          match bytesToNodes nodeB, bytesToU32s offB with
          | some nodes, some offsets =>
            TokTrie.finalize_ctor
              ⟨TokRxInfo.from_bin (readU32 bytes 20) (readU32 bytes 24),
                offsets, bytes.drop (28 + trie_bytes + token_offset_bytes),
                nodes, 0, []⟩
          | _, _ => none
    else none

/-- Modelled from the spec: the token-set bitset `SimpleVob` (spec section 6)
as the list of allowed token ids; `allow_token` sets a bit, `disallow_token`
clears it, `is_allowed` queries it.  Only the set of members matters. -/
abbrev SimpleVob := List Nat

def SimpleVob.allow_token (v : SimpleVob) (t : Nat) : SimpleVob := t :: v

def SimpleVob.disallow_token (v : SimpleVob) (t : Nat) : SimpleVob :=
  v.filter (fun x => x != t)

def SimpleVob.is_allowed (v : SimpleVob) (t : Nat) : Bool := v.contains t

/-- The recognizer interface (trait `Recognizer`), with every `&mut self`
method modelled as a state transformer.  `special_allowed` is only ever
queried for `EndOfSentence`, so the token argument is omitted. -/
structure Recognizer (σ : Type) where
  pop_bytes : σ → Nat → σ
  collapse : σ → σ
  special_allowed : σ → Bool × σ
  trie_finished : σ → σ
  trie_started : σ → σ
  try_push_byte : σ → Nat → Bool × σ

/-- The loop of `TokTrie::add_bias_inner`: linear pre-order iteration with
deferred pops.  On acceptance the node's token (or the sentinel `vocab_size`)
is allowed and, for a leaf, `num_parents` pops are deferred; on rejection the
subtree is skipped and `num_parents - 1` pops are deferred.  Returns the final
recognizer state, token set and pending pop count.  Fuel bounds the iteration
(the loop advances by `subtree_size ≥ 1` per step on constructed tries). -/
def TokTrie.biasGo {σ : Type} (T : TokTrie) (R : Recognizer σ) (endp : Nat) :
    Nat → Nat → σ → SimpleVob → Nat → σ × SimpleVob × Nat
  | _, next_pop, s, toks, 0 => (s, toks, next_pop)
  | p, next_pop, s, toks, fuel+1 =>
    if p < endp then
      let s1 := R.pop_bytes s next_pop
      let n := T.nodeAt p
      let res := R.try_push_byte s1 n.byte
      if res.1 then
        T.biasGo R endp (p + 1)
          (if n.subtree_size = 1 then n.num_parents else 0)
          res.2 (toks.allow_token (n.token_id.getD T.vocab_size)) fuel
      else
        T.biasGo R endp (p + n.subtree_size) (n.num_parents - 1) res.2 toks fuel
    else (s, toks, next_pop)

/-- `TokTrie::add_bias_inner`. -/
def TokTrie.add_bias_inner {σ : Type} (T : TokTrie) (R : Recognizer σ)
    (s : σ) (toks : SimpleVob) (off : Nat) : σ × SimpleVob × Nat :=
  T.biasGo R (off + (T.nodeAt off).subtree_size) (off + 1) 0 s toks (T.nodes.length + 1)

/-- The prefix-marking phase of `TokTrie::add_bias`: every nonempty prefix of
`start` that is exactly a token is allowed, regardless of the recognizer. -/
def TokTrie.prefixAllow (T : TokTrie) (start : List Nat) (toks : SimpleVob) : SimpleVob :=
  (List.range start.length).foldl (fun acc i =>
    match T.token_id (start.take (i + 1)) with
    | some tok => acc.allow_token tok
    | none => acc) toks

/-- `TokTrie::add_bias`: mark the prefixes of `start`, navigate to the start
node (returning early if absent), run the linear traversal, re-balance the
pops when `start` is empty, notify the recognizer, and clear the sentinel. -/
def TokTrie.add_bias {σ : Type} (T : TokTrie) (R : Recognizer σ)
    (s : σ) (toks : SimpleVob) (start : List Nat) : σ × SimpleVob :=
  let toks0 := if start.length > 0 then T.prefixAllow start toks else toks
  match T.child_at_bytes 0 start with
  | none => (s, toks0)
  | some off =>
    let s1 := R.trie_started s
    let r := T.add_bias_inner R s1 toks0 off
    let s3 := if start.length = 0 then R.pop_bytes r.1 r.2.2 else r.1
    (R.trie_finished s3, r.2.1.disallow_token T.vocab_size)

/-- `TokTrie::apply_duplicates`: for every allowed canonical token, allow all
its recorded duplicates. -/
def TokTrie.apply_duplicates (T : TokTrie) (logits : SimpleVob) : SimpleVob :=
  T.token_duplicates.foldl (fun lg kl =>
    if lg.is_allowed kl.1 then kl.2.foldl (fun l d => l.allow_token d) lg else lg) logits

/-- The loop of `TokTrie::has_valid_extensions`: same skeleton as the bias
loop but `break`s with `true` at the first accepted token node (leaving the
already-consumed `next_pop` untouched, as the source does). -/
def TokTrie.hvGo {σ : Type} (T : TokTrie) (R : Recognizer σ) (endp : Nat) :
    Nat → Nat → σ → Nat → Bool × σ × Nat
  | _, next_pop, s, 0 => (false, s, next_pop)
  | p, next_pop, s, fuel+1 =>
    if p < endp then
      let s1 := R.pop_bytes s next_pop
      let n := T.nodeAt p
      let res := R.try_push_byte s1 n.byte
      if res.1 then
        if n.token_id.isSome then (true, res.2, next_pop)
        else
          T.hvGo R endp (p + 1)
            (if n.subtree_size = 1 then n.num_parents else 0) res.2 fuel
      else
        T.hvGo R endp (p + n.subtree_size) (n.num_parents - 1) res.2 fuel
    else (false, s, next_pop)

/-- `TokTrie::has_valid_extensions`. -/
def TokTrie.has_valid_extensions {σ : Type} (T : TokTrie) (R : Recognizer σ)
    (s : σ) (start : List Nat) : Bool × σ :=
  match T.child_at_bytes 0 start with
  | none => (false, s)
  | some off =>
    let s1 := R.trie_started s
    let r := T.hvGo R (off + (T.nodeAt off).subtree_size) (off + 1) 0 s1 (T.nodes.length + 1)
    let s3 := if start.length = 0 then R.pop_bytes r.2.1 r.2.2 else r.2.1
    (r.1, R.trie_finished s3)

/-- The DFS of `TokTrie::get_special_tokens`: pop a node, append the token ids
of its children in child order, push the children (so the last child is
processed first). -/
def TokTrie.specialsGo (T : TokTrie) : List Nat → List Nat → Nat → Option (List Nat)
  | [], res, _ => some res
  | _, _, 0 => none
  | off :: stack, res, fuel+1 =>
    let kids := T.childOffsets off
    T.specialsGo (kids.reverse ++ stack)
      (res ++ kids.filterMap (fun c => (T.nodeAt c).token_id)) fuel

/-- `TokTrie::get_special_tokens`: walk the subtree of the `0xFF` child of the
root and then unconditionally drop the first collected id (`res.remove(0)`).
`none` models the `expect` panic when there is no `0xFF` child and the
`remove(0)` panic when nothing was collected. -/
def TokTrie.get_special_tokens (T : TokTrie) : Option (List Nat) :=
  match T.child_at_byte 0 255 with
  | none => none
  | some pref_node =>
    match T.specialsGo [pref_node] [] (T.nodes.length + 2) with
    | none => none
    | some res =>
      match res with
      | [] => none
      | _ :: rest => some rest

/-- A recognizer with deterministic byte acceptance: its state is the stack of
bytes pushed since the traversal started (top first), and `try_push_byte`
succeeds exactly when the viability predicate `V` holds of the pushed byte
string (in push order). -/
def stackRec (V : List Nat → Bool) : Recognizer (List Nat) :=
  { pop_bytes := fun s n => s.drop n
    collapse := fun s => s
    special_allowed := fun s => (false, s)
    trie_finished := fun s => s
    trie_started := fun s => s
    try_push_byte := fun s b => if V ((b :: s).reverse) then (true, b :: s) else (false, s) }

/-- Instrument an arbitrary recognizer with counters for the number of bytes
pushed (successful `try_push_byte` calls) and popped (sum of `pop_bytes`
arguments). -/
def countRec {σ : Type} (R : Recognizer σ) : Recognizer (σ × Nat × Nat) :=
  { pop_bytes := fun s n => (R.pop_bytes s.1 n, s.2.1, s.2.2 + n)
    collapse := fun s => (R.collapse s.1, s.2)
    special_allowed := fun s =>
      ((R.special_allowed s.1).1, ((R.special_allowed s.1).2, s.2))
    trie_finished := fun s => (R.trie_finished s.1, s.2)
    trie_started := fun s => (R.trie_started s.1, s.2)
    try_push_byte := fun s b =>
      let r := R.try_push_byte s.1 b
      (r.1, r.2, (if r.1 then s.2.1 + 1 else s.2.1), s.2.2) }

/-! Specification-side definitions, written from the words of the spec and of
the claims, to be compared with the code model above. -/

/-- Boolean list prefix test: `isPfxOf a b` holds when `a` is a prefix of `b`. -/
def isPfxOf : List Nat → List Nat → Bool
  | [], _ => true
  | _ :: _, [] => false
  | a :: as, b :: bs => a == b && isPfxOf as bs

/-- A recognizer with byte-viability predicate `V` accepts the byte string
`rest` from the state reached after pushing `path`: every intermediate pushed
string must be viable. -/
def acceptsFrom (V : List Nat → Bool) : List Nat → List Nat → Bool
  | _, [] => true
  | path, b :: rest => V (path ++ [b]) && acceptsFrom V (path ++ [b]) rest

/-- Spec side of C1, before duplicate mirroring: token `t` is allowed when its
bytes are a nonempty prefix of `start` (a token equal to a forced prefix,
marked regardless of the recognizer), or when its bytes properly extend
`start` and the recognizer accepts the bytes beyond `start` from the current
state. -/
def biasSpecBase (ws : List (List Nat)) (V : List Nat → Bool)
    (start : List Nat) (t : Nat) : Bool :=
  match ws.get? t with
  | none => false
  | some w =>
    (!w.isEmpty && isPfxOf w start) ||
    (isPfxOf start w && w != start && acceptsFrom V [] (w.drop start.length))

/-- Spec side of C1: the base set together with every duplicate-map alias of
an allowed canonical token. -/
def biasSpec (dups : List (Nat × List Nat)) (ws : List (List Nat))
    (V : List Nat → Bool) (start : List Nat) (t : Nat) : Bool :=
  biasSpecBase ws V start t ||
  dups.any (fun kl => kl.2.contains t && biasSpecBase ws V start kl.1)

/-- Spec side of C2 as the claim words it: some vocabulary token has `start`
as a prefix (a token exactly equal to `start` explicitly included) and the
recognizer accepts the token's bytes beyond `start` from the current state. -/
def hasExtSpecIncl (ws : List (List Nat)) (V : List Nat → Bool)
    (start : List Nat) : Bool :=
  (List.range ws.length).any (fun t =>
    match ws.get? t with
    | some w => isPfxOf start w && acceptsFrom V [] (w.drop start.length)
    | none => false)

/-- Spec side of the amended C2: some vocabulary token properly extends
`start` and the recognizer accepts its bytes beyond `start`. -/
def hasExtSpec (ws : List (List Nat)) (V : List Nat → Bool)
    (start : List Nat) : Bool :=
  (List.range ws.length).any (fun t =>
    match ws.get? t with
    | some w => isPfxOf start w && w != start && acceptsFrom V [] (w.drop start.length)
    | none => false)

/-! Semantic functions on the hash-trie, used to state the correspondence
between the packed engine and the vocabulary. -/

/-- Decode a raw 24-bit token field exactly as the packed node accessors do:
the field is stored modulo 2^24 and `NO_TOKEN` means absent. -/
def tokDecode (raw : Nat) : Option Nat :=
  if raw % 16777216 = NO_TOKEN then none else some (raw % 16777216)

/-- First child with the given edge byte. -/
def findChild (cs : List TrieHash) (b : Nat) : Option TrieHash :=
  cs.find? (fun c => c.byte == b)

/-- Walk a byte string down the hash-trie. -/
def TrieHash.walk : TrieHash → List Nat → Option TrieHash
  | t, [] => some t
  | t, b :: rest =>
    match findChild t.children b with
    | none => none
    | some c => c.walk rest

/-- The decoded token id stored at path `w` of the hash-trie. -/
def TrieHash.tokenAt (t : TrieHash) (w : List Nat) : Option Nat :=
  match t.walk w with
  | none => none
  | some u => tokDecode u.token_id

/-- The raw (`as u32`) id of the last vocabulary entry from index `idx` on
whose word is the nonempty string `w`. -/
def lastRawFrom (idx : Nat) : List (List Nat) → List Nat → Option Nat
  | [], _ => none
  | w0 :: rest, w =>
    match lastRawFrom (idx + 1) rest w with
    | some k => some k
    | none => if w0 = w ∧ w ≠ [] then some (u32mod idx) else none

/-- The pure insertion fold of `TokTrie::from` (the asserts live in
`buildLoop`). -/
def hashFold : TrieHash → Nat → List (List Nat) → TrieHash
  | t, _, [] => t
  | t, idx, w :: ws =>
    hashFold (if w.length > 0 then t.insert w (u32mod idx) else t) (idx + 1) ws

mutual
/-- `collectH V defl stk x t`: the bias traversal that reaches subtree `t`
with pushed stack `stk` (top first) collects `x` inside `t`: the subtree root
byte must be accepted, and `x` is the root's token (or the sentinel `defl`) or
is collected in some child. -/
def collectH (V : List Nat → Bool) (defl : Nat) : List Nat → Nat → TrieHash → Bool
  | stk, x, ⟨raw, b, cs⟩ =>
    V ((b :: stk).reverse) &&
      (x == (tokDecode raw).getD defl || collectHL V defl (b :: stk) x cs)

def collectHL (V : List Nat → Bool) (defl : Nat) : List Nat → Nat → List TrieHash → Bool
  | _, _, [] => false
  | stk, x, c :: cs => collectH V defl stk x c || collectHL V defl stk x cs
end

mutual
/-- `foundH V stk t`: some accepted node of subtree `t` carries a token. -/
def foundH (V : List Nat → Bool) : List Nat → TrieHash → Bool
  | stk, ⟨raw, b, cs⟩ =>
    V ((b :: stk).reverse) && ((tokDecode raw).isSome || foundHL V (b :: stk) cs)

def foundHL (V : List Nat → Bool) : List Nat → List TrieHash → Bool
  | _, [] => false
  | stk, c :: cs => foundH V stk c || foundHL V stk cs
end

mutual
/-- Number of dense (≥ 256 children) nodes, for the node-count accounting. -/
def TrieHash.nDense : TrieHash → Nat
  | ⟨_, _, cs⟩ => (if 256 ≤ cs.length then 1 else 0) + TrieHash.nDenseList cs

def TrieHash.nDenseList : List TrieHash → Nat
  | [] => 0
  | c :: cs => TrieHash.nDense c + TrieHash.nDenseList cs
end

/-- Well-formedness of a hash-trie as `TrieHash::insert` maintains it:
children have pairwise distinct edge bytes below 256 (edge bytes are `u8` in
Rust), at most 256 children, and a dense (256-entry) child list is indexed by
byte, recursively. -/
inductive WfH : TrieHash → Prop
  | mk (tok byte : Nat) (cs : List TrieHash) :
      (cs.map TrieHash.byte).Nodup →
      (∀ c ∈ cs, c.byte < 256) →
      cs.length ≤ 256 →
      (cs.length = 256 → ∀ i c, cs.get? i = some c → c.byte = i) →
      (∀ c ∈ cs, WfH c) →
      WfH ⟨tok, byte, cs⟩

/-- The node segment `seg` occupies offsets `[off, off + seg.length)` of the
packed array `ns`. -/
def listAt (ns : List TrieNode) (off : Nat) (seg : List TrieNode) : Prop :=
  ∃ pre post, ns = pre ++ seg ++ post ∧ pre.length = off

/-- Offsets of consecutive sibling subtrees laid out from `off`. -/
def childOffsList (off : Nat) : List TrieHash → List Nat
  | [] => []
  | c :: cs => off :: childOffsList (off + c.nNodes) cs

/-- The token descriptors `buildLoop` generates for words appended starting at
byte-store offset `dlen`. -/
def descList (dlen : Nat) : List (List Nat) → List Nat
  | [] => []
  | w :: ws => (w.length + dlen * 1024) :: descList (dlen + w.length) ws

/-- The bounds the `buildLoop` asserts guarantee at every step. -/
def descOKb : Nat → List (List Nat) → Prop
  | _, [] => True
  | dlen, w :: ws => w.length < 1024 ∧ dlen < 4194304 ∧ descOKb (dlen + w.length) ws

/-- The densify-aware size measure: node count minus five per dense node.
Positive for every tree, and `insert` grows it by at most the word length. -/
def MM (t : TrieHash) : Int := (t.nNodes : Int) - 5 * t.nDense

def MML (cs : List TrieHash) : Int :=
  (TrieHash.nNodesList cs : Int) - 5 * TrieHash.nDenseList cs

/-- The subtree `t` is serialized (with parent count `np`) as a segment of the
packed array `ns` starting at offset `off`. -/
def placedN (ns : List TrieNode) (t : TrieHash) (np off : Nat) : Prop :=
  ∃ fuel l, TrieHash.serializeNodes fuel t np = some l ∧ listAt ns off l

/-- The child list `cs` is serialized (with parent count `np`) as consecutive
segments of `ns` starting at offset `off`. -/
def placedCL (ns : List TrieNode) (cs : List TrieHash) (np off : Nat) : Prop :=
  ∃ fuel body, serializeChildList fuel cs np = some body ∧ listAt ns off body

/-- A concrete constructed trie (vocabulary `{"a"}`) used by witnesses. -/
def Tsample : TokTrie :=
  ⟨TokRxInfo.new 1 0, [1], [97], [⟨4294967295, 512⟩, ⟨97, 257⟩], 1, []⟩

/-- Spec-side canonical-id predicate: `c` is the id the trie stores for its
own (nonempty) word, i.e. the last occurrence of that word. -/
def isCanon (ws : List (List Nat)) (c : Nat) : Prop :=
  ∃ wc, ws.get? c = some wc ∧ wc ≠ [] ∧ lastRawFrom 0 ws wc = some c

/-- Spec-side alias map: `j` is a non-canonical occurrence of its word, whose
canonical id is `m`. -/
def aliasTo (ws : List (List Nat)) (j : Nat) : Option Nat :=
  match ws.get? j with
  | none => none
  | some w =>
    if w = [] then none
    else
      match lastRawFrom 0 ws w with
      | none => none
      | some m => if m = j then none else some m

/-- Entries of a well-formed duplicate map: every recorded alias points to the
entry key, and the key is canonical. -/
def GoodDup (ws : List (List Nat)) (kl : Nat × List Nat) : Prop :=
  (∀ x ∈ kl.2, aliasTo ws x = some kl.1) ∧ isCanon ws kl.1

/-- Spec-side mirror of the `prefix_token_id` walk over the hash-trie. -/
def prefixSpecGo : List Nat → TrieHash → Nat → (Nat × Nat) → Nat × Nat
  | [], _, _, last => last
  | b :: rest, u, idx, last =>
    match findChild u.children b with
    | none => last
    | some c =>
      match tokDecode c.token_id with
      | some tok => prefixSpecGo rest c (idx + 1) (tok, idx + 1)
      | none => prefixSpecGo rest c (idx + 1) last

/-! ## Lemmas -/

theorem u32mod_shl8 (n : Nat) : u32mod (n <<< 8) = 256 * (n % 16777216) := by
  rw [Nat.shiftLeft_eq, u32mod]
  rw [show (2 : Nat) ^ 8 = 256 from rfl, Nat.mul_comm n 256,
    show (4294967296 : Nat) = 256 * 16777216 from rfl, Nat.mul_mod_mul_left]

theorem make_byte (b tok np s : Nat) : (TrieNode.make b tok np s).byte = b % 256 := by
  simp only [TrieNode.make, TrieNode.byte, u32mod_shl8]
  omega

theorem make_token_id (b tok np s : Nat) :
    (TrieNode.make b tok np s).token_id = tokDecode tok := by
  simp only [TrieNode.make, TrieNode.token_id, tokDecode, u32mod_shl8]
  have h : (256 * (tok % 16777216) + b % 256) / 256 = tok % 16777216 := by omega
  rw [h]

theorem make_num_parents (b tok np s : Nat) :
    (TrieNode.make b tok np s).num_parents = np % 256 := by
  simp only [TrieNode.make, TrieNode.num_parents, u32mod_shl8]
  omega

theorem make_subtree_size (b tok np s : Nat) :
    (TrieNode.make b tok np s).subtree_size = s % 16777216 := by
  simp only [TrieNode.make, TrieNode.subtree_size, u32mod_shl8]
  omega

theorem get?_append_self {α : Type} (pre : List α) (a : α) (rest : List α) :
    (pre ++ a :: rest).get? pre.length = some a := by
  induction pre with
  | nil => rfl
  | cons x pre ih => simpa using ih

theorem listAt_append {ns : List TrieNode} {off : Nat} {s1 s2 : List TrieNode}
    (h : listAt ns off (s1 ++ s2)) :
    listAt ns off s1 ∧ listAt ns (off + s1.length) s2 := by
  obtain ⟨pre, post, hsplit, hlen⟩ := h
  constructor
  · exact ⟨pre, s2 ++ post, by simp [hsplit], hlen⟩
  · exact ⟨pre ++ s1, post, by simp [hsplit], by simp [hlen]⟩

theorem listAt_cons {ns : List TrieNode} {off : Nat} {n : TrieNode}
    {seg : List TrieNode} (h : listAt ns off (n :: seg)) :
    ns.get? off = some n ∧ listAt ns (off + 1) seg := by
  obtain ⟨pre, post, hsplit, hlen⟩ := h
  constructor
  · rw [hsplit, ← hlen]
    simpa using get?_append_self pre n (seg ++ post)
  · exact ⟨pre ++ [n], post, by simp [hsplit], by simp [hlen]⟩

theorem listAt_le_length {ns : List TrieNode} {off : Nat} {seg : List TrieNode}
    (h : listAt ns off seg) : off + seg.length ≤ ns.length := by
  obtain ⟨pre, post, hsplit, hlen⟩ := h
  rw [hsplit]
  simp [hlen]

/-! Lemmas on `findChild` and `TrieHash.insert`. -/

theorem findChild_cons (c : TrieHash) (cs : List TrieHash) (b : Nat) :
    findChild (c :: cs) b = if c.byte = b then some c else findChild cs b := by
  simp only [findChild, List.find?_cons]
  by_cases h : c.byte = b
  · rw [if_pos h, show (c.byte == b) = true from beq_iff_eq.mpr h]
  · rw [if_neg h, show (c.byte == b) = false from beq_eq_false_iff_ne.mpr h]

theorem findChild_eq_some {cs : List TrieHash} {b : Nat} {c : TrieHash}
    (h : findChild cs b = some c) : c ∈ cs ∧ c.byte = b := by
  refine ⟨List.mem_of_find?_eq_some h, ?_⟩
  have := List.find?_some h
  simpa using this

theorem findChild_eq_none {cs : List TrieHash} {b : Nat} :
    findChild cs b = none ↔ ∀ c ∈ cs, c.byte ≠ b := by
  simp [findChild, List.find?_eq_none]

theorem findChild_set {cs : List TrieHash} {i : Nat} {c c' : TrieHash}
    (hget : cs.get? i = some c)
    (hbefore : ∀ j, j < i → ∀ cj, cs.get? j = some cj → cj.byte ≠ c.byte)
    (hbyte : c'.byte = c.byte) (b : Nat) :
    findChild (cs.set i c') b = if b = c.byte then some c' else findChild cs b := by
  induction cs generalizing i with
  | nil => simp at hget
  | cons d ds ih =>
    match i with
    | 0 =>
      have hd : d = c := by simpa using hget
      subst hd
      simp only [List.set]
      rw [findChild_cons, findChild_cons, hbyte]
      by_cases hb : b = d.byte
      · rw [if_pos hb.symm, if_pos hb]
      · rw [if_neg (fun hh => hb hh.symm), if_neg hb, if_neg (fun hh => hb hh.symm)]
    | j + 1 =>
      have hget' : ds.get? j = some c := by simpa using hget
      have hd : d.byte ≠ c.byte := by
        have := hbefore 0 (by omega) d (by simp)
        exact this
      have hbefore' : ∀ j', j' < j → ∀ cj, ds.get? j' = some cj → cj.byte ≠ c.byte := by
        intro j' hj' cj hcj
        exact hbefore (j' + 1) (by omega) cj (by simpa using hcj)
      simp only [List.set]
      rw [findChild_cons, findChild_cons, ih hget' hbefore']
      by_cases hb : b = c.byte
      · rw [if_pos hb, if_neg (by rw [hb]; exact hd), if_pos hb]
      · rw [if_neg hb, if_neg hb]

theorem TrieHash.byte_insert (t : TrieHash) (w : List Nat) (tid : Nat) :
    (t.insert w tid).byte = t.byte := by
  cases t with
  | mk tok byte cs =>
    cases w with
    | nil => rfl
    | cons b rest =>
      simp only [TrieHash.insert]
      repeat' split
      all_goals rfl

theorem findChild_pos {l : List TrieHash} {i b : Nat} {c : TrieHash}
    (hget : l.get? i = some c) (hbyte : c.byte = b)
    (hbefore : ∀ j, j < i → ∀ cj, l.get? j = some cj → cj.byte ≠ b) :
    findChild l b = some c := by
  induction l generalizing i with
  | nil => simp at hget
  | cons d ds ih =>
    match i with
    | 0 =>
      have hd : d = c := by simpa using hget
      subst hd
      rw [findChild_cons, if_pos hbyte]
    | j + 1 =>
      have hget' : ds.get? j = some c := by simpa using hget
      have hd : d.byte ≠ b := hbefore 0 (by omega) d (by simp)
      rw [findChild_cons, if_neg hd]
      exact ih hget' (fun j' hj' cj hcj => hbefore (j' + 1) (by omega) cj (by simpa using hcj))

theorem foldl_set_get? (cs : List TrieHash) (v2 : List TrieHash)
    (hlen : v2.length = 256)
    (hlt : ∀ c ∈ cs, c.byte < 256) (hnd : (cs.map TrieHash.byte).Nodup)
    (i : Nat) (hi : i < 256) :
    (cs.foldl (fun v2 ch => v2.set ch.byte ch) v2).get? i =
      match findChild cs i with
      | some c => some c
      | none => v2.get? i := by
  induction cs generalizing v2 with
  | nil => simp [findChild]
  | cons c0 cs' ih =>
    simp only [List.foldl]
    have hnd' : (cs'.map TrieHash.byte).Nodup := (List.nodup_cons.mp hnd).2
    have hmem : c0.byte ∉ cs'.map TrieHash.byte := (List.nodup_cons.mp hnd).1
    rw [ih (v2.set c0.byte c0) (by simp [hlen]) (fun c h => hlt c (by simp [h])) hnd']
    rw [findChild_cons]
    by_cases hb : c0.byte = i
    · rw [if_pos hb]
      have hnone : findChild cs' i = none := by
        refine findChild_eq_none.mpr (fun c hc hbyte => hmem ?_)
        rw [hb]
        rw [← hbyte]
        exact List.mem_map_of_mem _ hc
      rw [hnone]
      subst hb
      simp [List.get?_eq_getElem?, List.getElem?_set, hlen, hlt c0 (by simp)]
    · rw [if_neg hb]
      have hset : (v2.set c0.byte c0).get? i = v2.get? i := List.get?_set_ne _ _ hb
      cases hfc : findChild cs' i with
      | some c => rfl
      | none => rw [hset]

theorem densify_length (cs : List TrieHash) : (densify cs).length = 256 := by
  unfold densify
  generalize hv : (List.range 256).map TrieHash.new = v2
  have hlen : v2.length = 256 := by rw [← hv]; simp
  clear hv
  induction cs generalizing v2 with
  | nil => simpa using hlen
  | cons c0 cs' ih => exact ih (v2.set c0.byte c0) (by simp [hlen])

theorem densify_get? (cs : List TrieHash)
    (hlt : ∀ c ∈ cs, c.byte < 256) (hnd : (cs.map TrieHash.byte).Nodup)
    (i : Nat) (hi : i < 256) :
    (densify cs).get? i =
      match findChild cs i with
      | some c => some c
      | none => some (TrieHash.new i) := by
  unfold densify
  rw [foldl_set_get? cs _ (by simp) hlt hnd i hi]
  cases hfc : findChild cs i with
  | some c => rfl
  | none =>
    have : ((List.range 256).map TrieHash.new).get? i = some (TrieHash.new i) := by
      simp [List.get?_eq_getElem?, List.getElem?_map, List.getElem?_range, hi]
    rw [this]

theorem densify_byte_align (cs : List TrieHash)
    (hlt : ∀ c ∈ cs, c.byte < 256) (hnd : (cs.map TrieHash.byte).Nodup) :
    ∀ i c, (densify cs).get? i = some c → c.byte = i := by
  intro i c hget
  have hi : i < 256 := by
    by_contra hge
    rw [List.get?_eq_getElem?, List.getElem?_eq_none (by rw [densify_length]; omega)] at hget
    exact Option.noConfusion hget
  rw [densify_get? cs hlt hnd i hi] at hget
  cases hfc : findChild cs i with
  | some c' =>
    rw [hfc] at hget
    obtain ⟨_, hbyte⟩ := findChild_eq_some hfc
    cases hget
    exact hbyte
  | none =>
    rw [hfc] at hget
    cases hget
    rfl

theorem findChild_densify (cs : List TrieHash)
    (hlt : ∀ c ∈ cs, c.byte < 256) (hnd : (cs.map TrieHash.byte).Nodup) (b : Nat) :
    findChild (densify cs) b =
      if b < 256 then
        match findChild cs b with
        | some c => some c
        | none => some (TrieHash.new b)
      else none := by
  by_cases hb : b < 256
  · rw [if_pos hb]
    have hget : (densify cs).get? b =
        match findChild cs b with
        | some c => some c
        | none => some (TrieHash.new b) := densify_get? cs hlt hnd b hb
    have halign := densify_byte_align cs hlt hnd
    cases hfc : findChild cs b with
    | some c =>
      rw [hfc] at hget
      exact findChild_pos hget (halign b c hget)
        (fun j hj cj hcj => by rw [halign j cj hcj]; omega)
    | none =>
      rw [hfc] at hget
      exact findChild_pos hget (halign b _ hget)
        (fun j hj cj hcj => by rw [halign j cj hcj]; omega)
  · rw [if_neg hb]
    refine findChild_eq_none.mpr (fun c hc => ?_)
    obtain ⟨i, hget⟩ := List.mem_iff_get?.mp hc
    have hi : i < 256 := by
      have := List.get?_eq_some.mp hget
      obtain ⟨hlen, _⟩ := this
      rw [densify_length] at hlen
      exact hlen
    rw [densify_byte_align cs hlt hnd i c hget]
    omega

theorem densify_mem (cs : List TrieHash)
    (hlt : ∀ c ∈ cs, c.byte < 256) (hnd : (cs.map TrieHash.byte).Nodup)
    {c' : TrieHash} (h : c' ∈ densify cs) :
    c' ∈ cs ∨ ∃ b, b < 256 ∧ c' = TrieHash.new b := by
  obtain ⟨i, hget⟩ := List.mem_iff_get?.mp h
  have hi : i < 256 := by
    have := (List.get?_eq_some.mp hget).1
    rw [densify_length] at this
    exact this
  rw [densify_get? cs hlt hnd i hi] at hget
  cases hfc : findChild cs i with
  | some c =>
    rw [hfc] at hget
    cases hget
    exact Or.inl (findChild_eq_some hfc).1
  | none =>
    rw [hfc] at hget
    cases hget
    exact Or.inr ⟨i, hi, rfl⟩

theorem densify_map_byte (cs : List TrieHash)
    (hlt : ∀ c ∈ cs, c.byte < 256) (hnd : (cs.map TrieHash.byte).Nodup) :
    (densify cs).map TrieHash.byte = List.range 256 := by
  apply List.ext_get?
  intro j
  rw [List.get?_map]
  by_cases hj : j < 256
  · rw [densify_get? cs hlt hnd j hj]
    have hr : (List.range 256).get? j = some j := by
      simp [List.get?_eq_getElem?, List.getElem?_range, hj]
    rw [hr]
    cases hfc : findChild cs j with
    | some c =>
      obtain ⟨_, hbyte⟩ := findChild_eq_some hfc
      simp [hbyte]
    | none => rfl
  · have h1 : (densify cs).get? j = none := by
      rw [List.get?_eq_getElem?, List.getElem?_eq_none]
      rw [densify_length]
      omega
    have h2 : (List.range 256).get? j = none := by
      rw [List.get?_eq_getElem?, List.getElem?_eq_none]
      simpa using by omega
    rw [h1, h2]
    rfl

theorem WfH_new (b : Nat) : WfH (TrieHash.new b) :=
  WfH.mk _ _ [] (by simp) (by simp) (by simp) (by simp) (by simp)

theorem map_byte_set {cs : List TrieHash} {i : Nat} {c c' : TrieHash}
    (hget : cs.get? i = some c) (hbyte : c'.byte = c.byte) :
    (cs.set i c').map TrieHash.byte = cs.map TrieHash.byte := by
  apply List.ext_get?
  intro j
  rw [List.get?_map, List.get?_map]
  by_cases hj : i = j
  · subst hj
    rw [List.get?_set_eq, hget]
    simp [hbyte]
  · rw [List.get?_set_ne _ _ hj]

/-- The child found by `findIdx` in the sparse branch of `insert`. -/
theorem findIdx_byte {cs : List TrieHash} {b : Nat}
    (h : cs.findIdx (fun c => c.byte == b) < cs.length) :
    (cs.get ⟨cs.findIdx (fun c => c.byte == b), h⟩).byte = b := by
  have := @List.findIdx_get _ _ _ h
  simpa using this

theorem findIdx_before {cs : List TrieHash} {b : Nat} {j : Nat}
    (hj : j < cs.findIdx (fun c => c.byte == b)) :
    ∀ cj, cs.get? j = some cj → cj.byte ≠ b := by
  intro cj hcj
  have hjlen : j < cs.length := by
    have := @List.findIdx_le_length _ (fun c => c.byte == b) cs
    omega
  have := List.not_of_lt_findIdx hj
  rw [List.get?_eq_getElem?, List.getElem?_eq_getElem hjlen] at hcj
  cases hcj
  simpa using this

theorem findIdx_all_ne {cs : List TrieHash} {b : Nat}
    (h : ¬ cs.findIdx (fun c => c.byte == b) < cs.length) :
    ∀ c ∈ cs, c.byte ≠ b := by
  have hle := @List.findIdx_le_length _ (fun c => c.byte == b) cs
  have heq : cs.findIdx (fun c => c.byte == b) = cs.length := by omega
  intro c hc
  have := List.findIdx_eq_length.mp heq c hc
  simpa using this

theorem tokenAt_cons (tok byte : Nat) (cs : List TrieHash) (b : Nat) (rest : List Nat) :
    TrieHash.tokenAt ⟨tok, byte, cs⟩ (b :: rest) =
      match findChild cs b with
      | none => none
      | some c => c.tokenAt rest := by
  simp only [TrieHash.tokenAt, TrieHash.walk, TrieHash.children]
  cases findChild cs b with
  | none => rfl
  | some c => rfl

theorem tokenAt_new (b : Nat) (u : List Nat) : (TrieHash.new b).tokenAt u = none := by
  cases u with
  | nil => simp [TrieHash.tokenAt, TrieHash.walk, TrieHash.new, tokDecode, NO_TOKEN,
      TrieHash.token_id]
  | cons x u' =>
    rw [show TrieHash.new b = (⟨NO_TOKEN, b, []⟩ : TrieHash) from rfl, tokenAt_cons]
    rfl

theorem tokenAt_densify (tok byte : Nat) (cs : List TrieHash)
    (hlt : ∀ c ∈ cs, c.byte < 256) (hnd : (cs.map TrieHash.byte).Nodup)
    (u : List Nat) :
    TrieHash.tokenAt ⟨tok, byte, densify cs⟩ u = TrieHash.tokenAt ⟨tok, byte, cs⟩ u := by
  cases u with
  | nil => rfl
  | cons b rest =>
    rw [tokenAt_cons, tokenAt_cons, findChild_densify cs hlt hnd b]
    by_cases hb : b < 256
    · rw [if_pos hb]
      cases hfc : findChild cs b with
      | some c => rfl
      | none => exact tokenAt_new b rest
    · rw [if_neg hb]
      have : findChild cs b = none :=
        findChild_eq_none.mpr (fun c hc => by have := hlt c hc; omega)
      rw [this]

theorem WfH_insert (w : List Nat) (tid : Nat) :
    ∀ (t : TrieHash), (∀ b ∈ w, b < 256) → WfH t → WfH (t.insert w tid) := by
  induction w with
  | nil =>
    intro t _ ht
    cases t with
    | mk tok byte cs =>
      cases ht with
      | mk _ _ _ hnd hlt hle hal hwf => exact WfH.mk _ _ _ hnd hlt hle hal hwf
  | cons b rest ih =>
    intro t hw ht
    have hb : b < 256 := hw b (by simp)
    have hrest : ∀ x ∈ rest, x < 256 := fun x hx => hw x (by simp [hx])
    cases t with
    | mk tok byte cs =>
      cases ht with
      | mk _ _ _ hnd hlt hle hal hwf =>
        simp only [TrieHash.insert]
        by_cases hdense : cs.length = 256
        · rw [if_pos hdense]
          have hblen : b < cs.length := by omega
          have hget : cs.get? b = some (cs.get ⟨b, hblen⟩) := List.get?_eq_get hblen
          rw [hget]
          set c := cs.get ⟨b, hblen⟩ with hc
          have hcmem : c ∈ cs := List.get_mem cs b hblen
          have hbyte' : (c.insert rest tid).byte = c.byte := TrieHash.byte_insert c rest tid
          refine WfH.mk _ _ _ ?_ ?_ ?_ ?_ ?_
          · rw [map_byte_set hget hbyte']
            exact hnd
          · intro c' hc'
            rcases List.mem_or_eq_of_mem_set hc' with hmem | heq
            · exact hlt c' hmem
            · rw [heq, hbyte']
              exact hlt c hcmem
          · rw [List.length_set]
            exact hle
          · intro hlen i ci hci
            rw [List.length_set] at hlen
            by_cases hib : i = b
            · subst hib
              have hset : (cs.set i (c.insert rest tid)).get? i = some (c.insert rest tid) := by
                rw [List.get?_set_eq, hget]
                rfl
              rw [hset] at hci
              cases hci
              rw [hbyte']
              exact hal hlen i c hget
            · rw [List.get?_set_ne _ _ (fun hh => hib hh.symm)] at hci
              exact hal hlen i ci hci
          · intro c' hc'
            rcases List.mem_or_eq_of_mem_set hc' with hmem | heq
            · exact hwf c' hmem
            · rw [heq]
              exact ih c hrest (hwf c hcmem)
        · rw [if_neg hdense]
          by_cases hfound : cs.findIdx (fun c => c.byte == b) < cs.length
          · rw [dif_pos hfound]
            set i := cs.findIdx (fun c => c.byte == b) with hi
            set c := cs.get ⟨i, hfound⟩ with hc
            have hget : cs.get? i = some c := List.get?_eq_get hfound
            have hcmem : c ∈ cs := List.get_mem cs i hfound
            have hcbyte : c.byte = b := findIdx_byte hfound
            have hbyte' : (c.insert rest tid).byte = c.byte := TrieHash.byte_insert c rest tid
            refine WfH.mk _ _ _ ?_ ?_ ?_ ?_ ?_
            · rw [map_byte_set hget hbyte']
              exact hnd
            · intro c' hc'
              rcases List.mem_or_eq_of_mem_set hc' with hmem | heq
              · exact hlt c' hmem
              · rw [heq, hbyte']
                exact hlt c hcmem
            · rw [List.length_set]
              exact hle
            · intro hlen
              rw [List.length_set] at hlen
              exact absurd hlen hdense
            · intro c' hc'
              rcases List.mem_or_eq_of_mem_set hc' with hmem | heq
              · exact hwf c' hmem
              · rw [heq]
                exact ih c hrest (hwf c hcmem)
          · rw [dif_neg hfound]
            have hfresh : ∀ c ∈ cs, c.byte ≠ b := findIdx_all_ne hfound
            set chain := (TrieHash.new b).insert rest tid with hchain
            have hchainbyte : chain.byte = b := TrieHash.byte_insert _ rest tid
            have hchainwf : WfH chain := ih (TrieHash.new b) hrest (WfH_new b)
            have hnd' : ((cs ++ [chain]).map TrieHash.byte).Nodup := by
              rw [List.map_append]
              simp only [List.map_cons, List.map_nil]
              rw [List.nodup_append]
              refine ⟨hnd, by simp, ?_⟩
              intro x hx
              simp only [List.mem_singleton]
              obtain ⟨cx, hcx, hcxb⟩ := List.mem_map.mp hx
              rw [hchainbyte, ← hcxb]
              exact hfresh cx hcx
            have hlt' : ∀ c ∈ cs ++ [chain], c.byte < 256 := by
              intro c' hc'
              rcases List.mem_append.mp hc' with hmem | hmem
              · exact hlt c' hmem
              · rw [List.mem_singleton.mp hmem, hchainbyte]
                exact hb
            have hwf' : ∀ c ∈ cs ++ [chain], WfH c := by
              intro c' hc'
              rcases List.mem_append.mp hc' with hmem | hmem
              · exact hwf c' hmem
              · rw [List.mem_singleton.mp hmem]
                exact hchainwf
            by_cases hbig : (cs ++ [chain]).length > 250
            · rw [if_pos hbig]
              refine WfH.mk _ _ _ ?_ ?_ ?_ ?_ ?_
              · rw [densify_map_byte _ hlt' hnd']
                exact List.nodup_range 256
              · intro c' hc'
                rcases densify_mem _ hlt' hnd' hc' with hmem | ⟨b', hb', heq⟩
                · exact hlt' c' hmem
                · rw [heq]
                  exact hb'
              · rw [densify_length]
              · intro _ i ci hci
                exact densify_byte_align _ hlt' hnd' i ci hci
              · intro c' hc'
                rcases densify_mem _ hlt' hnd' hc' with hmem | ⟨b', _, heq⟩
                · exact hwf' c' hmem
                · rw [heq]
                  exact WfH_new b'
            · rw [if_neg hbig]
              refine WfH.mk _ _ _ hnd' hlt' ?_ ?_ hwf'
              · simp only [List.length_append, List.length_singleton]
                omega
              · intro hlen
                exfalso
                simp only [List.length_append, List.length_singleton] at hlen
                simp only [List.length_append, List.length_singleton] at hbig
                omega

/-- The token stored at a path after an insertion: the inserted word's path
now carries the raw id, every other path is untouched. -/
theorem tokenAt_insert (w : List Nat) (tid : Nat) :
    ∀ (t : TrieHash) (u : List Nat), (∀ b ∈ w, b < 256) → WfH t →
      (t.insert w tid).tokenAt u =
        if u = w then tokDecode tid else t.tokenAt u := by
  induction w with
  | nil =>
    intro t u _ _
    cases t with
    | mk tok byte cs =>
      cases u with
      | nil => rfl
      | cons x u' =>
        rw [if_neg (by simp)]
        show TrieHash.tokenAt ⟨tid, byte, cs⟩ (x :: u') = TrieHash.tokenAt ⟨tok, byte, cs⟩ (x :: u')
        rw [tokenAt_cons, tokenAt_cons]
  | cons b rest ih =>
    intro t u hw ht
    have hb : b < 256 := hw b (by simp)
    have hrest : ∀ x ∈ rest, x < 256 := fun x hx => hw x (by simp [hx])
    cases t with
    | mk tok byte cs =>
      cases ht with
      | mk _ _ _ hnd hlt hle hal hwf =>
        simp only [TrieHash.insert]
        by_cases hdense : cs.length = 256
        · rw [if_pos hdense]
          have hblen : b < cs.length := by omega
          have hget : cs.get? b = some (cs.get ⟨b, hblen⟩) := List.get?_eq_get hblen
          set c := cs.get ⟨b, hblen⟩ with hc
          rw [hget]
          have hcmem : c ∈ cs := List.get_mem cs b hblen
          have hcbyte : c.byte = b := hal hdense b c hget
          have hbyte' : (c.insert rest tid).byte = c.byte := TrieHash.byte_insert c rest tid
          have hbefore : ∀ j, j < b → ∀ cj, cs.get? j = some cj → cj.byte ≠ c.byte := by
            intro j hj cj hcj
            rw [hal hdense j cj hcj, hcbyte]
            omega
          have hfcs : findChild cs b = some c := findChild_pos hget hcbyte
            (fun j hj cj hcj => by rw [hal hdense j cj hcj]; omega)
          cases u with
          | nil =>
            rw [if_neg (by simp)]
            rfl
          | cons b' u' =>
            rw [show TrieHash.tokenAt ⟨tok, byte, cs.set b (c.insert rest tid)⟩ (b' :: u') =
              match findChild (cs.set b (c.insert rest tid)) b' with
              | none => none
              | some cx => cx.tokenAt u' from tokenAt_cons _ _ _ _ _]
            rw [findChild_set hget hbefore hbyte' b']
            by_cases hbb : b' = c.byte
            · rw [if_pos hbb]
              show (c.insert rest tid).tokenAt u' = _
              rw [ih c u' hrest (hwf c hcmem)]
              rw [hcbyte] at hbb
              subst hbb
              by_cases hu : u' = rest
              · rw [if_pos hu, if_pos (by rw [hu])]
              · rw [if_neg hu, if_neg (by simp [hu])]
                rw [tokenAt_cons, hfcs]
            · rw [if_neg hbb]
              rw [hcbyte] at hbb
              rw [if_neg (by simp [hbb])]
              rw [tokenAt_cons]
        · rw [if_neg hdense]
          by_cases hfound : cs.findIdx (fun cx => cx.byte == b) < cs.length
          · rw [dif_pos hfound]
            set i := cs.findIdx (fun cx => cx.byte == b) with hi
            set c := cs.get ⟨i, hfound⟩ with hc
            have hget : cs.get? i = some c := List.get?_eq_get hfound
            have hcmem : c ∈ cs := List.get_mem cs i hfound
            have hcbyte : c.byte = b := findIdx_byte hfound
            have hbyte' : (c.insert rest tid).byte = c.byte := TrieHash.byte_insert c rest tid
            have hbefore : ∀ j, j < i → ∀ cj, cs.get? j = some cj → cj.byte ≠ c.byte := by
              intro j hj cj hcj
              rw [hcbyte]
              exact findIdx_before hj cj hcj
            have hfcs : findChild cs b = some c := findChild_pos hget hcbyte
              (fun j hj cj hcj => findIdx_before hj cj hcj)
            cases u with
            | nil =>
              rw [if_neg (by simp)]
              rfl
            | cons b' u' =>
              rw [show TrieHash.tokenAt ⟨tok, byte, cs.set i (c.insert rest tid)⟩ (b' :: u') =
                match findChild (cs.set i (c.insert rest tid)) b' with
                | none => none
                | some cx => cx.tokenAt u' from tokenAt_cons _ _ _ _ _]
              rw [findChild_set hget hbefore hbyte' b']
              by_cases hbb : b' = c.byte
              · rw [if_pos hbb]
                show (c.insert rest tid).tokenAt u' = _
                rw [ih c u' hrest (hwf c hcmem)]
                rw [hcbyte] at hbb
                subst hbb
                by_cases hu : u' = rest
                · rw [if_pos hu, if_pos (by rw [hu])]
                · rw [if_neg hu, if_neg (by simp [hu])]
                  rw [tokenAt_cons, hfcs]
              · rw [if_neg hbb]
                rw [hcbyte] at hbb
                rw [if_neg (by simp [hbb])]
                rw [tokenAt_cons]
          · rw [dif_neg hfound]
            have hfresh : ∀ cx ∈ cs, cx.byte ≠ b := findIdx_all_ne hfound
            set chain := (TrieHash.new b).insert rest tid with hchain
            have hchainbyte : chain.byte = b := TrieHash.byte_insert _ rest tid
            have hfcs : findChild cs b = none := findChild_eq_none.mpr hfresh
            have hnd' : ((cs ++ [chain]).map TrieHash.byte).Nodup := by
              rw [List.map_append]
              simp only [List.map_cons, List.map_nil]
              rw [List.nodup_append]
              refine ⟨hnd, by simp, ?_⟩
              intro x hx
              simp only [List.mem_singleton]
              obtain ⟨cx, hcx, hcxb⟩ := List.mem_map.mp hx
              rw [hchainbyte, ← hcxb]
              exact hfresh cx hcx
            have hlt' : ∀ cx ∈ cs ++ [chain], cx.byte < 256 := by
              intro cx hcx
              rcases List.mem_append.mp hcx with hmem | hmem
              · exact hlt cx hmem
              · rw [List.mem_singleton.mp hmem, hchainbyte]
                exact hb
            have happ : ∀ u0, TrieHash.tokenAt ⟨tok, byte, cs ++ [chain]⟩ u0 =
                if u0 = b :: rest then tokDecode tid else TrieHash.tokenAt ⟨tok, byte, cs⟩ u0 := by
              intro u0
              cases u0 with
              | nil =>
                rw [if_neg (by simp)]
                rfl
              | cons b' u' =>
                rw [tokenAt_cons, tokenAt_cons]
                rw [show findChild (cs ++ [chain]) b' =
                  (findChild cs b').or (findChild [chain] b') from List.find?_append]
                by_cases hbb : b' = b
                · subst hbb
                  rw [hfcs]
                  rw [show findChild [chain] b' = some chain from by
                    rw [findChild_cons, if_pos hchainbyte]]
                  show (chain.tokenAt u') = _
                  rw [hchain, ih (TrieHash.new b') u' hrest (WfH_new b')]
                  by_cases hu : u' = rest
                  · rw [if_pos hu, if_pos (by rw [hu])]
                  · rw [if_neg hu, if_neg (by simp [hu]), tokenAt_new]
                · rw [show findChild [chain] b' = none from by
                    rw [findChild_cons, if_neg (by rw [hchainbyte]; exact fun hh => hbb hh.symm)]
                    rfl]
                  rw [if_neg (by simp [hbb])]
                  cases hfc : findChild cs b' with
                  | none => rfl
                  | some cx => rfl
            by_cases hbig : (cs ++ [chain]).length > 250
            · rw [if_pos hbig]
              rw [show TrieHash.tokenAt ⟨tok, byte, densify (cs ++ [chain])⟩ u =
                TrieHash.tokenAt ⟨tok, byte, cs ++ [chain]⟩ u from
                tokenAt_densify _ _ _ hlt' hnd' u]
              exact happ u
            · rw [if_neg hbig]
              exact happ u

theorem tokenAt_hashFold (ws : List (List Nat)) :
    ∀ (t : TrieHash) (idx : Nat) (u : List Nat),
      (∀ w ∈ ws, ∀ b ∈ w, b < 256) → WfH t →
      (hashFold t idx ws).tokenAt u =
        match lastRawFrom idx ws u with
        | some raw => tokDecode raw
        | none => t.tokenAt u := by
  induction ws with
  | nil =>
    intro t idx u _ _
    rfl
  | cons w0 rest ih =>
    intro t idx u hws ht
    have hrest : ∀ w ∈ rest, ∀ b ∈ w, b < 256 := fun w hw => hws w (by simp [hw])
    simp only [hashFold, lastRawFrom]
    by_cases hw0 : w0.length > 0
    · rw [if_pos hw0]
      have hw0b : ∀ b ∈ w0, b < 256 := hws w0 (by simp)
      rw [ih (t.insert w0 (u32mod idx)) (idx + 1) u hrest
        (WfH_insert w0 (u32mod idx) t hw0b ht)]
      cases hl : lastRawFrom (idx + 1) rest u with
      | some k => rfl
      | none =>
        show (t.insert w0 (u32mod idx)).tokenAt u = _
        rw [tokenAt_insert w0 (u32mod idx) t u hw0b ht]
        by_cases hu : u = w0
        · rw [if_pos hu, if_pos ⟨hu.symm, by
            rw [hu]
            intro hnil
            rw [hnil] at hw0
            simp at hw0⟩]
        · rw [if_neg hu, if_neg (fun hh => hu hh.1.symm)]
    · rw [if_neg hw0]
      rw [ih t (idx + 1) u hrest ht]
      cases hl : lastRawFrom (idx + 1) rest u with
      | some k => rfl
      | none =>
        have hw0nil : w0 = [] := by
          cases w0 with
          | nil => rfl
          | cons x xs => simp at hw0
        rw [if_neg (fun hh => hh.2 (by rw [← hh.1, hw0nil]))]

theorem exists_max_occurrence_aux (l : List (List Nat)) (u : List Nat) :
    ∀ (fuel j : Nat), l.length - j ≤ fuel → j < l.length → l.get? j = some u →
      ∃ m, m < l.length ∧ l.get? m = some u ∧
        ∀ m', m < m' → m' < l.length → l.get? m' ≠ some u := by
  intro fuel
  induction fuel with
  | zero =>
    intro j hf hj _
    omega
  | succ f ih =>
    intro j hf hj hget
    by_cases hmax : ∀ m', j < m' → m' < l.length → l.get? m' ≠ some u
    · exact ⟨j, hj, hget, hmax⟩
    · push_neg at hmax
      obtain ⟨j', h1, h2, h3⟩ := hmax
      exact ih j' (by omega) h2 h3

theorem exists_max_occurrence (l : List (List Nat)) (u : List Nat) (j : Nat)
    (hj : j < l.length) (hget : l.get? j = some u) :
    ∃ m, m < l.length ∧ l.get? m = some u ∧
      ∀ m', m < m' → m' < l.length → l.get? m' ≠ some u :=
  exists_max_occurrence_aux l u l.length j (by omega) hj hget

theorem tokDecode_small {idx : Nat} (h : idx < 16777215) :
    tokDecode (u32mod idx) = some idx := by
  unfold tokDecode u32mod NO_TOKEN
  rw [Nat.mod_eq_of_lt (by omega), Nat.mod_eq_of_lt (by omega), if_neg (by omega)]

theorem lastRawFrom_char (ws : List (List Nat)) :
    ∀ (idx : Nat) (u : List Nat) (k : Nat), idx + ws.length ≤ 4294967296 →
      (lastRawFrom idx ws u = some k ↔
        u ≠ [] ∧ ∃ j, j < ws.length ∧ ws.get? j = some u ∧ k = idx + j ∧
          (∀ j', j < j' → j' < ws.length → ws.get? j' ≠ some u)) := by
  induction ws with
  | nil =>
    intro idx u k _
    simp [lastRawFrom]
  | cons w0 rest ih =>
    intro idx u k hbound
    have hbound' : (idx + 1) + rest.length ≤ 4294967296 := by
      simp only [List.length_cons] at hbound
      omega
    have hidx : idx < 4294967296 := by
      simp only [List.length_cons] at hbound
      omega
    have humod : u32mod idx = idx := by
      simp only [u32mod]
      omega
    simp only [lastRawFrom]
    cases hl : lastRawFrom (idx + 1) rest u with
    | some k' =>
      obtain ⟨hune, j, hj, hget, hk', hafter⟩ := (ih (idx + 1) u k' hbound').mp hl
      constructor
      · intro hsome
        cases hsome
        refine ⟨hune, j + 1, by simp only [List.length_cons]; omega,
          by simpa using hget, by omega, ?_⟩
        intro j' hj' hj'len
        match j' with
        | 0 => omega
        | jj + 1 =>
          intro hgetr
          exact hafter jj (by omega) (by simpa using hj'len) (by simpa using hgetr)
      · intro ⟨hune2, j2, hj2, hget2, hk2, hafter2⟩
        match j2 with
        | 0 =>
          exfalso
          exact hafter2 (j + 1) (by omega) (by simp only [List.length_cons]; omega)
            (by simpa using hget)
        | jj + 1 =>
          have hgetr : rest.get? jj = some u := by simpa using hget2
          have hja : jj ≤ j := by
            by_contra hc
            push_neg at hc
            exact hafter jj (by omega) (by simpa using hj2) hgetr
          have hjb : j ≤ jj := by
            by_contra hc
            push_neg at hc
            refine hafter2 (j + 1) (by omega) (by simp only [List.length_cons]; omega)
              (by simpa using hget)
          have hjeq : jj = j := by omega
          show some k' = some k
          congr 1
          omega
    | none =>
      constructor
      · intro hsome
        by_cases hcond : w0 = u ∧ u ≠ []
        · rw [if_pos hcond] at hsome
          cases hsome
          refine ⟨hcond.2, 0, by simp, by simp [hcond.1], by omega, ?_⟩
          intro j' hj' hj'len
          match j' with
          | jj + 1 =>
            intro hgetr
            have hgetr' : rest.get? jj = some u := by simpa using hgetr
            obtain ⟨m, hmlt, hmget, hmmax⟩ :=
              exists_max_occurrence rest u jj (by simpa using hj'len) hgetr'
            have hx := (ih (idx + 1) u (idx + 1 + m) hbound').mpr
              ⟨hcond.2, m, hmlt, hmget, rfl, hmmax⟩
            rw [hx] at hl
            cases hl
        · rw [if_neg hcond] at hsome
          cases hsome
      · intro ⟨hune, j, hj, hget, hk, hafter⟩
        match j with
        | 0 =>
          have hw0u : w0 = u := by simpa using hget
          show (if w0 = u ∧ u ≠ [] then some (u32mod idx) else none) = some k
          rw [if_pos ⟨hw0u, hune⟩, humod]
          congr 1
          omega
        | jj + 1 =>
          exfalso
          have hgetr : rest.get? jj = some u := by simpa using hget
          obtain ⟨m, hmlt, hmget, hmmax⟩ :=
            exists_max_occurrence rest u jj (by simpa using hj) hgetr
          have hx := (ih (idx + 1) u (idx + 1 + m) hbound').mpr
            ⟨hune, m, hmlt, hmget, rfl, hmmax⟩
          rw [hx] at hl
          cases hl

theorem WfH_hashFold (ws : List (List Nat)) :
    ∀ t idx, (∀ w ∈ ws, ∀ b ∈ w, b < 256) → WfH t → WfH (hashFold t idx ws) := by
  induction ws with
  | nil =>
    intro t idx _ ht
    exact ht
  | cons w0 rest ih =>
    intro t idx hws ht
    simp only [hashFold]
    by_cases h : w0.length > 0
    · rw [if_pos h]
      exact ih _ _ (fun w hw => hws w (by simp [hw]))
        (WfH_insert w0 _ t (hws w0 (by simp)) ht)
    · rw [if_neg h]
      exact ih _ _ (fun w hw => hws w (by simp [hw])) ht

theorem buildLoop_props (ws : List (List Nat)) :
    ∀ t offs data idx r, buildLoop t offs data idx ws = some r →
      r.1 = hashFold t idx ws ∧
      r.2.1 = offs ++ descList data.length ws ∧
      r.2.2 = data ++ ws.flatten ∧
      descOKb data.length ws := by
  induction ws with
  | nil =>
    intro t offs data idx r h
    simp only [buildLoop] at h
    cases h
    simp [hashFold, descList, descOKb]
  | cons w0 rest ih =>
    intro t offs data idx r h
    simp only [buildLoop] at h
    by_cases hcond : w0.length < 1024 ∧ data.length < 4194304
    · rw [if_pos hcond] at h
      obtain ⟨h1, h2, h3, h4⟩ := ih _ _ _ _ r h
      refine ⟨?_, ?_, ?_, ?_⟩
      · rw [h1]
        simp [hashFold]
      · rw [h2]
        simp only [descList, List.length_append]
        rw [List.append_assoc]
        rfl
      · rw [h3]
        simp [List.flatten]
      · exact ⟨hcond.1, hcond.2, by simpa using h4⟩
    · rw [if_neg hcond] at h
      cases h

theorem descList_length (ws : List (List Nat)) :
    ∀ dlen, (descList dlen ws).length = ws.length := by
  induction ws with
  | nil => intro dlen; rfl
  | cons w rest ih =>
    intro dlen
    simp [descList, ih]

theorem descList_get? (ws : List (List Nat)) :
    ∀ dlen j w, ws.get? j = some w → descOKb dlen ws →
      (descList dlen ws).get? j =
        some (w.length + (dlen + ((ws.take j).map List.length).sum) * 1024) ∧
      w.length < 1024 ∧ dlen + ((ws.take j).map List.length).sum < 4194304 := by
  induction ws with
  | nil =>
    intro dlen j w h _
    simp at h
  | cons w0 rest ih =>
    intro dlen j w h hok
    obtain ⟨hlen, hdl, hok'⟩ := hok
    match j with
    | 0 =>
      have : w0 = w := by simpa using h
      subst this
      simp [descList]
      exact ⟨hlen, hdl⟩
    | jj + 1 =>
      have h' : rest.get? jj = some w := by simpa using h
      obtain ⟨hg, hl, hb⟩ := ih (dlen + w0.length) jj w h' hok'
      refine ⟨?_, hl, ?_⟩
      · simp only [descList, List.get?_cons_succ, List.take_succ_cons, List.map_cons,
          List.sum_cons]
        rw [hg]
        congr 2
        omega
      · simp only [List.take_succ_cons, List.map_cons, List.sum_cons]
        omega

theorem join_slice (ws : List (List Nat)) :
    ∀ j w, ws.get? j = some w →
      ((ws.flatten).drop (((ws.take j).map List.length).sum)).take w.length = w ∧
      ((ws.take j).map List.length).sum + w.length ≤ ws.flatten.length := by
  induction ws with
  | nil =>
    intro j w h
    simp at h
  | cons w0 rest ih =>
    intro j w h
    match j with
    | 0 =>
      have : w0 = w := by simpa using h
      subst this
      simp only [List.take_zero, List.map_nil, List.sum_nil, List.drop_zero, List.flatten_cons]
      constructor
      · rw [List.take_append_of_le_length (Nat.le_refl _)]
        simp
      · simp only [List.length_append]
        omega
    | jj + 1 =>
      have h' : rest.get? jj = some w := by simpa using h
      obtain ⟨hsl, hle⟩ := ih jj w h'
      simp only [List.take_succ_cons, List.map_cons, List.sum_cons, List.flatten_cons]
      constructor
      · rw [List.drop_append]
        exact hsl
      · simp only [List.length_append]
        omega

/-! Structure of the serialized node array. -/

theorem nNodes_pos (t : TrieHash) : 1 ≤ t.nNodes := by
  cases t with
  | mk tok b cs =>
    simp only [TrieHash.nNodes]
    omega

theorem nNodesList_zero {cs : List TrieHash} (h : TrieHash.nNodesList cs = 0) :
    cs = [] := by
  cases cs with
  | nil => rfl
  | cons c cs' =>
    exfalso
    have := nNodes_pos c
    simp only [TrieHash.nNodesList] at h
    omega

theorem insertByByte_perm (c : TrieHash) (l : List TrieHash) :
    List.Perm (insertByByte c l) (c :: l) := by
  induction l with
  | nil => simp [insertByByte]
  | cons d ds ih =>
    unfold insertByByte
    by_cases h : d.byte < c.byte
    · rw [if_pos h]
      exact (List.Perm.cons d ih).trans (List.Perm.swap c d ds)
    · rw [if_neg h]

theorem sortByByte_perm (l : List TrieHash) : List.Perm (sortByByte l) l := by
  induction l with
  | nil => simp [sortByByte]
  | cons c cs ih =>
    exact (insertByByte_perm c (sortByByte cs)).trans (List.Perm.cons c ih)

theorem nNodesList_eq_sum (l : List TrieHash) :
    TrieHash.nNodesList l = (l.map TrieHash.nNodes).sum := by
  induction l with
  | nil => rfl
  | cons c cs ih =>
    simp only [TrieHash.nNodesList, List.map_cons, List.sum_cons, ih]

theorem nNodesList_sortByByte (l : List TrieHash) :
    TrieHash.nNodesList (sortByByte l) = TrieHash.nNodesList l := by
  rw [nNodesList_eq_sum, nNodesList_eq_sum]
  exact List.Perm.sum_eq (List.Perm.map TrieHash.nNodes (sortByByte_perm l))

theorem serialize_length_aux : ∀ fuel : Nat,
    (∀ t np l, TrieHash.serializeNodes fuel t np = some l → l.length = t.nNodes) ∧
    (∀ cs np body, serializeChildList fuel cs np = some body →
      body.length = TrieHash.nNodesList cs) := by
  intro fuel
  induction fuel with
  | zero =>
    constructor
    · intro t np l h
      cases h
    · intro cs np body h
      cases cs with
      | nil =>
        cases h
        rfl
      | cons c cs' => cases h
  | succ f ih =>
    constructor
    · intro t np l h
      cases t with
      | mk tok b cs =>
        simp only [TrieHash.serializeNodes] at h
        cases hcl : serializeChildList f (sortByByte cs) np with
        | none =>
          rw [hcl] at h
          cases h
        | some body =>
          rw [hcl] at h
          cases h
          have := ih.2 _ _ _ hcl
          simp only [List.length_cons, TrieHash.nNodes]
          rw [this, nNodesList_sortByByte]
          omega
    · intro cs np body h
      cases cs with
      | nil =>
        cases h
        rfl
      | cons c cs' =>
        cases cs' with
        | nil =>
          simp only [serializeChildList] at h
          by_cases hnp : np + 1 ≥ 256
          · rw [if_pos hnp] at h
            cases h
          · rw [if_neg hnp] at h
            have := ih.1 _ _ _ h
            simp only [TrieHash.nNodesList]
            omega
        | cons c2 cs2 =>
          simp only [serializeChildList] at h
          cases h1 : TrieHash.serializeNodes f c 1 with
          | none =>
            rw [h1] at h
            cases h
          | some l1 =>
            cases h2 : serializeChildList f (c2 :: cs2) np with
            | none =>
              rw [h1, h2] at h
              cases h
            | some l2 =>
              rw [h1, h2] at h
              cases h
              have e1 := ih.1 _ _ _ h1
              have e2 := ih.2 _ _ _ h2
              have hnl : TrieHash.nNodesList (c :: c2 :: cs2) =
                  c.nNodes + TrieHash.nNodesList (c2 :: cs2) := rfl
              rw [List.length_append, e1, e2, hnl]

theorem serializeNodes_length {fuel : Nat} {t : TrieHash} {np : Nat} {l : List TrieNode}
    (h : TrieHash.serializeNodes fuel t np = some l) : l.length = t.nNodes :=
  (serialize_length_aux fuel).1 t np l h

theorem serializeCL_length {fuel : Nat} {cs : List TrieHash} {np : Nat} {body : List TrieNode}
    (h : serializeChildList fuel cs np = some body) :
    body.length = TrieHash.nNodesList cs :=
  (serialize_length_aux fuel).2 cs np body h

/-- Every node of a serialized subtree is the packed image of some sub-subtree,
with its exact node count in the size field and a positive parent count below
256 for non-root entries. -/
theorem serialize_elems_aux : ∀ fuel : Nat,
    (∀ t np l, TrieHash.serializeNodes fuel t np = some l →
      ∀ n ∈ l, ∃ (u : TrieHash) (np2 : Nat),
        n = TrieNode.make u.byte u.token_id np2 u.nNodes ∧
        u.nNodes ≤ t.nNodes) ∧
    (∀ cs np body, serializeChildList fuel cs np = some body →
      ∀ n ∈ body, ∃ (u : TrieHash) (np2 : Nat),
        n = TrieNode.make u.byte u.token_id np2 u.nNodes ∧
        u.nNodes ≤ TrieHash.nNodesList cs) := by
  intro fuel
  induction fuel with
  | zero =>
    constructor
    · intro t np l h
      cases h
    · intro cs np body h
      cases cs with
      | nil =>
        cases h
        intro n hn
        cases hn
      | cons c cs' => cases h
  | succ f ih =>
    constructor
    · intro t np l h
      cases t with
      | mk tok b cs =>
        simp only [TrieHash.serializeNodes] at h
        cases hcl : serializeChildList f (sortByByte cs) np with
        | none =>
          rw [hcl] at h
          cases h
        | some body =>
          rw [hcl] at h
          cases h
          intro n hn
          rcases List.mem_cons.mp hn with hhd | htl
          · refine ⟨⟨tok, b, cs⟩, np, ?_, Nat.le_refl _⟩
            rw [hhd]
            have hlen := serializeCL_length hcl
            rw [hlen, nNodesList_sortByByte]
            rfl
          · obtain ⟨u, np2, he, hle⟩ := ih.2 _ _ _ hcl n htl
            refine ⟨u, np2, he, ?_⟩
            rw [nNodesList_sortByByte] at hle
            simp only [TrieHash.nNodes]
            omega
    · intro cs np body h
      cases cs with
      | nil =>
        cases h
        intro n hn
        cases hn
      | cons c cs' =>
        cases cs' with
        | nil =>
          simp only [serializeChildList] at h
          by_cases hnp : np + 1 ≥ 256
          · rw [if_pos hnp] at h
            cases h
          · rw [if_neg hnp] at h
            intro n hn
            obtain ⟨u, np2, he, hle⟩ := ih.1 _ _ _ h n hn
            refine ⟨u, np2, he, ?_⟩
            simp only [TrieHash.nNodesList]
            omega
        | cons c2 cs2 =>
          simp only [serializeChildList] at h
          cases h1 : TrieHash.serializeNodes f c 1 with
          | none =>
            rw [h1] at h
            cases h
          | some l1 =>
            cases h2 : serializeChildList f (c2 :: cs2) np with
            | none =>
              rw [h1, h2] at h
              cases h
            | some l2 =>
              rw [h1, h2] at h
              cases h
              intro n hn
              rcases List.mem_append.mp hn with hm | hm
              · obtain ⟨u, np2, he, hle⟩ := ih.1 _ _ _ h1 n hm
                refine ⟨u, np2, he, ?_⟩
                simp only [TrieHash.nNodesList]
                omega
              · obtain ⟨u, np2, he, hle⟩ := ih.2 _ _ _ h2 n hm
                refine ⟨u, np2, he, ?_⟩
                have hnl : TrieHash.nNodesList (c :: c2 :: cs2) =
                    c.nNodes + TrieHash.nNodesList (c2 :: cs2) := rfl
                rw [hnl]
                omega

theorem serializeNodes_succ_inv {fuel tok b : Nat} {cs : List TrieHash} {np : Nat}
    {l : List TrieNode}
    (h : TrieHash.serializeNodes (fuel + 1) ⟨tok, b, cs⟩ np = some l) :
    ∃ body, serializeChildList fuel (sortByByte cs) np = some body ∧
      l = TrieNode.make b tok np (1 + body.length) :: body := by
  simp only [TrieHash.serializeNodes] at h
  cases hcl : serializeChildList fuel (sortByByte cs) np with
  | none =>
    rw [hcl] at h
    cases h
  | some body =>
    rw [hcl] at h
    cases h
    exact ⟨body, rfl, rfl⟩

theorem serializeCL_cons_inv {fuel : Nat} {c : TrieHash} {cs : List TrieHash} {np : Nat}
    {body : List TrieNode}
    (h : serializeChildList (fuel + 1) (c :: cs) np = some body) :
    (cs = [] → np + 1 < 256 ∧ TrieHash.serializeNodes fuel c (np + 1) = some body) ∧
    (cs ≠ [] → ∃ l1 l2, TrieHash.serializeNodes fuel c 1 = some l1 ∧
      serializeChildList fuel cs np = some l2 ∧ body = l1 ++ l2) := by
  cases cs with
  | nil =>
    simp only [serializeChildList] at h
    by_cases hnp : np + 1 ≥ 256
    · rw [if_pos hnp] at h
      cases h
    · rw [if_neg hnp] at h
      exact ⟨fun _ => ⟨by omega, h⟩, fun hne => absurd rfl hne⟩
  | cons c2 cs2 =>
    simp only [serializeChildList] at h
    cases h1 : TrieHash.serializeNodes fuel c 1 with
    | none =>
      rw [h1] at h
      cases h
    | some l1 =>
      cases h2 : serializeChildList fuel (c2 :: cs2) np with
      | none =>
        rw [h1, h2] at h
        cases h
      | some l2 =>
        rw [h1, h2] at h
        cases h
        exact ⟨fun hc => List.noConfusion hc, fun _ => ⟨l1, l2, rfl, rfl, rfl⟩⟩

/-! Correspondence between packed-array navigation and the hash-trie. -/

theorem listAt_get_aux {α : Type} (post : List α) :
    ∀ (a : List α) (k : Nat), k < a.length → (a ++ post).get? k = a.get? k := by
  intro a
  induction a with
  | nil =>
    intro k hk
    simp at hk
  | cons x xs ih =>
    intro k hk
    match k with
    | 0 => rfl
    | j + 1 =>
      simp only [List.cons_append, List.get?_cons_succ]
      exact ih j (by simpa using hk)

theorem listAt_get? {ns : List TrieNode} {off : Nat} {l : List TrieNode}
    (h : listAt ns off l) : ∀ k, k < l.length → ns.get? (off + k) = l.get? k := by
  obtain ⟨pre, post, hsplit, hlen⟩ := h
  subst hsplit
  subst hlen
  intro k hk
  induction pre with
  | nil =>
    simp only [List.nil_append, List.length_nil, Nat.zero_add]
    exact listAt_get_aux post l k hk
  | cons x xs ih =>
    simpa [Nat.succ_add] using ih

theorem listAt_nil_of_le {ns : List TrieNode} {off : Nat} (h : off ≤ ns.length) :
    listAt ns off [] :=
  ⟨ns.take off, ns.drop off, by simp, List.length_take_of_le h⟩

theorem length_le_nNodesList (cs : List TrieHash) :
    cs.length ≤ TrieHash.nNodesList cs := by
  induction cs with
  | nil => simp [TrieHash.nNodesList]
  | cons c cs' ih =>
    have := nNodes_pos c
    simp only [List.length_cons, TrieHash.nNodesList]
    omega

theorem mem_nNodesList {c : TrieHash} {cs : List TrieHash} (h : c ∈ cs) :
    c.nNodes ≤ TrieHash.nNodesList cs := by
  induction cs with
  | nil => cases h
  | cons d ds ih =>
    simp only [TrieHash.nNodesList]
    rcases List.mem_cons.mp h with he | hm
    · subst he
      omega
    · have := ih hm
      have := nNodes_pos d
      omega

theorem mem_sortByByte {c : TrieHash} {cs : List TrieHash} :
    c ∈ sortByByte cs ↔ c ∈ cs :=
  (sortByByte_perm cs).mem_iff

theorem length_sortByByte (cs : List TrieHash) :
    (sortByByte cs).length = cs.length :=
  (sortByByte_perm cs).length_eq

theorem nodup_byte_sortByByte {cs : List TrieHash}
    (h : (cs.map TrieHash.byte).Nodup) :
    ((sortByByte cs).map TrieHash.byte).Nodup :=
  (((sortByByte_perm cs).map TrieHash.byte).nodup_iff).mpr h

theorem findChild_unique {cs : List TrieHash} {b : Nat}
    (hnd : (cs.map TrieHash.byte).Nodup) {c : TrieHash}
    (hmem : c ∈ cs) (hb : c.byte = b) : findChild cs b = some c := by
  induction cs with
  | nil => cases hmem
  | cons d ds ih =>
    rw [findChild_cons]
    rcases List.mem_cons.mp hmem with he | hm
    · subst he
      rw [if_pos hb]
    · have hdne : d.byte ≠ b := by
        intro hdb
        have : d.byte ∈ ds.map TrieHash.byte := by
          rw [hdb, ← hb]
          exact List.mem_map_of_mem _ hm
        exact (List.nodup_cons.mp hnd).1 this
      rw [if_neg hdne]
      exact ih (List.nodup_cons.mp hnd).2 hm

theorem findChild_sortByByte {cs : List TrieHash} {b : Nat}
    (hnd : (cs.map TrieHash.byte).Nodup) :
    findChild (sortByByte cs) b = findChild cs b := by
  cases hfc : findChild cs b with
  | some c =>
    obtain ⟨hmem, hb⟩ := findChild_eq_some hfc
    exact findChild_unique (nodup_byte_sortByByte hnd) (mem_sortByByte.mpr hmem) hb
  | none =>
    refine findChild_eq_none.mpr (fun c hc => ?_)
    exact findChild_eq_none.mp hfc c (mem_sortByByte.mp hc)

theorem WfH_children_byte {t : TrieHash} (h : WfH t) :
    ∀ c ∈ t.children, c.byte < 256 := by
  cases h with
  | mk tok byte cs hnd hlt hle hal hwf => exact hlt

theorem WfH_children_nodup {t : TrieHash} (h : WfH t) :
    (t.children.map TrieHash.byte).Nodup := by
  cases h with
  | mk tok byte cs hnd hlt hle hal hwf => exact hnd

theorem WfH_children_wf {t : TrieHash} (h : WfH t) :
    ∀ c ∈ t.children, WfH c := by
  cases h with
  | mk tok byte cs hnd hlt hle hal hwf => exact hwf

theorem placedN_node {ns : List TrieNode} {t : TrieHash} {np off : Nat}
    (h : placedN ns t np off) :
    ns.get? off = some (TrieNode.make t.byte t.token_id np t.nNodes) ∧
    placedCL ns (sortByByte t.children) np (off + 1) ∧
    off + t.nNodes ≤ ns.length := by
  obtain ⟨fuel, l, hs, hat⟩ := h
  cases fuel with
  | zero => cases hs
  | succ f =>
    cases t with
    | mk tok b cs =>
      obtain ⟨body, hcl, hl⟩ := serializeNodes_succ_inv hs
      subst hl
      have hblen : body.length = TrieHash.nNodesList (sortByByte cs) := serializeCL_length hcl
      have hnn : TrieHash.nNodes ⟨tok, b, cs⟩ = 1 + body.length := by
        simp only [TrieHash.nNodes]
        rw [hblen, nNodesList_sortByByte]
      obtain ⟨hget, hat'⟩ := listAt_cons hat
      refine ⟨?_, ⟨f, body, hcl, hat'⟩, ?_⟩
      · show ns.get? off =
          some (TrieNode.make b tok np (TrieHash.nNodes ⟨tok, b, cs⟩))
        rw [hnn]
        exact hget
      · have hlea := listAt_le_length hat
        simp only [List.length_cons] at hlea
        rw [hnn]
        omega

theorem placedCL_cons {ns : List TrieNode} {c : TrieHash} {cs : List TrieHash}
    {np off : Nat} (h : placedCL ns (c :: cs) np off) :
    (cs = [] → np + 1 < 256 ∧ placedN ns c (np + 1) off) ∧
    (cs ≠ [] → placedN ns c 1 off ∧ placedCL ns cs np (off + c.nNodes)) := by
  obtain ⟨fuel, body, hcl, hat⟩ := h
  cases fuel with
  | zero => cases hcl
  | succ f =>
    obtain ⟨h1, h2⟩ := serializeCL_cons_inv hcl
    constructor
    · intro hnil
      obtain ⟨hnp, hser⟩ := h1 hnil
      exact ⟨hnp, f, body, hser, hat⟩
    · intro hne
      obtain ⟨l1, l2, hs1, hs2, hb⟩ := h2 hne
      subst hb
      have hlen1 : l1.length = c.nNodes := serializeNodes_length hs1
      obtain ⟨ha1, ha2⟩ := listAt_append hat
      rw [hlen1] at ha2
      exact ⟨⟨f, l1, hs1, ha1⟩, ⟨f, l2, hs2, ha2⟩⟩

theorem nodeAt_placedN {T : TokTrie} {t : TrieHash} {np off : Nat}
    (h : placedN T.nodes t np off) :
    T.nodeAt off = TrieNode.make t.byte t.token_id np t.nNodes := by
  unfold TokTrie.nodeAt
  rw [(placedN_node h).1]
  rfl

theorem nodeAt_size_exact {T : TokTrie} {t : TrieHash} {np off : Nat}
    (h : placedN T.nodes t np off) (hlt : t.nNodes < 16777216) :
    (T.nodeAt off).subtree_size = t.nNodes := by
  rw [nodeAt_placedN h, make_subtree_size, Nat.mod_eq_of_lt hlt]

theorem next_node_placedN {T : TokTrie} {t : TrieHash} {np off : Nat}
    (h : placedN T.nodes t np off) (hlt : t.nNodes < 16777216) :
    T.next_node off = off + t.nNodes := by
  unfold TokTrie.next_node
  rw [nodeAt_size_exact h hlt]

/-- All nodes of a placed subtree's region record positive subtree sizes. -/
theorem placedN_region_size {T : TokTrie} {t : TrieHash} {np off : Nat}
    (h : placedN T.nodes t np off) (hlt : t.nNodes < 16777216) :
    ∀ q, off ≤ q → q < off + t.nNodes → 1 ≤ (T.nodeAt q).subtree_size := by
  obtain ⟨fuel, l, hs, hat⟩ := h
  intro q hq1 hq2
  have hlen := serializeNodes_length hs
  have hget := listAt_get? hat (q - off) (by omega)
  rw [show off + (q - off) = q from by omega] at hget
  have hk : q - off < l.length := by omega
  obtain ⟨n, hn⟩ : ∃ n, l.get? (q - off) = some n := by
    rw [List.get?_eq_getElem?, List.getElem?_eq_getElem hk]
    exact ⟨_, rfl⟩
  have hmem : n ∈ l := List.get?_mem hn
  obtain ⟨u, np2, he, hule⟩ := (serialize_elems_aux fuel).1 t np l hs n hmem
  unfold TokTrie.nodeAt
  rw [hget, hn]
  simp only [Option.getD_some]
  rw [he, make_subtree_size, Nat.mod_eq_of_lt (by omega)]
  exact nNodes_pos u

theorem childScan_placedCL {T : TokTrie} :
    ∀ (cs : List TrieHash) (np off fuel : Nat),
      placedCL T.nodes cs np off → TrieHash.nNodesList cs < 16777216 →
      cs.length ≤ fuel →
      T.childScan off (off + TrieHash.nNodesList cs) fuel = childOffsList off cs := by
  intro cs
  induction cs with
  | nil =>
    intro np off fuel h hb hf
    show T.childScan off (off + TrieHash.nNodesList []) fuel = []
    cases fuel with
    | zero => rfl
    | succ f =>
      show (if off < off + TrieHash.nNodesList [] then _ else []) = []
      rw [if_neg (by simp [TrieHash.nNodesList])]
  | cons c cs' ih =>
    intro np off fuel h hb hf
    obtain ⟨h1, h2⟩ := placedCL_cons h
    cases fuel with
    | zero => simp at hf
    | succ f =>
      have hnlc : TrieHash.nNodesList (c :: cs') =
          c.nNodes + TrieHash.nNodesList cs' := rfl
      obtain ⟨np2, hplc⟩ : ∃ np2, placedN T.nodes c np2 off := by
        by_cases hnil : cs' = []
        · exact ⟨np + 1, (h1 hnil).2⟩
        · exact ⟨1, (h2 hnil).1⟩
      have hpos := nNodes_pos c
      have hcb : c.nNodes < 16777216 := by
        rw [hnlc] at hb
        omega
      have hsize := nodeAt_size_exact hplc hcb
      show (if off < off + TrieHash.nNodesList (c :: cs') then
        off :: T.childScan (off + (T.nodeAt off).subtree_size)
          (off + TrieHash.nNodesList (c :: cs')) f else []) =
        off :: childOffsList (off + c.nNodes) cs'
      rw [if_pos (by rw [hnlc]; omega), hsize]
      congr 1
      by_cases hnil : cs' = []
      · subst hnil
        show T.childScan (off + c.nNodes) (off + TrieHash.nNodesList [c]) f = []
        have hend : off + TrieHash.nNodesList [c] = off + c.nNodes := by
          simp [TrieHash.nNodesList]
        rw [hend]
        cases f with
        | zero => rfl
        | succ f2 =>
          show (if off + c.nNodes < off + c.nNodes then _ else []) = []
          rw [if_neg (by omega)]
      · obtain ⟨hpl1, hpl2⟩ := h2 hnil
        have hrw : off + TrieHash.nNodesList (c :: cs') =
            (off + c.nNodes) + TrieHash.nNodesList cs' := by
          rw [hnlc]
          omega
        rw [hrw]
        refine ih np (off + c.nNodes) f hpl2 ?_ ?_
        · rw [hnlc] at hb
          omega
        · have := List.length_pos.mpr hnil
          simp only [List.length_cons] at hf
          omega

theorem childOffsets_placedN {T : TokTrie} {t : TrieHash} {np off : Nat}
    (h : placedN T.nodes t np off) (hlt : t.nNodes < 16777216) :
    T.childOffsets off = childOffsList (off + 1) (sortByByte t.children) := by
  unfold TokTrie.childOffsets
  rw [next_node_placedN h hlt]
  obtain ⟨hget, hcl, hbound⟩ := placedN_node h
  have hnn : t.nNodes = 1 + TrieHash.nNodesList (sortByByte t.children) := by
    cases t with
    | mk tok b cs =>
      show TrieHash.nNodes ⟨tok, b, cs⟩ = 1 + TrieHash.nNodesList (sortByByte cs)
      rw [nNodesList_sortByByte]
      rfl
  have hrw : off + t.nNodes = (off + 1) + TrieHash.nNodesList (sortByByte t.children) := by
    rw [hnn]
    omega
  rw [hrw]
  refine childScan_placedCL (sortByByte t.children) np (off + 1) (T.nodes.length + 1)
    hcl (by omega) ?_
  have h1 : (sortByByte t.children).length ≤ TrieHash.nNodesList (sortByByte t.children) :=
    length_le_nNodesList _
  omega

theorem find_childOffsList {T : TokTrie} :
    ∀ (cs : List TrieHash) (np off : Nat),
      placedCL T.nodes cs np off → TrieHash.nNodesList cs < 16777216 →
      (∀ c ∈ cs, c.byte < 256) → ∀ b : Nat,
      match findChild cs b with
      | none => (childOffsList off cs).find? (fun o => (T.nodeAt o).byte == b) = none
      | some c => ∃ off2 np2,
          (childOffsList off cs).find? (fun o => (T.nodeAt o).byte == b) = some off2 ∧
          placedN T.nodes c np2 off2 := by
  intro cs
  induction cs with
  | nil =>
    intro np off h hb hlt b
    show (childOffsList off []).find? (fun o => (T.nodeAt o).byte == b) = none
    rfl
  | cons c cs' ih =>
    intro np off h hb hlt b
    obtain ⟨h1, h2⟩ := placedCL_cons h
    have hnlc : TrieHash.nNodesList (c :: cs') =
        c.nNodes + TrieHash.nNodesList cs' := rfl
    obtain ⟨np2, hplc⟩ : ∃ np2, placedN T.nodes c np2 off := by
      by_cases hnil : cs' = []
      · exact ⟨np + 1, (h1 hnil).2⟩
      · exact ⟨1, (h2 hnil).1⟩
    have hpos := nNodes_pos c
    have hbyte : (T.nodeAt off).byte = c.byte := by
      rw [nodeAt_placedN hplc, make_byte,
        Nat.mod_eq_of_lt (hlt c (by simp))]
    have hfc : findChild (c :: cs') b =
        if c.byte = b then some c else findChild cs' b := findChild_cons c cs' b
    have hcons : childOffsList off (c :: cs') =
        off :: childOffsList (off + c.nNodes) cs' := rfl
    rw [hfc, hcons]
    by_cases hcb : c.byte = b
    · rw [if_pos hcb]
      refine ⟨off, np2, ?_, hplc⟩
      rw [List.find?_cons]
      rw [show ((T.nodeAt off).byte == b) = true from by
        rw [hbyte]; exact beq_iff_eq.mpr hcb]
    · rw [if_neg hcb]
      have hfind : (off :: childOffsList (off + c.nNodes) cs').find?
          (fun o => (T.nodeAt o).byte == b) =
          (childOffsList (off + c.nNodes) cs').find?
            (fun o => (T.nodeAt o).byte == b) := by
        rw [List.find?_cons]
        rw [show ((T.nodeAt off).byte == b) = false from by
          rw [hbyte]; exact beq_eq_false_iff_ne.mpr hcb]
      by_cases hnil : cs' = []
      · subst hnil
        show (childOffsList off [c]).find? (fun o => (T.nodeAt o).byte == b) = none
        have : childOffsList off [c] = [off] := rfl
        rw [this, List.find?_cons]
        rw [show ((T.nodeAt off).byte == b) = false from by
          rw [hbyte]; exact beq_eq_false_iff_ne.mpr hcb]
        rfl
      · obtain ⟨hpl1, hpl2⟩ := h2 hnil
        have htail := ih np (off + c.nNodes) hpl2 (by rw [hnlc] at hb; omega)
          (fun c2 hc2 => hlt c2 (by simp [hc2])) b
        cases hfc2 : findChild cs' b with
        | none =>
          rw [hfc2] at htail
          rw [hfind]
          exact htail
        | some c2 =>
          rw [hfc2] at htail
          obtain ⟨off3, np3, hf3, hpl3⟩ := htail
          rw [hfind]
          exact ⟨off3, np3, hf3, hpl3⟩

theorem child_at_byte_placedN {T : TokTrie} {t : TrieHash} {np off : Nat}
    (h : placedN T.nodes t np off) (hwf : WfH t) (hlt : t.nNodes < 16777216) :
    ∀ b : Nat,
      match findChild t.children b with
      | none => T.child_at_byte off b = none
      | some c => ∃ off2 np2, T.child_at_byte off b = some off2 ∧
          placedN T.nodes c np2 off2 := by
  intro b
  unfold TokTrie.child_at_byte
  rw [childOffsets_placedN h hlt]
  obtain ⟨hget, hcl, hbound⟩ := placedN_node h
  have hnn : t.nNodes = 1 + TrieHash.nNodesList (sortByByte t.children) := by
    cases t with
    | mk tok b2 cs =>
      show TrieHash.nNodes ⟨tok, b2, cs⟩ = 1 + TrieHash.nNodesList (sortByByte cs)
      rw [nNodesList_sortByByte]
      rfl
  have hfind := find_childOffsList (sortByByte t.children) np (off + 1) hcl
    (by omega)
    (fun c hc => WfH_children_byte hwf c (mem_sortByByte.mp hc)) b
  rw [findChild_sortByByte (WfH_children_nodup hwf)] at hfind
  exact hfind

theorem walk_cons (t : TrieHash) (b : Nat) (rest : List Nat) :
    t.walk (b :: rest) =
      match findChild t.children b with
      | none => none
      | some c => c.walk rest := rfl

theorem walk_placedN {T : TokTrie} :
    ∀ (w : List Nat) (t : TrieHash) (np off : Nat),
      placedN T.nodes t np off → WfH t → t.nNodes < 16777216 →
      match t.walk w with
      | none => T.child_at_bytes off w = none
      | some u => ∃ off2 np2, T.child_at_bytes off w = some off2 ∧
          placedN T.nodes u np2 off2 ∧ WfH u ∧ u.nNodes ≤ t.nNodes := by
  intro w
  induction w with
  | nil =>
    intro t np off h hwf hlt
    exact ⟨off, np, rfl, h, hwf, Nat.le_refl _⟩
  | cons b rest ih =>
    intro t np off h hwf hlt
    have hcab := child_at_byte_placedN h hwf hlt b
    rw [walk_cons]
    cases hfc : findChild t.children b with
    | none =>
      rw [hfc] at hcab
      show T.child_at_bytes off (b :: rest) = none
      simp only [TokTrie.child_at_bytes, hcab]
    | some c =>
      rw [hfc] at hcab
      dsimp only
      obtain ⟨off2, np2, heq, hpl2⟩ := hcab
      have hcmem : c ∈ t.children := (findChild_eq_some hfc).1
      have hcwf : WfH c := WfH_children_wf hwf c hcmem
      have hcle : c.nNodes ≤ t.nNodes := by
        have h1 := mem_nNodesList hcmem
        cases t with
        | mk tok b2 cs =>
          show c.nNodes ≤ TrieHash.nNodes ⟨tok, b2, cs⟩
          simp only [TrieHash.nNodes]
          simp only [TrieHash.children] at h1
          omega
      have hclt : c.nNodes < 16777216 := by omega
      have hrec := ih c np2 off2 hpl2 hcwf hclt
      have hcb : T.child_at_bytes off (b :: rest) = T.child_at_bytes off2 rest := by
        simp only [TokTrie.child_at_bytes, heq]
      rw [hcb]
      cases hw : c.walk rest with
      | none =>
        rw [hw] at hrec
        exact hrec
      | some u =>
        rw [hw] at hrec
        obtain ⟨off3, np3, h3, hpl3, hwf3, hle3⟩ := hrec
        exact ⟨off3, np3, h3, hpl3, hwf3, by omega⟩

/-! Bridges between the traversal-collection predicates and trie walks. -/

theorem any_perm {α : Type} {l1 l2 : List α} (h : List.Perm l1 l2) (p : α → Bool) :
    l1.any p = l2.any p := by
  rw [Bool.eq_iff_iff]
  simp only [List.any_eq_true]
  exact ⟨fun ⟨a, ha, hp⟩ => ⟨a, h.mem_iff.mp ha, hp⟩,
    fun ⟨a, ha, hp⟩ => ⟨a, h.mem_iff.mpr ha, hp⟩⟩

theorem collectHL_any (V : List Nat → Bool) (defl : Nat) (stk : List Nat) (x : Nat) :
    ∀ cs : List TrieHash,
      collectHL V defl stk x cs = cs.any (fun c => collectH V defl stk x c) := by
  intro cs
  induction cs with
  | nil => rfl
  | cons c cs' ih =>
    simp only [collectHL, List.any_cons, ih]

theorem foundHL_any (V : List Nat → Bool) (stk : List Nat) :
    ∀ cs : List TrieHash,
      foundHL V stk cs = cs.any (fun c => foundH V stk c) := by
  intro cs
  induction cs with
  | nil => rfl
  | cons c cs' ih =>
    simp only [foundHL, List.any_cons, ih]

theorem acceptsFrom_cons (V : List Nat → Bool) (path : List Nat) (b : Nat)
    (rest : List Nat) :
    acceptsFrom V path (b :: rest) =
      (V (path ++ [b]) && acceptsFrom V (path ++ [b]) rest) := rfl

theorem walk_append (p : List Nat) :
    ∀ (t : TrieHash) (q : List Nat),
      t.walk (p ++ q) =
        match t.walk p with
        | none => none
        | some u => u.walk q := by
  induction p with
  | nil =>
    intro t q
    rfl
  | cons b rest ih =>
    intro t q
    show t.walk (b :: (rest ++ q)) = _
    rw [walk_cons, walk_cons]
    cases findChild t.children b with
    | none => rfl
    | some c => exact ih c q

theorem collectH_iff_aux : ∀ N : Nat, ∀ c : TrieHash, c.nNodes ≤ N →
    ∀ (V : List Nat → Bool) (defl : Nat) (stk : List Nat) (x : Nat), WfH c →
      (collectH V defl stk x c = true ↔
        ∃ q u, c.walk q = some u ∧
          acceptsFrom V stk.reverse (c.byte :: q) = true ∧
          x = (tokDecode u.token_id).getD defl) := by
  intro N
  induction N with
  | zero =>
    intro c hc
    have := nNodes_pos c
    omega
  | succ N ih =>
    intro c hc V defl stk x hwf
    cases c with
    | mk raw b cs =>
      dsimp only [TrieHash.byte, TrieHash.children]
      have hrev : (b :: stk).reverse = stk.reverse ++ [b] := by
        simp
      constructor
      · intro h
        simp only [collectH, Bool.and_eq_true, Bool.or_eq_true, beq_iff_eq] at h
        obtain ⟨hV, hhit | hrec⟩ := h
        · refine ⟨[], ⟨raw, b, cs⟩, rfl, ?_, hhit⟩
          rw [acceptsFrom_cons]
          simp only [Bool.and_eq_true]
          rw [← hrev]
          exact ⟨hV, rfl⟩
        · rw [collectHL_any] at hrec
          obtain ⟨c', hmem, hc'⟩ := List.any_eq_true.mp hrec
          have hle : c'.nNodes ≤ N := by
            have h1 := mem_nNodesList hmem
            have h2 : TrieHash.nNodes ⟨raw, b, cs⟩ = 1 + TrieHash.nNodesList cs := rfl
            omega
          have hwf' : WfH c' := WfH_children_wf hwf c' hmem
          obtain ⟨q', u, hwalk, hacc, hx⟩ :=
            (ih c' hle V defl (b :: stk) x hwf').mp hc'
          refine ⟨c'.byte :: q', u, ?_, ?_, hx⟩
          · rw [walk_cons]
            have : findChild (TrieHash.children ⟨raw, b, cs⟩) c'.byte = some c' :=
              findChild_unique (WfH_children_nodup hwf) hmem rfl
            rw [this]
            exact hwalk
          · rw [acceptsFrom_cons]
            simp only [Bool.and_eq_true]
            rw [← hrev]
            refine ⟨hV, ?_⟩
            exact hacc
      · intro ⟨q, u, hwalk, hacc, hx⟩
        simp only [collectH, Bool.and_eq_true, Bool.or_eq_true, beq_iff_eq]
        rw [acceptsFrom_cons] at hacc
        simp only [Bool.and_eq_true] at hacc
        obtain ⟨hV, hacc'⟩ := hacc
        refine ⟨by rw [hrev]; exact hV, ?_⟩
        cases q with
        | nil =>
          refine Or.inl ?_
          have heqn : TrieHash.mk raw b cs = u := by
            simpa [TrieHash.walk] using hwalk
          rw [hx, ← heqn]
          rfl
        | cons b2 q' =>
          refine Or.inr ?_
          rw [walk_cons] at hwalk
          cases hfc : findChild (TrieHash.children ⟨raw, b, cs⟩) b2 with
          | none =>
            rw [hfc] at hwalk
            cases hwalk
          | some c' =>
            rw [hfc] at hwalk
            obtain ⟨hmem, hbyte⟩ := findChild_eq_some hfc
            have hle : c'.nNodes ≤ N := by
              have h1 : c'.nNodes ≤ TrieHash.nNodesList cs := mem_nNodesList hmem
              have h2 : TrieHash.nNodes ⟨raw, b, cs⟩ = 1 + TrieHash.nNodesList cs := rfl
              omega
            have hwf' : WfH c' := WfH_children_wf hwf c' hmem
            rw [collectHL_any]
            refine List.any_eq_true.mpr ⟨c', hmem, ?_⟩
            refine (ih c' hle V defl (b :: stk) x hwf').mpr ⟨q', u, hwalk, ?_, hx⟩
            rw [hrev]
            rw [hbyte]
            exact hacc'

theorem collectH_iff {c : TrieHash} (hwf : WfH c) (V : List Nat → Bool)
    (defl : Nat) (stk : List Nat) (x : Nat) :
    collectH V defl stk x c = true ↔
      ∃ q u, c.walk q = some u ∧
        acceptsFrom V stk.reverse (c.byte :: q) = true ∧
        x = (tokDecode u.token_id).getD defl :=
  collectH_iff_aux c.nNodes c (Nat.le_refl _) V defl stk x hwf

theorem foundH_iff_aux : ∀ N : Nat, ∀ c : TrieHash, c.nNodes ≤ N →
    ∀ (V : List Nat → Bool) (stk : List Nat), WfH c →
      (foundH V stk c = true ↔
        ∃ q u, c.walk q = some u ∧
          acceptsFrom V stk.reverse (c.byte :: q) = true ∧
          (tokDecode u.token_id).isSome = true) := by
  intro N
  induction N with
  | zero =>
    intro c hc
    have := nNodes_pos c
    omega
  | succ N ih =>
    intro c hc V stk hwf
    cases c with
    | mk raw b cs =>
      dsimp only [TrieHash.byte, TrieHash.children]
      have hrev : (b :: stk).reverse = stk.reverse ++ [b] := by
        simp
      constructor
      · intro h
        simp only [foundH, Bool.and_eq_true, Bool.or_eq_true] at h
        obtain ⟨hV, hhit | hrec⟩ := h
        · refine ⟨[], ⟨raw, b, cs⟩, rfl, ?_, hhit⟩
          rw [acceptsFrom_cons]
          simp only [Bool.and_eq_true]
          rw [← hrev]
          exact ⟨hV, rfl⟩
        · rw [foundHL_any] at hrec
          obtain ⟨c', hmem, hc'⟩ := List.any_eq_true.mp hrec
          have hle : c'.nNodes ≤ N := by
            have h1 := mem_nNodesList hmem
            have h2 : TrieHash.nNodes ⟨raw, b, cs⟩ = 1 + TrieHash.nNodesList cs := rfl
            omega
          have hwf' : WfH c' := WfH_children_wf hwf c' hmem
          obtain ⟨q', u, hwalk, hacc, hx⟩ := (ih c' hle V (b :: stk) hwf').mp hc'
          refine ⟨c'.byte :: q', u, ?_, ?_, hx⟩
          · rw [walk_cons]
            have : findChild (TrieHash.children ⟨raw, b, cs⟩) c'.byte = some c' :=
              findChild_unique (WfH_children_nodup hwf) hmem rfl
            rw [this]
            exact hwalk
          · rw [acceptsFrom_cons]
            simp only [Bool.and_eq_true]
            rw [← hrev]
            refine ⟨hV, ?_⟩
            exact hacc
      · intro ⟨q, u, hwalk, hacc, hx⟩
        simp only [foundH, Bool.and_eq_true, Bool.or_eq_true]
        rw [acceptsFrom_cons] at hacc
        simp only [Bool.and_eq_true] at hacc
        obtain ⟨hV, hacc'⟩ := hacc
        refine ⟨by rw [hrev]; exact hV, ?_⟩
        cases q with
        | nil =>
          refine Or.inl ?_
          have heqn : TrieHash.mk raw b cs = u := by
            simpa [TrieHash.walk] using hwalk
          rw [← heqn] at hx
          exact hx
        | cons b2 q' =>
          refine Or.inr ?_
          rw [walk_cons] at hwalk
          cases hfc : findChild (TrieHash.children ⟨raw, b, cs⟩) b2 with
          | none =>
            rw [hfc] at hwalk
            cases hwalk
          | some c' =>
            rw [hfc] at hwalk
            obtain ⟨hmem, hbyte⟩ := findChild_eq_some hfc
            have hle : c'.nNodes ≤ N := by
              have h1 : c'.nNodes ≤ TrieHash.nNodesList cs := mem_nNodesList hmem
              have h2 : TrieHash.nNodes ⟨raw, b, cs⟩ = 1 + TrieHash.nNodesList cs := rfl
              omega
            have hwf' : WfH c' := WfH_children_wf hwf c' hmem
            rw [foundHL_any]
            refine List.any_eq_true.mpr ⟨c', hmem, ?_⟩
            refine (ih c' hle V (b :: stk) hwf').mpr ⟨q', u, hwalk, ?_, hx⟩
            rw [hrev, hbyte]
            exact hacc'

theorem foundH_iff {c : TrieHash} (hwf : WfH c) (V : List Nat → Bool)
    (stk : List Nat) :
    foundH V stk c = true ↔
      ∃ q u, c.walk q = some u ∧
        acceptsFrom V stk.reverse (c.byte :: q) = true ∧
        (tokDecode u.token_id).isSome = true :=
  foundH_iff_aux c.nNodes c (Nat.le_refl _) V stk hwf

/-- The children-level collection predicate, phrased as the existence of a
nonempty accepted descendant path of the node. -/
theorem collectHL_node_iff {u0 : TrieHash} (hwf : WfH u0) (V : List Nat → Bool)
    (defl : Nat) (stk : List Nat) (x : Nat) :
    collectHL V defl stk x u0.children = true ↔
      ∃ q v, q ≠ [] ∧ u0.walk q = some v ∧
        acceptsFrom V stk.reverse q = true ∧
        x = (tokDecode v.token_id).getD defl := by
  rw [collectHL_any]
  constructor
  · intro h
    obtain ⟨c, hmem, hc⟩ := List.any_eq_true.mp h
    obtain ⟨q', v, hwalk, hacc, hx⟩ :=
      (collectH_iff (WfH_children_wf hwf c hmem) V defl stk x).mp hc
    refine ⟨c.byte :: q', v, by simp, ?_, hacc, hx⟩
    rw [walk_cons, findChild_unique (WfH_children_nodup hwf) hmem rfl]
    exact hwalk
  · intro ⟨q, v, hne, hwalk, hacc, hx⟩
    cases q with
    | nil => exact absurd rfl hne
    | cons b q' =>
      rw [walk_cons] at hwalk
      cases hfc : findChild u0.children b with
      | none =>
        rw [hfc] at hwalk
        cases hwalk
      | some c =>
        rw [hfc] at hwalk
        obtain ⟨hmem, hbyte⟩ := findChild_eq_some hfc
        refine List.any_eq_true.mpr ⟨c, hmem, ?_⟩
        refine (collectH_iff (WfH_children_wf hwf c hmem) V defl stk x).mpr
          ⟨q', v, hwalk, ?_, hx⟩
        rw [hbyte]
        exact hacc

theorem foundHL_node_iff {u0 : TrieHash} (hwf : WfH u0) (V : List Nat → Bool)
    (stk : List Nat) :
    foundHL V stk u0.children = true ↔
      ∃ q v, q ≠ [] ∧ u0.walk q = some v ∧
        acceptsFrom V stk.reverse q = true ∧
        (tokDecode v.token_id).isSome = true := by
  rw [foundHL_any]
  constructor
  · intro h
    obtain ⟨c, hmem, hc⟩ := List.any_eq_true.mp h
    obtain ⟨q', v, hwalk, hacc, hx⟩ :=
      (foundH_iff (WfH_children_wf hwf c hmem) V stk).mp hc
    refine ⟨c.byte :: q', v, by simp, ?_, hacc, hx⟩
    rw [walk_cons, findChild_unique (WfH_children_nodup hwf) hmem rfl]
    exact hwalk
  · intro ⟨q, v, hne, hwalk, hacc, hx⟩
    cases q with
    | nil => exact absurd rfl hne
    | cons b q' =>
      rw [walk_cons] at hwalk
      cases hfc : findChild u0.children b with
      | none =>
        rw [hfc] at hwalk
        cases hwalk
      | some c =>
        rw [hfc] at hwalk
        obtain ⟨hmem, hbyte⟩ := findChild_eq_some hfc
        refine List.any_eq_true.mpr ⟨c, hmem, ?_⟩
        refine (foundH_iff (WfH_children_wf hwf c hmem) V stk).mpr
          ⟨q', v, hwalk, ?_, hx⟩
        rw [hbyte]
        exact hacc

/-! Fuel stability of the linear traversal loops: once the fuel covers the
remaining region (every node there advancing by at least one), the result does
not depend on the exact fuel. -/

theorem biasGo_fuel {σ : Type} {T : TokTrie} {R : Recognizer σ} {endp : Nat}
    (hpos : ∀ q, q < endp → 1 ≤ (T.nodeAt q).subtree_size) :
    ∀ fuel1 fuel2 p pend s toks, endp ≤ p + fuel1 → endp ≤ p + fuel2 →
      T.biasGo R endp p pend s toks fuel1 = T.biasGo R endp p pend s toks fuel2 := by
  intro fuel1
  induction fuel1 with
  | zero =>
    intro fuel2 p pend s toks h1 h2
    cases fuel2 with
    | zero => rfl
    | succ f2 =>
      show (s, toks, pend) = T.biasGo R endp p pend s toks (f2 + 1)
      simp only [TokTrie.biasGo]
      rw [if_neg (by omega)]
  | succ f1 ih =>
    intro fuel2 p pend s toks h1 h2
    by_cases hp : p < endp
    · cases fuel2 with
      | zero => omega
      | succ f2 =>
        simp only [TokTrie.biasGo]
        rw [if_pos hp, if_pos hp]
        have hsz := hpos p hp
        by_cases hres : (R.try_push_byte (R.pop_bytes s pend) (T.nodeAt p).byte).1
        · rw [if_pos hres, if_pos hres]
          exact ih f2 (p + 1) _ _ _ (by omega) (by omega)
        · rw [if_neg hres, if_neg hres]
          exact ih f2 (p + (T.nodeAt p).subtree_size) _ _ _ (by omega) (by omega)
    · cases fuel2 with
      | zero =>
        show T.biasGo R endp p pend s toks (f1 + 1) = (s, toks, pend)
        simp only [TokTrie.biasGo]
        rw [if_neg hp]
      | succ f2 =>
        simp only [TokTrie.biasGo]
        rw [if_neg hp, if_neg hp]

theorem hvGo_fuel {σ : Type} {T : TokTrie} {R : Recognizer σ} {endp : Nat}
    (hpos : ∀ q, q < endp → 1 ≤ (T.nodeAt q).subtree_size) :
    ∀ fuel1 fuel2 p pend s, endp ≤ p + fuel1 → endp ≤ p + fuel2 →
      T.hvGo R endp p pend s fuel1 = T.hvGo R endp p pend s fuel2 := by
  intro fuel1
  induction fuel1 with
  | zero =>
    intro fuel2 p pend s h1 h2
    cases fuel2 with
    | zero => rfl
    | succ f2 =>
      show (false, s, pend) = T.hvGo R endp p pend s (f2 + 1)
      simp only [TokTrie.hvGo]
      rw [if_neg (by omega)]
  | succ f1 ih =>
    intro fuel2 p pend s h1 h2
    by_cases hp : p < endp
    · cases fuel2 with
      | zero => omega
      | succ f2 =>
        simp only [TokTrie.hvGo]
        rw [if_pos hp, if_pos hp]
        have hsz := hpos p hp
        by_cases hres : (R.try_push_byte (R.pop_bytes s pend) (T.nodeAt p).byte).1
        · rw [if_pos hres, if_pos hres]
          by_cases htok : (T.nodeAt p).token_id.isSome
          · rw [if_pos htok, if_pos htok]
          · rw [if_neg htok, if_neg htok]
            exact ih f2 (p + 1) _ _ (by omega) (by omega)
        · rw [if_neg hres, if_neg hres]
          exact ih f2 (p + (T.nodeAt p).subtree_size) _ _ (by omega) (by omega)
    · cases fuel2 with
      | zero =>
        show T.hvGo R endp p pend s (f1 + 1) = (false, s, pend)
        simp only [TokTrie.hvGo]
        rw [if_neg hp]
      | succ f2 =>
        simp only [TokTrie.hvGo]
        rw [if_neg hp, if_neg hp]

theorem drop_cons_of_pos {α : Type} (b : α) (stk : List α) {np : Nat} (h : 1 ≤ np) :
    (b :: stk).drop np = stk.drop (np - 1) := by
  obtain ⟨m, rfl⟩ : ∃ m, np = m + 1 := ⟨np - 1, by omega⟩
  simp

theorem biasGo_step {σ : Type} {T : TokTrie} {R : Recognizer σ} {endp : Nat}
    (p pend : Nat) (s : σ) (toks : SimpleVob) (f : Nat) (hp : p < endp) :
    T.biasGo R endp p pend s toks (f + 1) =
      (if (R.try_push_byte (R.pop_bytes s pend) (T.nodeAt p).byte).1 then
         T.biasGo R endp (p + 1)
           (if (T.nodeAt p).subtree_size = 1 then (T.nodeAt p).num_parents else 0)
           (R.try_push_byte (R.pop_bytes s pend) (T.nodeAt p).byte).2
           (toks.allow_token ((T.nodeAt p).token_id.getD T.vocab_size)) f
       else
         T.biasGo R endp (p + (T.nodeAt p).subtree_size)
           ((T.nodeAt p).num_parents - 1)
           (R.try_push_byte (R.pop_bytes s pend) (T.nodeAt p).byte).2 toks f) := by
  simp only [TokTrie.biasGo]
  rw [if_pos hp]

theorem biasGo_step_acc {σ : Type} {T : TokTrie} {R : Recognizer σ} {endp : Nat}
    {p pend : Nat} {s : σ} {toks : SimpleVob} {f : Nat} {s2 : σ}
    (hp : p < endp)
    (hres : R.try_push_byte (R.pop_bytes s pend) ((T.nodeAt p).byte) = (true, s2)) :
    T.biasGo R endp p pend s toks (f + 1) =
      T.biasGo R endp (p + 1)
        (if (T.nodeAt p).subtree_size = 1 then (T.nodeAt p).num_parents else 0)
        s2 (toks.allow_token ((T.nodeAt p).token_id.getD T.vocab_size)) f := by
  simp only [TokTrie.biasGo]
  rw [if_pos hp, hres]
  rfl

theorem biasGo_step_rej {σ : Type} {T : TokTrie} {R : Recognizer σ} {endp : Nat}
    {p pend : Nat} {s : σ} {toks : SimpleVob} {f : Nat} {s2 : σ}
    (hp : p < endp)
    (hres : R.try_push_byte (R.pop_bytes s pend) ((T.nodeAt p).byte) = (false, s2)) :
    T.biasGo R endp p pend s toks (f + 1) =
      T.biasGo R endp (p + (T.nodeAt p).subtree_size)
        ((T.nodeAt p).num_parents - 1) s2 toks f := by
  simp only [TokTrie.biasGo]
  rw [if_pos hp, hres]
  rfl

/-- The linear bias traversal over a placed subtree, for a deterministic
byte-acceptance recognizer: it reaches the end of the subtree's region with
the deferred-pop invariant, having collected exactly the `collectH` tokens. -/
theorem biasGo_main {T : TokTrie} (V : List Nat → Bool) {endp : Nat}
    (hpos : ∀ q, q < endp → 1 ≤ (T.nodeAt q).subtree_size) :
    ∀ M : Nat,
    (∀ (t : TrieHash) (np off pend : Nat) (s stk : List Nat) (toks : SimpleVob),
      t.nNodes ≤ M → placedN T.nodes t np off → WfH t → t.byte < 256 →
      t.nNodes < 16777216 → off + t.nNodes ≤ endp → 1 ≤ np → np < 256 →
      s.drop pend = stk →
      ∃ pend2 s2 toks2,
        s2.drop pend2 = stk.drop (np - 1) ∧
        (∀ x, toks2.contains x =
          (toks.contains x || collectH V T.vocab_size stk x t)) ∧
        ∀ fuel, endp ≤ off + fuel →
          T.biasGo (stackRec V) endp off pend s toks fuel =
            T.biasGo (stackRec V) endp (off + t.nNodes) pend2 s2 toks2
              (fuel - t.nNodes)) ∧
    (∀ (cs : List TrieHash) (P off pend : Nat) (s stk : List Nat) (toks : SimpleVob),
      TrieHash.nNodesList cs ≤ M → cs ≠ [] →
      placedCL T.nodes cs P off →
      (∀ c ∈ cs, WfH c) → (∀ c ∈ cs, c.byte < 256) →
      TrieHash.nNodesList cs < 16777216 →
      off + TrieHash.nNodesList cs ≤ endp →
      s.drop pend = stk →
      ∃ pend2 s2 toks2,
        s2.drop pend2 = stk.drop P ∧
        (∀ x, toks2.contains x =
          (toks.contains x || collectHL V T.vocab_size stk x cs)) ∧
        ∀ fuel, endp ≤ off + fuel →
          T.biasGo (stackRec V) endp off pend s toks fuel =
            T.biasGo (stackRec V) endp (off + TrieHash.nNodesList cs) pend2 s2 toks2
              (fuel - TrieHash.nNodesList cs)) := by
  intro M
  induction M with
  | zero =>
    constructor
    · intro t np off pend s stk toks hM
      have := nNodes_pos t
      omega
    · intro cs P off pend s stk toks hM hne
      exfalso
      cases cs with
      | nil => exact hne rfl
      | cons c rest =>
        have := nNodes_pos c
        have h2 : TrieHash.nNodesList (c :: rest) =
            c.nNodes + TrieHash.nNodesList rest := rfl
        omega
  | succ M ih =>
    have hnode : ∀ (t : TrieHash) (np off pend : Nat) (s stk : List Nat)
        (toks : SimpleVob),
        t.nNodes ≤ M + 1 → placedN T.nodes t np off → WfH t → t.byte < 256 →
        t.nNodes < 16777216 → off + t.nNodes ≤ endp → 1 ≤ np → np < 256 →
        s.drop pend = stk →
        ∃ pend2 s2 toks2,
          s2.drop pend2 = stk.drop (np - 1) ∧
          (∀ x, toks2.contains x =
            (toks.contains x || collectH V T.vocab_size stk x t)) ∧
          ∀ fuel, endp ≤ off + fuel →
            T.biasGo (stackRec V) endp off pend s toks fuel =
              T.biasGo (stackRec V) endp (off + t.nNodes) pend2 s2 toks2
                (fuel - t.nNodes) := by
      intro t np off pend s stk toks hM hpl hwf hbyte hlt hreg hnp1 hnp2 hstk
      cases t with
      | mk raw b cs =>
        have hb256 : b < 256 := hbyte
        have hnn : TrieHash.nNodes ⟨raw, b, cs⟩ = 1 + TrieHash.nNodesList cs := rfl
        have hposn := nNodes_pos (⟨raw, b, cs⟩ : TrieHash)
        have hoff : off < endp := by omega
        have hbm : TrieHash.byte ⟨raw, b, cs⟩ = b := rfl
        have htm : TrieHash.token_id ⟨raw, b, cs⟩ = raw := rfl
        have hnd : T.nodeAt off =
            TrieNode.make b raw np (TrieHash.nNodes ⟨raw, b, cs⟩) := by
          rw [nodeAt_placedN hpl, hbm, htm]
        have hbyteEq : (T.nodeAt off).byte = b := by
          rw [hnd, make_byte, Nat.mod_eq_of_lt hb256]
        have htokEq : (T.nodeAt off).token_id = tokDecode raw := by
          rw [hnd]
          exact make_token_id _ _ _ _
        have hszEq : (T.nodeAt off).subtree_size = TrieHash.nNodes ⟨raw, b, cs⟩ :=
          nodeAt_size_exact hpl hlt
        have hnpEq : (T.nodeAt off).num_parents = np := by
          rw [hnd, make_num_parents, Nat.mod_eq_of_lt hnp2]
        have hs1 : (stackRec V).pop_bytes s pend = stk := by
          simpa [stackRec] using hstk
        by_cases hV : V ((b :: stk).reverse) = true
        · -- the node's byte is accepted
          have hres : (stackRec V).try_push_byte ((stackRec V).pop_bytes s pend)
              ((T.nodeAt off).byte) = (true, b :: stk) := by
            rw [hs1, hbyteEq]
            show (if V ((b :: stk).reverse) then (true, b :: stk) else (false, stk)) =
              (true, b :: stk)
            rw [if_pos hV]
          by_cases hleaf : TrieHash.nNodes ⟨raw, b, cs⟩ = 1
          · -- leaf: defer this node's own pops
            have hcsnil : cs = [] := by
              apply nNodesList_zero
              omega
            subst hcsnil
            refine ⟨np, b :: stk,
              toks.allow_token ((tokDecode raw).getD T.vocab_size), ?_, ?_, ?_⟩
            · exact drop_cons_of_pos b stk hnp1
            · intro x
              show ((tokDecode raw).getD T.vocab_size :: toks).contains x = _
              rw [List.contains_cons]
              simp only [collectH, collectHL, hV, Bool.true_and, Bool.or_false]
              rw [Bool.or_comm]
            · intro fuel hfuel
              cases fuel with
              | zero => omega
              | succ f =>
                rw [biasGo_step_acc hoff hres]
                rw [hszEq, if_pos hleaf, hnpEq, htokEq, hleaf]
                have he : f + 1 - 1 = f := by omega
                rw [he]
          · -- internal node: descend into the children region
              have hcsne : cs ≠ [] := by
                intro hcn
                subst hcn
                exact hleaf rfl
              obtain ⟨hget, hclp, hbd⟩ := placedN_node hpl
              have hsortne : sortByByte cs ≠ [] := by
                intro hsn
                have := length_sortByByte cs
                rw [hsn] at this
                simp only [List.length_nil] at this
                exact hcsne (List.length_eq_zero.mp this.symm)
              have hsortnn : TrieHash.nNodesList (sortByByte cs) =
                  TrieHash.nNodesList cs := nNodesList_sortByByte cs
              have hchildren : TrieHash.children ⟨raw, b, cs⟩ = cs := rfl
              rw [hchildren] at hclp
              obtain ⟨pend2, s2, toks2, hdrop, htoks, hcont⟩ :=
                ih.2 (sortByByte cs) np (off + 1) 0 (b :: stk) (b :: stk)
                  (toks.allow_token ((tokDecode raw).getD T.vocab_size))
                  (by omega)
                  hsortne hclp
                  (fun c hc => WfH_children_wf hwf c (mem_sortByByte.mp hc))
                  (fun c hc => WfH_children_byte hwf c (mem_sortByByte.mp hc))
                  (by omega) (by omega) rfl
              refine ⟨pend2, s2, toks2, ?_, ?_, ?_⟩
              · rw [hdrop]
                exact drop_cons_of_pos b stk hnp1
              · intro x
                rw [htoks x]
                show (((tokDecode raw).getD T.vocab_size :: toks).contains x || _) = _
                rw [List.contains_cons]
                simp only [collectH, hV, Bool.true_and]
                rw [collectHL_any, collectHL_any,
                  any_perm (sortByByte_perm cs) (fun c => collectH V T.vocab_size (b :: stk) x c)]
                cases toks.contains x <;>
                  cases x == (tokDecode raw).getD T.vocab_size <;>
                  cases cs.any (fun c => collectH V T.vocab_size (b :: stk) x c) <;> rfl
              · intro fuel hfuel
                cases fuel with
                | zero => omega
                | succ f =>
                  rw [biasGo_step_acc hoff hres]
                  rw [hszEq, if_neg hleaf, htokEq]
                  rw [hcont f (by omega)]
                  have e1 : off + 1 + TrieHash.nNodesList (sortByByte cs) =
                      off + TrieHash.nNodes ⟨raw, b, cs⟩ := by
                    rw [hsortnn, hnn]
                    omega
                  have e2 : f - TrieHash.nNodesList (sortByByte cs) =
                      f + 1 - TrieHash.nNodes ⟨raw, b, cs⟩ := by
                    rw [hsortnn, hnn]
                    omega
                  rw [e1, e2]
        · -- the node's byte is rejected: skip its whole region
          have hres : (stackRec V).try_push_byte ((stackRec V).pop_bytes s pend)
              ((T.nodeAt off).byte) = (false, stk) := by
            rw [hs1, hbyteEq]
            show (if V ((b :: stk).reverse) then (true, b :: stk) else (false, stk)) =
              (false, stk)
            rw [if_neg hV]
          refine ⟨np - 1, stk, toks, rfl, ?_, ?_⟩
          · intro x
            have hVb : V ((b :: stk).reverse) = false := by
              cases hx : V ((b :: stk).reverse)
              · rfl
              · exact absurd hx hV
            simp only [collectH, hVb, Bool.false_and, Bool.or_false]
          · intro fuel hfuel
            cases fuel with
            | zero => omega
            | succ f =>
              rw [biasGo_step_rej hoff hres]
              rw [hszEq, hnpEq]
              exact biasGo_fuel hpos f (f + 1 - TrieHash.nNodes ⟨raw, b, cs⟩)
                (off + TrieHash.nNodes ⟨raw, b, cs⟩) _ _ _ (by omega) (by omega)
    refine ⟨hnode, ?_⟩
    intro cs
    induction cs with
    | nil =>
      intro P off pend s stk toks hM hne
      exact absurd rfl hne
    | cons c rest ihl =>
      intro P off pend s stk toks hM hne hpl hwf hbyte hlt hreg hstk
      have hnlc : TrieHash.nNodesList (c :: rest) =
          c.nNodes + TrieHash.nNodesList rest := rfl
      obtain ⟨h1, h2⟩ := placedCL_cons hpl
      by_cases hrest : rest = []
      · subst hrest
        obtain ⟨hnp256, hplc⟩ := h1 rfl
        obtain ⟨pend2, s2, toks2, hdrop, htoks, hcont⟩ :=
          hnode c (P + 1) off pend s stk toks
            (by simp only [TrieHash.nNodesList] at hM; omega) hplc
            (hwf c (by simp)) (hbyte c (by simp))
            (by simp only [TrieHash.nNodesList] at hlt; omega)
            (by simp only [TrieHash.nNodesList] at hreg; omega)
            (by omega) hnp256 hstk
        have hnl1 : TrieHash.nNodesList [c] = c.nNodes := by
          simp [TrieHash.nNodesList]
        refine ⟨pend2, s2, toks2, ?_, ?_, ?_⟩
        · simpa using hdrop
        · intro x
          rw [htoks x]
          simp only [collectHL, Bool.or_false]
        · intro fuel hfuel
          rw [hcont fuel hfuel, hnl1]
      · obtain ⟨hplc, hplrest⟩ := h2 hrest
        have hposc := nNodes_pos c
        have hposr : 1 ≤ TrieHash.nNodesList rest := by
          cases rest with
          | nil => exact absurd rfl hrest
          | cons r rs =>
            have := nNodes_pos r
            have hx : TrieHash.nNodesList (r :: rs) =
                r.nNodes + TrieHash.nNodesList rs := rfl
            omega
        obtain ⟨pend1, s1, toks1, hdrop1, htoks1, hcont1⟩ :=
          hnode c 1 off pend s stk toks
            (by omega) hplc (hwf c (by simp)) (hbyte c (by simp))
            (by omega) (by omega) (by omega) (by omega) hstk
        have hstk1 : s1.drop pend1 = stk := by
          simpa using hdrop1
        obtain ⟨pend2, s2, toks2, hdrop2, htoks2, hcont2⟩ :=
          ihl P (off + c.nNodes) pend1 s1 stk toks1
            (by omega) hrest hplrest
            (fun c2 hc2 => hwf c2 (by simp [hc2]))
            (fun c2 hc2 => hbyte c2 (by simp [hc2]))
            (by omega) (by omega) hstk1
        refine ⟨pend2, s2, toks2, hdrop2, ?_, ?_⟩
        · intro x
          rw [htoks2 x, htoks1 x]
          simp only [collectHL]
          cases toks.contains x <;>
            cases collectH V T.vocab_size stk x c <;>
            cases collectHL V T.vocab_size stk x rest <;> rfl
        · intro fuel hfuel
          rw [hcont1 fuel hfuel]
          rw [hcont2 (fuel - c.nNodes) (by omega)]
          have e1 : off + c.nNodes + TrieHash.nNodesList rest =
              off + TrieHash.nNodesList (c :: rest) := by
            rw [hnlc]
            omega
          have e2 : fuel - c.nNodes - TrieHash.nNodesList rest =
              fuel - TrieHash.nNodesList (c :: rest) := by
            rw [hnlc]
            omega
          rw [e1, e2]

/-! Node-count accounting: a constructed hash-trie has fewer than 2^24 nodes,
so the 24-bit subtree-size field of every packed node is exact.  Each densify
event turns a 251-entry child list into 256 entries (at most 5 new padding
leaves), and every dense node owns 256 children, so dense nodes are rare. -/

theorem dense_lower_aux : ∀ N : Nat,
    (∀ t : TrieHash, t.nNodes ≤ N → 256 * t.nDense + 1 ≤ t.nNodes) ∧
    (∀ cs : List TrieHash, TrieHash.nNodesList cs ≤ N →
      256 * TrieHash.nDenseList cs + cs.length ≤ TrieHash.nNodesList cs) := by
  intro N
  induction N with
  | zero =>
    constructor
    · intro t ht
      have := nNodes_pos t
      omega
    · intro cs hcs
      have : cs = [] := nNodesList_zero (by omega)
      subst this
      simp [TrieHash.nDenseList, TrieHash.nNodesList]
  | succ N ih =>
    have hnode : ∀ t : TrieHash, t.nNodes ≤ N + 1 → 256 * t.nDense + 1 ≤ t.nNodes := by
      intro t ht
      cases t with
      | mk tok b cs =>
        simp only [TrieHash.nNodes, TrieHash.nDense] at *
        have hlist := ih.2 cs (by omega)
        by_cases hd : 256 ≤ cs.length
        · rw [if_pos hd]
          omega
        · rw [if_neg hd]
          omega
    have hlist : ∀ cs : List TrieHash, TrieHash.nNodesList cs ≤ N + 1 →
        256 * TrieHash.nDenseList cs + cs.length ≤ TrieHash.nNodesList cs := by
      intro cs
      induction cs with
      | nil =>
        intro _
        simp [TrieHash.nDenseList, TrieHash.nNodesList]
      | cons c cs' ihl =>
        intro hle
        simp only [TrieHash.nNodesList, TrieHash.nDenseList, List.length_cons] at *
        have h1 := hnode c (by have := nNodes_pos c; omega)
        have h2 := ihl (by have := nNodes_pos c; omega)
        omega
    exact ⟨hnode, hlist⟩

theorem dense_lower (t : TrieHash) : 256 * t.nDense + 1 ≤ t.nNodes :=
  (dense_lower_aux t.nNodes).1 t (Nat.le_refl _)

theorem MM_pos (t : TrieHash) : 1 ≤ MM t := by
  have := dense_lower t
  unfold MM
  omega

theorem MML_cons (c : TrieHash) (cs : List TrieHash) :
    MML (c :: cs) = MM c + MML cs := by
  simp only [MML, MM, TrieHash.nNodesList, TrieHash.nDenseList]
  push_cast
  ring

theorem MML_nil : MML [] = 0 := by
  simp [MML, TrieHash.nNodesList, TrieHash.nDenseList]

theorem MM_mk (tok b : Nat) (cs : List TrieHash) :
    MM ⟨tok, b, cs⟩ =
      1 + MML cs - 5 * (if 256 ≤ cs.length then (1 : Int) else 0) := by
  simp only [MM, MML, TrieHash.nNodes, TrieHash.nDense]
  by_cases hd : 256 ≤ cs.length
  · rw [if_pos hd, if_pos hd]
    push_cast
    ring
  · rw [if_neg hd, if_neg hd]
    push_cast
    ring

theorem MML_set (v : List TrieHash) :
    ∀ (i : Nat) (e ch : TrieHash), v.get? i = some e →
      MML (v.set i ch) = MML v - MM e + MM ch := by
  induction v with
  | nil =>
    intro i e ch h
    cases h
  | cons d ds ih =>
    intro i e ch h
    match i with
    | 0 =>
      have : d = e := by simpa using h
      subst this
      simp only [List.set]
      rw [MML_cons, MML_cons]
      ring
    | j + 1 =>
      have h' : ds.get? j = some e := by simpa using h
      simp only [List.set]
      rw [MML_cons, MML_cons, ih j e ch h']
      ring

theorem MML_set_le (v : List TrieHash) (i : Nat) (ch : TrieHash) :
    MML (v.set i ch) ≤ MML v + MM ch - 1 := by
  cases hg : v.get? i with
  | none =>
    have hlen : v.length ≤ i := by
      by_contra hc
      push_neg at hc
      rw [List.get?_eq_getElem?, List.getElem?_eq_getElem hc] at hg
      cases hg
    rw [List.set_eq_of_length_le hlen]
    have := MM_pos ch
    omega
  | some e =>
    rw [MML_set v i e ch hg]
    have := MM_pos e
    omega

theorem MML_foldl_set (cs : List TrieHash) :
    ∀ v : List TrieHash,
      MML (cs.foldl (fun v2 ch => v2.set ch.byte ch) v) ≤
        MML v + MML cs - cs.length := by
  induction cs with
  | nil =>
    intro v
    rw [MML_nil]
    simp
  | cons c cs' ih =>
    intro v
    simp only [List.foldl, MML_cons, List.length_cons]
    have h1 := ih (v.set c.byte c)
    have h2 := MML_set_le v c.byte c
    push_cast
    omega

theorem MML_range_new : MML ((List.range 256).map TrieHash.new) = 256 := by
  have : ∀ n : Nat, ∀ f : Nat → Nat,
      MML ((List.range n).map (fun i => TrieHash.new (f i))) = n := by
    intro n
    induction n with
    | zero =>
      intro f
      simp [MML, TrieHash.nNodesList, TrieHash.nDenseList]
    | succ m ih =>
      intro f
      rw [List.range_succ, List.map_append]
      have hsplit : ∀ l1 l2 : List TrieHash, MML (l1 ++ l2) = MML l1 + MML l2 := by
        intro l1 l2
        induction l1 with
        | nil => simp [MML_nil]
        | cons x xs ihx => simp only [List.cons_append, MML_cons, ihx]; ring
      rw [hsplit, ih f]
      simp only [List.map_cons, List.map_nil, MML_cons, MML_nil]
      have : MM (TrieHash.new (f m)) = 1 := by
        simp [MM, TrieHash.new, TrieHash.nNodes, TrieHash.nDense,
          TrieHash.nNodesList, TrieHash.nDenseList]
      rw [this]
      push_cast
      ring
  have h2 := this 256 id
  simpa [TrieHash.new] using h2

theorem MML_densify (cs : List TrieHash) :
    MML (densify cs) ≤ 256 + MML cs - cs.length := by
  unfold densify
  have := MML_foldl_set cs ((List.range 256).map TrieHash.new)
  rw [MML_range_new] at this
  omega

theorem MM_insert (w : List Nat) (tid : Nat) :
    ∀ t : TrieHash, MM (t.insert w tid) ≤ MM t + w.length := by
  induction w with
  | nil =>
    intro t
    cases t with
    | mk tok b cs =>
      show MM ⟨tid, b, cs⟩ ≤ MM ⟨tok, b, cs⟩ + ([] : List Nat).length
      rw [MM_mk, MM_mk]
      simp
  | cons b rest ih =>
    intro t
    cases t with
    | mk tok byte cs =>
      simp only [TrieHash.insert]
      by_cases hdense : cs.length = 256
      · rw [if_pos hdense]
        cases hg : cs.get? b with
        | none =>
          simp only [List.length_cons]
          rw [MM_mk]
          omega
        | some c =>
          have hIH := ih c
          rw [MM_mk, MM_mk, MML_set cs b c (c.insert rest tid) hg,
            List.length_set]
          simp only [List.length_cons]
          push_cast
          omega
      · rw [if_neg hdense]
        by_cases hfound : cs.findIdx (fun c => c.byte == b) < cs.length
        · rw [dif_pos hfound]
          set i := cs.findIdx (fun c => c.byte == b) with hi
          set c := cs.get ⟨i, hfound⟩ with hc
          have hg : cs.get? i = some c := List.get?_eq_get hfound
          have hIH := ih c
          rw [MM_mk, MM_mk, MML_set cs i c (c.insert rest tid) hg,
            List.length_set]
          simp only [List.length_cons]
          push_cast
          omega
        · rw [dif_neg hfound]
          set chain := (TrieHash.new b).insert rest tid with hchain
          have hch : MM chain ≤ 1 + rest.length := by
            have hx := ih (TrieHash.new b)
            have hn : MM (TrieHash.new b) = 1 := by
              simp [MM, TrieHash.new, TrieHash.nNodes, TrieHash.nDense,
                TrieHash.nNodesList, TrieHash.nDenseList]
            rw [hn, ← hchain] at hx
            omega
          have happ : MML (cs ++ [chain]) = MML cs + MM chain := by
            have hsplit : ∀ l1 l2 : List TrieHash, MML (l1 ++ l2) = MML l1 + MML l2 := by
              intro l1 l2
              induction l1 with
              | nil => simp [MML_nil]
              | cons x xs ihx => simp only [List.cons_append, MML_cons, ihx]; ring
            rw [hsplit]
            rw [MML_cons, MML_nil]
            ring
          by_cases hbig : (cs ++ [chain]).length > 250
          · rw [if_pos hbig]
            have hd := MML_densify (cs ++ [chain])
            rw [happ] at hd
            simp only [List.length_append, List.length_singleton] at hbig hd
            rw [MM_mk, MM_mk]
            rw [densify_length]
            rw [if_pos (by omega)]
            simp only [List.length_cons]
            by_cases hcs : 256 ≤ cs.length
            · rw [if_pos hcs]
              push_cast
              omega
            · rw [if_neg hcs]
              push_cast
              omega
          · rw [if_neg hbig]
            rw [MM_mk, MM_mk, happ]
            simp only [List.length_append, List.length_singleton] at hbig ⊢
            rw [if_neg (by omega), if_neg (by omega)]
            simp only [List.length_cons]
            push_cast
            omega

theorem MM_hashFold (ws : List (List Nat)) :
    ∀ t idx, MM (hashFold t idx ws) ≤ MM t + (ws.map List.length).sum := by
  induction ws with
  | nil =>
    intro t idx
    simp [hashFold]
  | cons w rest ih =>
    intro t idx
    simp only [hashFold, List.map_cons, List.sum_cons]
    by_cases hw : w.length > 0
    · rw [if_pos hw]
      have h1 := ih (t.insert w (u32mod idx)) (idx + 1)
      have h2 := MM_insert w (u32mod idx) t
      omega
    · rw [if_neg hw]
      have h1 := ih t (idx + 1)
      omega

/-! Inversion of `finalize_ctor` and `fromVocab`: what a successful
construction says about the resulting trie's components. -/

theorem finalize_inv {P T : TokTrie} (h : P.finalize_ctor = some T) :
    ∃ maxl dups,
      P.finalizeLoop 0 P.info.vocab_size P.max_token_len P.token_duplicates =
        some (maxl, dups) ∧
      T = { P with max_token_len := maxl, token_duplicates := dups } ∧
      T.validate = some () := by
  unfold TokTrie.finalize_ctor at h
  cases hfl : P.finalizeLoop 0 P.info.vocab_size P.max_token_len P.token_duplicates with
  | none =>
    rw [hfl] at h
    cases h
  | some md =>
    rw [hfl] at h
    obtain ⟨maxl, dups⟩ := md
    refine ⟨maxl, dups, rfl, ?_⟩
    simp only at h
    cases hv : TokTrie.validate { P with max_token_len := maxl, token_duplicates := dups } with
    | none =>
      rw [hv] at h
      cases h
    | some u =>
      rw [hv] at h
      cases h
      exact ⟨rfl, by rw [hv]⟩

theorem fromVocab_inv {info : TokRxInfo} {ws : List (List Nat)} {T : TokTrie}
    (h : TokTrie.fromVocab info ws = some T) :
    info.vocab_size = u32mod ws.length ∧
    descOKb 0 ws ∧
    ∃ nodes, (hashFold (TrieHash.new 255) 0 ws).serialize 0 = some nodes ∧
      T.info = info ∧ T.token_offsets = descList 0 ws ∧
      T.token_data = ws.flatten ∧ T.nodes = nodes ∧
      TokTrie.finalize_ctor ⟨info, descList 0 ws, ws.flatten, nodes, 0, []⟩ = some T := by
  unfold TokTrie.fromVocab at h
  by_cases hvs : info.vocab_size = u32mod ws.length
  · rw [if_pos hvs] at h
    refine ⟨hvs, ?_⟩
    cases hbl : buildLoop (TrieHash.new 255) [] [] 0 ws with
    | none =>
      rw [hbl] at h
      cases h
    | some r =>
      rw [hbl] at h
      obtain ⟨trie, offsets, data⟩ := r
      obtain ⟨h1, h2, h3, h4⟩ := buildLoop_props ws _ _ _ _ _ hbl
      simp only at h1 h2 h3
      simp only [List.nil_append, List.length_nil] at h2 h3
      subst h1 h2 h3
      refine ⟨by simpa using h4, ?_⟩
      dsimp only at h
      cases hs : (hashFold (TrieHash.new 255) 0 ws).serialize 0 with
      | none =>
        rw [hs] at h
        cases h
      | some nodes =>
        rw [hs] at h
        simp only at h
        obtain ⟨maxl, dups, hfl, hT, hv⟩ := finalize_inv h
        refine ⟨nodes, rfl, ?_, ?_, ?_, ?_, h⟩
        · rw [hT]
        · rw [hT]
        · rw [hT]
        · rw [hT]
  · rw [if_neg hvs] at h
    cases h

/-- Total byte-store length is bounded by the construction asserts. -/
theorem descOKb_sum (ws : List (List Nat)) :
    ∀ dlen, descOKb dlen ws → ws = [] ∨ dlen + (ws.map List.length).sum < 4195328 := by
  induction ws with
  | nil =>
    intro dlen _
    exact Or.inl rfl
  | cons w rest ih =>
    intro dlen hok
    obtain ⟨h1, h2, h3⟩ := hok
    refine Or.inr ?_
    rcases ih (dlen + w.length) h3 with hnil | hlt
    · subst hnil
      simp only [List.map_cons, List.map_nil, List.sum_cons, List.sum_nil]
      omega
    · simp only [List.map_cons, List.sum_cons]
      omega

/-- The construction asserts bound the node count of the built hash-trie well
below 2^24. -/
theorem nNodes_built_lt {ws : List (List Nat)} (hok : descOKb 0 ws) :
    (hashFold (TrieHash.new 255) 0 ws).nNodes < 16777216 := by
  have hsum : (ws.map List.length).sum < 4195328 := by
    rcases descOKb_sum ws 0 hok with hnil | hlt
    · subst hnil
      simp
    · omega
  have hMM := MM_hashFold ws (TrieHash.new 255) 0
  have hroot : MM (TrieHash.new 255) = 1 := by
    simp [MM, TrieHash.new, TrieHash.nNodes, TrieHash.nDense,
      TrieHash.nNodesList, TrieHash.nDenseList]
  rw [hroot] at hMM
  have hdl := dense_lower (hashFold (TrieHash.new 255) 0 ws)
  unfold MM at hMM
  omega

/-- `token` on a constructed trie returns exactly the vocabulary word. -/
theorem token_built {info : TokRxInfo} {ws : List (List Nat)} {T : TokTrie}
    (h : TokTrie.fromVocab info ws = some T) :
    ∀ j w, ws.get? j = some w → T.token j = some w := by
  obtain ⟨hvs, hok, nodes, hs, hinfo, hoffs, hdata, hnodes, hfin⟩ := fromVocab_inv h
  intro j w hget
  have hjlen : j < ws.length := (List.get?_eq_some.mp hget).1
  have hdlen : (descList 0 ws).length = ws.length := descList_length ws 0
  obtain ⟨hdg, hwlen, hsum⟩ := descList_get? ws 0 j w hget hok
  obtain ⟨hslice, hle⟩ := join_slice ws j w hget
  unfold TokTrie.token
  rw [if_neg (by rw [hoffs, hdlen]; omega)]
  rw [hoffs, hdg]
  simp only [Option.getD_some]
  have hmod : (w.length + (0 + ((ws.take j).map List.length).sum) * 1024) % 1024 = w.length := by
    omega
  have hdiv : (w.length + (0 + ((ws.take j).map List.length).sum) * 1024) / 1024 =
      ((ws.take j).map List.length).sum := by
    omega
  rw [hmod, hdiv, hdata]
  unfold sliceQ
  rw [if_pos (by constructor <;> omega)]
  rw [Nat.add_sub_cancel_left]
  rw [hslice]

/-! ## Theorems -/

/-- C10: for every trie and every token id at or past the end of the
descriptor table, `token` returns the empty byte string rather than failing,
and `decode_raw` and `decode` therefore treat the id as empty. -/
theorem token_out_of_range_empty (T : TokTrie) (idx : Nat)
    (h : T.token_offsets.length ≤ idx) :
    T.token idx = some [] ∧ T.decode_raw [idx] = some [] ∧ T.decode [idx] = some [] := by
  have ht : T.token idx = some [] := by
    unfold TokTrie.token
    rw [if_pos (by omega)]
  refine ⟨ht, ?_, ?_⟩
  · simp [TokTrie.decode_raw, ht]
  · simp [TokTrie.decode, TokTrie.decode_raw, ht]

/-- Witness for C10 at a concrete trie and id. -/
theorem token_out_of_range_empty_witness :
    (TokTrie.mk (TokRxInfo.new 0 0) [] [] [] 0 []).token 5 = some [] ∧
    (TokTrie.mk (TokRxInfo.new 0 0) [] [] [] 0 []).decode_raw [5] = some [] ∧
    (TokTrie.mk (TokRxInfo.new 0 0) [] [] [] 0 []).decode [5] = some [] :=
  token_out_of_range_empty (TokTrie.mk (TokRxInfo.new 0 0) [] [] [] 0 []) 5 (by decide)

/-- C5: on the vocabulary with the single token `"a"`, tokenizing the byte
`0x62` hits a byte with no token at the root and the code panics on
`last_tok.unwrap()` (modelled as `none`); no recoverable `MissingByteCoverage`
error value exists in its return type. -/
theorem greedy_missing_coverage_panics :
    ((TokTrie.fromVocab (TokRxInfo.new 1 0) [[97]]).bind
      (fun T => T.greedy_tokenize [98])) = none := by decide

/-- C7: for the vocabulary with the single token `"a"`, the header field
`token_data_bytes` (byte offset 16 of the serialized image) is 16, the length
of the node region (2 nodes of 8 bytes), not the length 1 of the token data
region. -/
theorem serialize_header_field_eval :
    ((TokTrie.fromVocab (TokRxInfo.new 1 0) [[97]]).map
      (fun T => (readU32 T.serialize 16, T.token_data.length,
        (nodesToBytes T.nodes).length))) = some (16, 1, 16) := by decide

/-- C9: on a trie whose only token is the special token `[0xFF, 'a']` with id
0, `get_special_tokens` returns the empty list — the unconditional
`res.remove(0)` drops the real special token id 0. -/
theorem get_special_tokens_drops_first_eval :
    ((TokTrie.fromVocab (TokRxInfo.new 1 0) [[255, 97]]).bind
      TokTrie.get_special_tokens) = some [] ∧
    ((TokTrie.fromVocab (TokRxInfo.new 1 0) [[255, 97]]).bind
      (fun T => T.token 0)) = some [255, 97] := by decide

/-- C8: on every malformed input — shorter than the header, mismatching magic,
mismatching header-size field, or a declared region past the end — loading
aborts by an `assert!`/slice panic (modelled as `none`); `from_bytes` returns
`Self` with no error channel, so no recoverable `BadFormat` value is ever
produced for the caller. -/
theorem from_bytes_badformat_fails (bytes : List Nat)
    (h : bytes.length < 28 ∨ readU32 bytes 0 ≠ MAGIC ∨ readU32 bytes 4 ≠ 28 ∨
      bytes.length < 28 + readU32 bytes 8 ∨
      bytes.length < 28 + readU32 bytes 8 + readU32 bytes 12) :
    TokTrie.from_bytes bytes = none := by
  unfold TokTrie.from_bytes
  by_cases h28 : 28 ≤ bytes.length
  · simp only [sliceQ, if_pos (show 0 ≤ 28 ∧ 28 ≤ bytes.length by omega)]
    by_cases hm : readU32 bytes 0 = MAGIC ∧ readU32 bytes 4 = 28
    · rw [if_pos hm]
      by_cases h1 : 28 + readU32 bytes 8 ≤ bytes.length
      · rw [if_pos (show 28 ≤ 28 + readU32 bytes 8 ∧
          28 + readU32 bytes 8 ≤ bytes.length by omega)]
        rw [if_neg (show ¬(28 + readU32 bytes 8 ≤ 28 + readU32 bytes 8 + readU32 bytes 12 ∧
          28 + readU32 bytes 8 + readU32 bytes 12 ≤ bytes.length) by omega)]
      · rw [if_neg (show ¬(28 ≤ 28 + readU32 bytes 8 ∧
          28 + readU32 bytes 8 ≤ bytes.length) by omega)]
    · rw [if_neg hm]
  · have hs : sliceQ bytes 0 28 = none := by
      simp only [sliceQ]
      rw [if_neg (show ¬(0 ≤ 28 ∧ 28 ≤ bytes.length) by omega)]
    rw [hs]

/-- Witness for C8: 28 zero bytes have a mismatching magic and loading fails. -/
theorem from_bytes_badformat_fails_witness :
    TokTrie.from_bytes (List.replicate 28 0) = none :=
  from_bytes_badformat_fails (List.replicate 28 0) (by decide)

/-- C4 counterexample: on the vocabulary `{"a", "bc"}` the input `"ab"`
tokenizes successfully to `[0, 0]` (the stale `last_tok` is emitted twice), so
the concatenation of the emitted token bytes is `"aa"`, not the input `"ab"`. -/
theorem greedy_reconstruct_cex :
    ((TokTrie.fromVocab (TokRxInfo.new 2 0) [[97], [98, 99]]).bind
      (fun T => (T.greedy_tokenize [97, 98]).bind T.decode_raw)) = some [97, 97] ∧
    some [97, 97] ≠ some ([97, 98] : List Nat) := by decide

/-- C2 counterexample: on the vocabulary whose single token `"a"` equals
`start`, with a recognizer rejecting every byte, the claim's predicate (which
explicitly includes a token exactly equal to `start`, whose bytes beyond
`start` are empty and hence vacuously accepted) is true, yet
`has_valid_extensions` returns false — the loop never examines the start
node's own token. -/
theorem has_valid_extensions_equal_start_cex :
    ((TokTrie.fromVocab (TokRxInfo.new 1 0) [[97]]).map
      (fun T => (T.has_valid_extensions (stackRec (fun _ => false)) [] [97]).1)) =
      some false ∧
    hasExtSpecIncl [[97]] (fun _ => false) [97] = true := by decide

theorem listAt_self (ns : List TrieNode) : listAt ns 0 ns :=
  ⟨[], [], by simp, rfl⟩

/-- The packed image, well-formedness and size bound of the hash-trie behind a
constructed `TokTrie`. -/
theorem built_facts {info : TokRxInfo} {ws : List (List Nat)} {T : TokTrie}
    (h : TokTrie.fromVocab info ws = some T)
    (hbytes : ∀ w ∈ ws, ∀ b ∈ w, b < 256) :
    placedN T.nodes (hashFold (TrieHash.new 255) 0 ws) 0 0 ∧
    WfH (hashFold (TrieHash.new 255) 0 ws) ∧
    (hashFold (TrieHash.new 255) 0 ws).nNodes < 16777216 := by
  obtain ⟨hvs, hok, nodes, hs, hinfo, hoffs, hdata, hnodes, hfin⟩ := fromVocab_inv h
  refine ⟨⟨2 * (hashFold (TrieHash.new 255) 0 ws).nNodes + 2, nodes, hs, ?_⟩, ?_, ?_⟩
  · rw [hnodes]
    exact listAt_self nodes
  · exact WfH_hashFold ws (TrieHash.new 255) 0 hbytes (WfH_new 255)
  · exact nNodes_built_lt hok

theorem placedN_bound {T : TokTrie} {t : TrieHash} {np off : Nat}
    (h : placedN T.nodes t np off) : off + t.nNodes ≤ T.nodes.length := by
  obtain ⟨fuel, l, hs, hat⟩ := h
  have hlen := serializeNodes_length hs
  obtain ⟨pre, post, hsplit, hplen⟩ := hat
  rw [hsplit]
  simp only [List.length_append]
  omega

/-- The token stored at a path of the built hash-trie is the decoded raw id of
the last vocabulary occurrence of that path as a word. -/
theorem tokenAt_built (ws : List (List Nat)) (hbytes : ∀ w ∈ ws, ∀ b ∈ w, b < 256)
    (u : List Nat) :
    (hashFold (TrieHash.new 255) 0 ws).tokenAt u =
      match lastRawFrom 0 ws u with
      | some raw => tokDecode raw
      | none => none := by
  rw [tokenAt_hashFold ws (TrieHash.new 255) 0 u hbytes (WfH_new 255)]
  cases lastRawFrom 0 ws u with
  | some raw => rfl
  | none => exact tokenAt_new 255 u

/-- Every occurrence of a nonempty word has a canonical (last) occurrence, and
the built trie stores exactly that index at the word's path. -/
theorem canon_of_occurrence {ws : List (List Nat)} {j : Nat} {w : List Nat}
    (hbytes : ∀ w2 ∈ ws, ∀ b ∈ w2, b < 256)
    (hget : ws.get? j = some w) (hne : w ≠ []) (hlen : ws.length ≤ 16777215) :
    ∃ m, m < ws.length ∧ ws.get? m = some w ∧
      (hashFold (TrieHash.new 255) 0 ws).tokenAt w = some m := by
  have hj : j < ws.length := (List.get?_eq_some.mp hget).1
  obtain ⟨m, hmlt, hmget, hmmax⟩ := exists_max_occurrence ws w j hj hget
  have hraw : lastRawFrom 0 ws w = some m := by
    have := (lastRawFrom_char ws 0 w (0 + m) (by omega)).mpr
      ⟨hne, m, hmlt, hmget, rfl, hmmax⟩
    simpa using this
  refine ⟨m, hmlt, hmget, ?_⟩
  rw [tokenAt_built ws hbytes w, hraw]
  have hmod : u32mod m = m := by
    unfold u32mod
    omega
  show tokDecode m = some m
  have := @tokDecode_small m (by omega)
  rw [hmod] at this
  exact this

/-- The greedy loop walked along a full vocabulary word: it consumes the whole
word and emits the canonical token id stored at the word's end. -/
theorem greedyGo_along {T : TokTrie} {H : TrieHash} {w : List Nat} {canon : Nat}
    (hT : H.tokenAt w = some canon) :
    ∀ k i off u np lt li r fuel,
      i + k = w.length →
      H.walk (w.take i) = some u →
      placedN T.nodes u np off → WfH u → u.nNodes < 16777216 →
      (k = 0 → lt = some canon) →
      k + 1 ≤ fuel →
      T.greedyGo w off i lt li r fuel = some (r ++ [canon]) := by
  intro k
  induction k with
  | zero =>
    intro i off u np lt li r fuel hik hwalk hpl hwf hlt hcan hfuel
    cases fuel with
    | zero => omega
    | succ f =>
      show T.greedyGo w off i lt li r (f + 1) = _
      simp only [TokTrie.greedyGo]
      rw [if_neg (by omega), hcan rfl]
  | succ k ih =>
    intro i off u np lt li r fuel hik hwalk hpl hwf hlt _ hfuel
    have hi : i < w.length := by omega
    obtain ⟨bi, hbi⟩ : ∃ bi, w.get? i = some bi :=
      ⟨w.get ⟨i, hi⟩, List.get?_eq_get hi⟩
    have hbi2 : w[i]? = some bi := by
      rw [← List.get?_eq_getElem?]
      exact hbi
    have htake : w.take (i + 1) = w.take i ++ [bi] := by
      rw [List.take_succ, hbi2]
      rfl
    obtain ⟨v, hwv⟩ : ∃ v, H.walk w = some v := by
      unfold TrieHash.tokenAt at hT
      cases hwv : H.walk w with
      | none =>
        rw [hwv] at hT
        cases hT
      | some v => exact ⟨v, rfl⟩
    obtain ⟨u2, hwu2⟩ : ∃ u2, H.walk (w.take (i + 1)) = some u2 := by
      have hsplit : w.take (i + 1) ++ w.drop (i + 1) = w := List.take_append_drop _ w
      rw [← hsplit, walk_append] at hwv
      cases hx : H.walk (w.take (i + 1)) with
      | none =>
        rw [hx] at hwv
        cases hwv
      | some u2 => exact ⟨u2, rfl⟩
    have hfc : findChild u.children bi = some u2 := by
      rw [htake, walk_append, hwalk] at hwu2
      have : u.walk [bi] = some u2 := hwu2
      rw [walk_cons] at this
      cases hfc2 : findChild u.children bi with
      | none =>
        rw [hfc2] at this
        cases this
      | some c =>
        rw [hfc2] at this
        have hcu : c = u2 := by simpa [TrieHash.walk] using this
        rw [hcu]
    have hcab := child_at_byte_placedN hpl hwf hlt bi
    rw [hfc] at hcab
    obtain ⟨off2, np2, hcabEq, hpl2⟩ := hcab
    have hmem : u2 ∈ u.children := (findChild_eq_some hfc).1
    have hwf2 : WfH u2 := WfH_children_wf hwf u2 hmem
    have hlt2 : u2.nNodes < 16777216 := by
      have h1 := mem_nNodesList hmem
      have h2 : u.nNodes = 1 + TrieHash.nNodesList u.children := by
        cases u with
        | mk tok b2 cs => rfl
      omega
    have htok2 : (T.nodeAt off2).token_id = tokDecode u2.token_id := by
      rw [nodeAt_placedN hpl2]
      exact make_token_id _ _ _ _
    cases fuel with
    | zero => omega
    | succ f =>
      show T.greedyGo w off i lt li r (f + 1) = _
      simp only [TokTrie.greedyGo]
      rw [if_pos hi]
      rw [show (w.get? i).getD 0 = bi from by rw [hbi]; rfl]
      rw [hcabEq]
      show (match (T.nodeAt off2).token_id with
        | some tok => T.greedyGo w off2 (i + 1) (some tok) i r f
        | none => T.greedyGo w off2 (i + 1) lt li r f) = some (r ++ [canon])
      rw [htok2]
      cases htd : tokDecode u2.token_id with
      | some tok =>
        show T.greedyGo w off2 (i + 1) (some tok) i r f = some (r ++ [canon])
        refine ih (i + 1) off2 u2 np2 (some tok) i r f (by omega) hwu2 hpl2 hwf2 hlt2 ?_
          (by omega)
        intro hk0
        have hta : w.take (i + 1) = w := List.take_of_length_le (by omega)
        rw [hta] at hwu2
        have hx : H.tokenAt w = tokDecode u2.token_id := by
          unfold TrieHash.tokenAt
          rw [hwu2]
        rw [hT, htd] at hx
        exact hx.symm
      | none =>
        show T.greedyGo w off2 (i + 1) lt li r f = some (r ++ [canon])
        refine ih (i + 1) off2 u2 np2 lt li r f (by omega) hwu2 hpl2 hwf2 hlt2 ?_
          (by omega)
        intro hk0
        exfalso
        have hta : w.take (i + 1) = w := List.take_of_length_le (by omega)
        rw [hta] at hwu2
        have hx : H.tokenAt w = tokDecode u2.token_id := by
          unfold TrieHash.tokenAt
          rw [hwu2]
        rw [hT, htd] at hx
        cases hx

/-- C4, amended: on a constructed trie whose words are byte strings and whose
vocabulary has fewer than 2^24 entries, every token round-trips:
`greedy_tokenize (token t)` succeeds and `decode_raw` of its output is exactly
`token t`. -/
theorem greedy_round_trip {info : TokRxInfo} {ws : List (List Nat)} {T : TokTrie}
    (h : TokTrie.fromVocab info ws = some T)
    (hbytes : ∀ w ∈ ws, ∀ b ∈ w, b < 256)
    (hlen : ws.length ≤ 16777215) :
    ∀ t w, ws.get? t = some w →
      T.token t = some w ∧ (T.greedy_tokenize w).bind T.decode_raw = some w := by
  intro t w hget
  refine ⟨token_built h t w hget, ?_⟩
  by_cases hw : w = []
  · subst hw
    show (T.greedy_tokenize []).bind T.decode_raw = some []
    simp [TokTrie.greedy_tokenize, TokTrie.decode_raw]
  · obtain ⟨hpl, hwf, hlt⟩ := built_facts h hbytes
    obtain ⟨m, hmlt, hmget, hTok⟩ := canon_of_occurrence hbytes hget hw hlen
    have hwpos : 0 < w.length := List.length_pos.mpr hw
    have hg : T.greedy_tokenize w = some [m] := by
      unfold TokTrie.greedy_tokenize
      rw [if_neg (by omega)]
      have hfuel : w.length + 1 ≤ (w.length + 2) * (w.length + 2) := by
        have := Nat.le_mul_of_pos_left (w.length + 2) (show 0 < w.length + 2 by omega)
        omega
      have := greedyGo_along hTok w.length 0 0 (hashFold (TrieHash.new 255) 0 ws) 0
        none 0 [] ((w.length + 2) * (w.length + 2)) (by omega) rfl hpl hwf hlt
        (fun hk => absurd hk (by omega)) hfuel
      simpa using this
    rw [hg]
    show T.decode_raw [m] = some w
    simp only [TokTrie.decode_raw]
    rw [token_built h m w hmget]
    simp

/-- Witness for the amended C4 at the vocabulary `{"a"}`. -/
theorem greedy_round_trip_witness :
    TokTrie.fromVocab (TokRxInfo.new 1 0) [[97]] = some Tsample ∧
    (Tsample.token 0 = some [97] ∧
      (Tsample.greedy_tokenize [97]).bind Tsample.decode_raw = some [97]) :=
  ⟨by decide,
    @greedy_round_trip (TokRxInfo.new 1 0) [[97]] Tsample
      (by decide) (by decide) (by decide) 0 [97] (by decide)⟩

theorem biasGo_at_end {σ : Type} {T : TokTrie} {R : Recognizer σ}
    {endp p pend : Nat} {s : σ} {toks : SimpleVob} {fuel : Nat} (h : endp ≤ p) :
    T.biasGo R endp p pend s toks fuel = (s, toks, pend) := by
  cases fuel with
  | zero => rfl
  | succ f =>
    simp only [TokTrie.biasGo]
    rw [if_neg (by omega)]

/-- The packed image and size bound of the hash-trie behind a constructed
`TokTrie`, with no assumption on the word bytes. -/
theorem placed_built {info : TokRxInfo} {ws : List (List Nat)} {T : TokTrie}
    (h : TokTrie.fromVocab info ws = some T) :
    placedN T.nodes (hashFold (TrieHash.new 255) 0 ws) 0 0 ∧
    (hashFold (TrieHash.new 255) 0 ws).nNodes < 16777216 := by
  obtain ⟨hvs, hok, nodes, hs, hinfo, hoffs, hdata, hnodes, hfin⟩ := fromVocab_inv h
  refine ⟨⟨2 * (hashFold (TrieHash.new 255) 0 ws).nNodes + 2, nodes, hs, ?_⟩, ?_⟩
  · rw [hnodes]
    exact listAt_self nodes
  · exact nNodes_built_lt hok

/-- The linear bias traversal under the counting instrumentation, for an
arbitrary recognizer: crossing a placed subtree changes the push and pop
counters by equal amounts once the deferred pops are accounted for. -/
theorem biasGo_count {σ : Type} (R : Recognizer σ) {T : TokTrie} {endp : Nat}
    (hpos : ∀ q, q < endp → 1 ≤ (T.nodeAt q).subtree_size) :
    ∀ M : Nat,
    (∀ (t : TrieHash) (np off pend : Nat) (s : σ × Nat × Nat) (toks : SimpleVob),
      t.nNodes ≤ M → placedN T.nodes t np off →
      t.nNodes < 16777216 → off + t.nNodes ≤ endp → 1 ≤ np → np < 256 →
      ∃ s2 pend2 toks2,
        s2.2.1 + s.2.2 + pend + np = s2.2.2 + pend2 + s.2.1 + 1 ∧
        ∀ fuel, endp ≤ off + fuel →
          T.biasGo (countRec R) endp off pend s toks fuel =
            T.biasGo (countRec R) endp (off + t.nNodes) pend2 s2 toks2
              (fuel - t.nNodes)) ∧
    (∀ (cs : List TrieHash) (P off pend : Nat) (s : σ × Nat × Nat) (toks : SimpleVob),
      TrieHash.nNodesList cs ≤ M → cs ≠ [] →
      placedCL T.nodes cs P off →
      TrieHash.nNodesList cs < 16777216 →
      off + TrieHash.nNodesList cs ≤ endp →
      ∃ s2 pend2 toks2,
        s2.2.1 + s.2.2 + pend + P = s2.2.2 + pend2 + s.2.1 ∧
        ∀ fuel, endp ≤ off + fuel →
          T.biasGo (countRec R) endp off pend s toks fuel =
            T.biasGo (countRec R) endp (off + TrieHash.nNodesList cs) pend2 s2 toks2
              (fuel - TrieHash.nNodesList cs)) := by
  intro M
  induction M with
  | zero =>
    constructor
    · intro t np off pend s toks hM
      have := nNodes_pos t
      omega
    · intro cs P off pend s toks hM hne
      exfalso
      cases cs with
      | nil => exact hne rfl
      | cons c rest =>
        have := nNodes_pos c
        have h2 : TrieHash.nNodesList (c :: rest) =
            c.nNodes + TrieHash.nNodesList rest := rfl
        omega
  | succ M ih =>
    have hnode : ∀ (t : TrieHash) (np off pend : Nat) (s : σ × Nat × Nat)
        (toks : SimpleVob),
        t.nNodes ≤ M + 1 → placedN T.nodes t np off →
        t.nNodes < 16777216 → off + t.nNodes ≤ endp → 1 ≤ np → np < 256 →
        ∃ s2 pend2 toks2,
          s2.2.1 + s.2.2 + pend + np = s2.2.2 + pend2 + s.2.1 + 1 ∧
          ∀ fuel, endp ≤ off + fuel →
            T.biasGo (countRec R) endp off pend s toks fuel =
              T.biasGo (countRec R) endp (off + t.nNodes) pend2 s2 toks2
                (fuel - t.nNodes) := by
      intro t np off pend s toks hM hpl hlt hreg hnp1 hnp2
      have hposn := nNodes_pos t
      have hoff : off < endp := by omega
      have hnd := nodeAt_placedN hpl
      have hszEq : (T.nodeAt off).subtree_size = t.nNodes := nodeAt_size_exact hpl hlt
      have hnpEq : (T.nodeAt off).num_parents = np := by
        rw [hnd, make_num_parents, Nat.mod_eq_of_lt hnp2]
      obtain ⟨s0, pu, po⟩ := s
      have hnn : t.nNodes = 1 + TrieHash.nNodesList t.children := by
        cases t with
        | mk tok b cs => rfl
      have hshape : (countRec R).try_push_byte
          ((countRec R).pop_bytes (s0, pu, po) pend) ((T.nodeAt off).byte) =
          ((R.try_push_byte (R.pop_bytes s0 pend) ((T.nodeAt off).byte)).1,
           (R.try_push_byte (R.pop_bytes s0 pend) ((T.nodeAt off).byte)).2,
           (if (R.try_push_byte (R.pop_bytes s0 pend) ((T.nodeAt off).byte)).1
             then pu + 1 else pu), po + pend) := rfl
      by_cases hb : (R.try_push_byte (R.pop_bytes s0 pend) ((T.nodeAt off).byte)).1 = true
      · have hres : (countRec R).try_push_byte
            ((countRec R).pop_bytes (s0, pu, po) pend) ((T.nodeAt off).byte) =
            (true, (R.try_push_byte (R.pop_bytes s0 pend) ((T.nodeAt off).byte)).2,
             pu + 1, po + pend) := by
          rw [hshape, hb, if_pos rfl]
        by_cases hleaf : t.nNodes = 1
        · refine ⟨((R.try_push_byte (R.pop_bytes s0 pend) ((T.nodeAt off).byte)).2,
            pu + 1, po + pend), np,
            toks.allow_token ((T.nodeAt off).token_id.getD T.vocab_size), ?_, ?_⟩
          · show pu + 1 + po + pend + np = po + pend + np + pu + 1
            omega
          · intro fuel hfuel
            cases fuel with
            | zero => omega
            | succ f =>
              rw [biasGo_step_acc hoff hres]
              rw [hszEq, if_pos hleaf, hnpEq, hleaf]
              have he : f + 1 - 1 = f := by omega
              rw [he]
        · have hchne : t.children ≠ [] := by
            intro hcn
            rw [hcn] at hnn
            simp only [TrieHash.nNodesList] at hnn
            omega
          have hsortne : sortByByte t.children ≠ [] := by
            intro hsn
            have := length_sortByByte t.children
            rw [hsn] at this
            simp only [List.length_nil] at this
            exact hchne (List.length_eq_zero.mp this.symm)
          have hsortnn : TrieHash.nNodesList (sortByByte t.children) =
              TrieHash.nNodesList t.children := nNodesList_sortByByte t.children
          obtain ⟨hget, hclp, hbd⟩ := placedN_node hpl
          obtain ⟨s2, pend2, toks2, hrel, hcont⟩ :=
            ih.2 (sortByByte t.children) np (off + 1) 0
              ((R.try_push_byte (R.pop_bytes s0 pend) ((T.nodeAt off).byte)).2,
                pu + 1, po + pend)
              (toks.allow_token ((T.nodeAt off).token_id.getD T.vocab_size))
              (by omega) hsortne hclp (by omega) (by omega)
          refine ⟨s2, pend2, toks2, ?_, ?_⟩
          · show s2.2.1 + po + pend + np = s2.2.2 + pend2 + pu + 1
            simp only at hrel
            omega
          · intro fuel hfuel
            cases fuel with
            | zero => omega
            | succ f =>
              rw [biasGo_step_acc hoff hres]
              rw [hszEq, if_neg hleaf]
              rw [hcont f (by omega)]
              have e1 : off + 1 + TrieHash.nNodesList (sortByByte t.children) =
                  off + t.nNodes := by
                rw [hsortnn, hnn]
                omega
              have e2 : f - TrieHash.nNodesList (sortByByte t.children) =
                  f + 1 - t.nNodes := by
                rw [hsortnn, hnn]
                omega
              rw [e1, e2]
      · have hb2 : (R.try_push_byte (R.pop_bytes s0 pend) ((T.nodeAt off).byte)).1 =
            false := by
          cases hx : (R.try_push_byte (R.pop_bytes s0 pend) ((T.nodeAt off).byte)).1
          · rfl
          · exact absurd hx hb
        have hres : (countRec R).try_push_byte
            ((countRec R).pop_bytes (s0, pu, po) pend) ((T.nodeAt off).byte) =
            (false, (R.try_push_byte (R.pop_bytes s0 pend) ((T.nodeAt off).byte)).2,
             pu, po + pend) := by
          rw [hshape, hb2, if_neg (by simp)]
        refine ⟨((R.try_push_byte (R.pop_bytes s0 pend) ((T.nodeAt off).byte)).2,
          pu, po + pend), np - 1, toks, ?_, ?_⟩
        · show pu + po + pend + np = po + pend + (np - 1) + pu + 1
          omega
        · intro fuel hfuel
          cases fuel with
          | zero => omega
          | succ f =>
            rw [biasGo_step_rej hoff hres]
            rw [hszEq, hnpEq]
            exact biasGo_fuel hpos f (f + 1 - t.nNodes) (off + t.nNodes) _ _ _
              (by omega) (by omega)
    refine ⟨hnode, ?_⟩
    intro cs
    induction cs with
    | nil =>
      intro P off pend s toks hM hne
      exact absurd rfl hne
    | cons c rest ihl =>
      intro P off pend s toks hM hne hpl hlt hreg
      have hnlc : TrieHash.nNodesList (c :: rest) =
          c.nNodes + TrieHash.nNodesList rest := rfl
      obtain ⟨h1, h2⟩ := placedCL_cons hpl
      by_cases hrest : rest = []
      · subst hrest
        obtain ⟨hnp256, hplc⟩ := h1 rfl
        obtain ⟨s2, pend2, toks2, hrel, hcont⟩ :=
          hnode c (P + 1) off pend s toks
            (by simp only [TrieHash.nNodesList] at hM; omega) hplc
            (by simp only [TrieHash.nNodesList] at hlt; omega)
            (by simp only [TrieHash.nNodesList] at hreg; omega)
            (by omega) hnp256
        have hnl1 : TrieHash.nNodesList [c] = c.nNodes := by
          simp [TrieHash.nNodesList]
        refine ⟨s2, pend2, toks2, by omega, ?_⟩
        intro fuel hfuel
        rw [hcont fuel hfuel, hnl1]
      · obtain ⟨hplc, hplrest⟩ := h2 hrest
        have hposc := nNodes_pos c
        have hposr : 1 ≤ TrieHash.nNodesList rest := by
          cases rest with
          | nil => exact absurd rfl hrest
          | cons r rs =>
            have := nNodes_pos r
            have hx : TrieHash.nNodesList (r :: rs) =
                r.nNodes + TrieHash.nNodesList rs := rfl
            omega
        obtain ⟨s1, pend1, toks1, hrel1, hcont1⟩ :=
          hnode c 1 off pend s toks
            (by omega) hplc (by omega) (by omega) (by omega) (by omega)
        obtain ⟨s2, pend2, toks2, hrel2, hcont2⟩ :=
          ihl P (off + c.nNodes) pend1 s1 toks1
            (by omega) hrest hplrest (by omega) (by omega)
        refine ⟨s2, pend2, toks2, by omega, ?_⟩
        intro fuel hfuel
        rw [hcont1 fuel hfuel]
        rw [hcont2 (fuel - c.nNodes) (by omega)]
        have e1 : off + c.nNodes + TrieHash.nNodesList rest =
            off + TrieHash.nNodesList (c :: rest) := by
          rw [hnlc]
          omega
        have e2 : fuel - c.nNodes - TrieHash.nNodesList rest =
            fuel - TrieHash.nNodesList (c :: rest) := by
          rw [hnlc]
          omega
        rw [e1, e2]

/-- C3: on any constructed trie, `add_bias` with empty start leaves any
recognizer's byte stack balanced: the instrumented push count equals the
instrumented pop count when the call returns. -/
theorem add_bias_push_pop_balance {σ : Type} (R : Recognizer σ)
    {info : TokRxInfo} {ws : List (List Nat)} {T : TokTrie}
    (h : TokTrie.fromVocab info ws = some T)
    (s0 : σ) (toks : SimpleVob) :
    ((T.add_bias (countRec R) (s0, 0, 0) toks []).1).2.1 =
      ((T.add_bias (countRec R) (s0, 0, 0) toks []).1).2.2 := by
  obtain ⟨hpl, hlt⟩ := placed_built h
  set H := hashFold (TrieHash.new 255) 0 ws with hH
  have hszEq : (T.nodeAt 0).subtree_size = H.nNodes := nodeAt_size_exact hpl hlt
  obtain ⟨hget, hclp, hbd⟩ := placedN_node hpl
  have hpos : ∀ q, q < 0 + (T.nodeAt 0).subtree_size →
      1 ≤ (T.nodeAt q).subtree_size := by
    intro q hq
    rw [hszEq] at hq
    exact placedN_region_size hpl hlt q (by omega) (by omega)
  have hnn : H.nNodes = 1 + TrieHash.nNodesList H.children := by
    cases H with
    | mk tok b cs => rfl
  have hsortnn : TrieHash.nNodesList (sortByByte H.children) =
      TrieHash.nNodesList H.children := nNodesList_sortByByte H.children
  have hposH := nNodes_pos H
  have hr : ∃ s2 toks2 pend2,
      T.add_bias_inner (countRec R) ((countRec R).trie_started (s0, 0, 0)) toks 0 =
        (s2, toks2, pend2) ∧ s2.2.1 = s2.2.2 + pend2 := by
    unfold TokTrie.add_bias_inner
    by_cases hone : H.nNodes = 1
    · refine ⟨(countRec R).trie_started (s0, 0, 0), toks, 0, ?_, rfl⟩
      exact biasGo_at_end (by rw [hszEq, hone])
    · have hchne : H.children ≠ [] := by
        intro hcn
        rw [hcn] at hnn
        simp only [TrieHash.nNodesList] at hnn
        omega
      have hsortne : sortByByte H.children ≠ [] := by
        intro hsn
        have := length_sortByByte H.children
        rw [hsn] at this
        simp only [List.length_nil] at this
        exact hchne (List.length_eq_zero.mp this.symm)
      obtain ⟨s2, pend2, toks2, hrel, hcont⟩ :=
        (biasGo_count R hpos (TrieHash.nNodesList (sortByByte H.children))).2
          (sortByByte H.children) 0 1 0 ((countRec R).trie_started (s0, 0, 0)) toks
          (Nat.le_refl _) hsortne hclp
          (by rw [hsortnn]; omega)
          (by rw [hsortnn, hszEq]; omega)
      refine ⟨s2, toks2, pend2, ?_, ?_⟩
      · rw [hcont (T.nodes.length + 1) (by rw [hszEq]; omega)]
        exact biasGo_at_end (by rw [hszEq, hsortnn]; omega)
      · have e1 : ((countRec R).trie_started (s0, 0, 0)).2.1 = 0 := rfl
        have e2 : ((countRec R).trie_started (s0, 0, 0)).2.2 = 0 := rfl
        rw [e1, e2] at hrel
        omega
  obtain ⟨s2, toks2, pend2, hrEq, hbal⟩ := hr
  have hfull : T.add_bias (countRec R) (s0, 0, 0) toks [] =
      ((countRec R).trie_finished ((countRec R).pop_bytes s2 pend2),
       toks2.disallow_token T.vocab_size) := by
    show (let s1 := (countRec R).trie_started (s0, 0, 0)
      let r := T.add_bias_inner (countRec R) s1 toks 0
      let s3 := (countRec R).pop_bytes r.1 r.2.2
      ((countRec R).trie_finished s3, r.2.1.disallow_token T.vocab_size)) = _
    dsimp only
    rw [hrEq]
  rw [hfull]
  show s2.2.1 = s2.2.2 + pend2
  exact hbal

theorem hvGo_at_end {σ : Type} {T : TokTrie} {R : Recognizer σ}
    {endp p pend : Nat} {s : σ} {fuel : Nat} (h : endp ≤ p) :
    T.hvGo R endp p pend s fuel = (false, s, pend) := by
  cases fuel with
  | zero => rfl
  | succ f =>
    simp only [TokTrie.hvGo]
    rw [if_neg (by omega)]

theorem hvGo_step_break {σ : Type} {T : TokTrie} {R : Recognizer σ}
    {endp p pend : Nat} {s : σ} {f : Nat} {s2 : σ} (hp : p < endp)
    (hres : R.try_push_byte (R.pop_bytes s pend) ((T.nodeAt p).byte) = (true, s2))
    (htok : (T.nodeAt p).token_id.isSome = true) :
    T.hvGo R endp p pend s (f + 1) = (true, s2, pend) := by
  simp only [TokTrie.hvGo]
  rw [if_pos hp, hres, htok]
  rfl

theorem hvGo_step_acc {σ : Type} {T : TokTrie} {R : Recognizer σ}
    {endp p pend : Nat} {s : σ} {f : Nat} {s2 : σ} (hp : p < endp)
    (hres : R.try_push_byte (R.pop_bytes s pend) ((T.nodeAt p).byte) = (true, s2))
    (htok : (T.nodeAt p).token_id.isSome = false) :
    T.hvGo R endp p pend s (f + 1) =
      T.hvGo R endp (p + 1)
        (if (T.nodeAt p).subtree_size = 1 then (T.nodeAt p).num_parents else 0)
        s2 f := by
  simp only [TokTrie.hvGo]
  rw [if_pos hp, hres, htok]
  rfl

theorem hvGo_step_rej {σ : Type} {T : TokTrie} {R : Recognizer σ}
    {endp p pend : Nat} {s : σ} {f : Nat} {s2 : σ} (hp : p < endp)
    (hres : R.try_push_byte (R.pop_bytes s pend) ((T.nodeAt p).byte) = (false, s2)) :
    T.hvGo R endp p pend s (f + 1) =
      T.hvGo R endp (p + (T.nodeAt p).subtree_size)
        ((T.nodeAt p).num_parents - 1) s2 f := by
  simp only [TokTrie.hvGo]
  rw [if_pos hp, hres]
  rfl

/-- The early-exit extension-search loop over a placed subtree, for a
deterministic byte-acceptance recognizer: it breaks with `true` exactly when
the subtree holds an accepted token node, and otherwise crosses the region
with the deferred-pop invariant. -/
theorem hvGo_main {T : TokTrie} (V : List Nat → Bool) {endp : Nat}
    (hpos : ∀ q, q < endp → 1 ≤ (T.nodeAt q).subtree_size) :
    ∀ M : Nat,
    (∀ (t : TrieHash) (np off pend : Nat) (s stk : List Nat),
      t.nNodes ≤ M → placedN T.nodes t np off → WfH t → t.byte < 256 →
      t.nNodes < 16777216 → off + t.nNodes ≤ endp → 1 ≤ np → np < 256 →
      s.drop pend = stk →
      (foundH V stk t = true →
        ∃ s2 pend2, ∀ fuel, endp ≤ off + fuel →
          T.hvGo (stackRec V) endp off pend s fuel = (true, s2, pend2)) ∧
      (foundH V stk t = false →
        ∃ pend2 s2, s2.drop pend2 = stk.drop (np - 1) ∧
          ∀ fuel, endp ≤ off + fuel →
            T.hvGo (stackRec V) endp off pend s fuel =
              T.hvGo (stackRec V) endp (off + t.nNodes) pend2 s2 (fuel - t.nNodes))) ∧
    (∀ (cs : List TrieHash) (P off pend : Nat) (s stk : List Nat),
      TrieHash.nNodesList cs ≤ M → cs ≠ [] →
      placedCL T.nodes cs P off →
      (∀ c ∈ cs, WfH c) → (∀ c ∈ cs, c.byte < 256) →
      TrieHash.nNodesList cs < 16777216 →
      off + TrieHash.nNodesList cs ≤ endp →
      s.drop pend = stk →
      (foundHL V stk cs = true →
        ∃ s2 pend2, ∀ fuel, endp ≤ off + fuel →
          T.hvGo (stackRec V) endp off pend s fuel = (true, s2, pend2)) ∧
      (foundHL V stk cs = false →
        ∃ pend2 s2, s2.drop pend2 = stk.drop P ∧
          ∀ fuel, endp ≤ off + fuel →
            T.hvGo (stackRec V) endp off pend s fuel =
              T.hvGo (stackRec V) endp (off + TrieHash.nNodesList cs) pend2 s2
                (fuel - TrieHash.nNodesList cs))) := by
  intro M
  induction M with
  | zero =>
    constructor
    · intro t np off pend s stk hM
      have := nNodes_pos t
      omega
    · intro cs P off pend s stk hM hne
      exfalso
      cases cs with
      | nil => exact hne rfl
      | cons c rest =>
        have := nNodes_pos c
        have h2 : TrieHash.nNodesList (c :: rest) =
            c.nNodes + TrieHash.nNodesList rest := rfl
        omega
  | succ M ih =>
    have hnode : ∀ (t : TrieHash) (np off pend : Nat) (s stk : List Nat),
        t.nNodes ≤ M + 1 → placedN T.nodes t np off → WfH t → t.byte < 256 →
        t.nNodes < 16777216 → off + t.nNodes ≤ endp → 1 ≤ np → np < 256 →
        s.drop pend = stk →
        (foundH V stk t = true →
          ∃ s2 pend2, ∀ fuel, endp ≤ off + fuel →
            T.hvGo (stackRec V) endp off pend s fuel = (true, s2, pend2)) ∧
        (foundH V stk t = false →
          ∃ pend2 s2, s2.drop pend2 = stk.drop (np - 1) ∧
            ∀ fuel, endp ≤ off + fuel →
              T.hvGo (stackRec V) endp off pend s fuel =
                T.hvGo (stackRec V) endp (off + t.nNodes) pend2 s2
                  (fuel - t.nNodes)) := by
      intro t np off pend s stk hM hpl hwf hbyte hlt hreg hnp1 hnp2 hstk
      cases t with
      | mk raw b cs =>
        have hb256 : b < 256 := hbyte
        have hnn : TrieHash.nNodes ⟨raw, b, cs⟩ = 1 + TrieHash.nNodesList cs := rfl
        have hposn := nNodes_pos (⟨raw, b, cs⟩ : TrieHash)
        have hoff : off < endp := by omega
        have hbm : TrieHash.byte ⟨raw, b, cs⟩ = b := rfl
        have htm : TrieHash.token_id ⟨raw, b, cs⟩ = raw := rfl
        have hnd : T.nodeAt off =
            TrieNode.make b raw np (TrieHash.nNodes ⟨raw, b, cs⟩) := by
          rw [nodeAt_placedN hpl, hbm, htm]
        have hbyteEq : (T.nodeAt off).byte = b := by
          rw [hnd, make_byte, Nat.mod_eq_of_lt hb256]
        have htokEq : (T.nodeAt off).token_id = tokDecode raw := by
          rw [hnd]
          exact make_token_id _ _ _ _
        have hszEq : (T.nodeAt off).subtree_size = TrieHash.nNodes ⟨raw, b, cs⟩ :=
          nodeAt_size_exact hpl hlt
        have hnpEq : (T.nodeAt off).num_parents = np := by
          rw [hnd, make_num_parents, Nat.mod_eq_of_lt hnp2]
        have hs1 : (stackRec V).pop_bytes s pend = stk := by
          simpa [stackRec] using hstk
        have hfound : foundH V stk ⟨raw, b, cs⟩ =
            (V ((b :: stk).reverse) &&
              ((tokDecode raw).isSome || foundHL V (b :: stk) cs)) := rfl
        by_cases hV : V ((b :: stk).reverse) = true
        · have hres : (stackRec V).try_push_byte ((stackRec V).pop_bytes s pend)
              ((T.nodeAt off).byte) = (true, b :: stk) := by
            rw [hs1, hbyteEq]
            show (if V ((b :: stk).reverse) then (true, b :: stk) else (false, stk)) =
              (true, b :: stk)
            rw [if_pos hV]
          by_cases htok : (tokDecode raw).isSome = true
          · -- accepted token node: the loop breaks here
            constructor
            · intro _
              refine ⟨b :: stk, pend, ?_⟩
              intro fuel hfuel
              cases fuel with
              | zero => omega
              | succ f =>
                exact hvGo_step_break hoff hres (by rw [htokEq]; exact htok)
            · intro hcontra
              rw [hfound, hV, htok] at hcontra
              simp at hcontra
          · have htokf : (tokDecode raw).isSome = false := by
              cases hx : (tokDecode raw).isSome
              · rfl
              · exact absurd hx htok
            by_cases hleaf : TrieHash.nNodes ⟨raw, b, cs⟩ = 1
            · have hcsnil : cs = [] := by
                apply nNodesList_zero
                omega
              subst hcsnil
              constructor
              · intro hcontra
                rw [hfound, hV, htokf] at hcontra
                simp only [foundHL, Bool.or_false, Bool.true_and] at hcontra
                cases hcontra
              · intro _
                refine ⟨np, b :: stk, drop_cons_of_pos b stk hnp1, ?_⟩
                intro fuel hfuel
                cases fuel with
                | zero => omega
                | succ f =>
                  rw [hvGo_step_acc hoff hres (by rw [htokEq]; exact htokf)]
                  rw [hszEq, if_pos hleaf, hnpEq, hleaf]
                  have he : f + 1 - 1 = f := by omega
                  rw [he]
            · have hcsne : cs ≠ [] := by
                intro hcn
                subst hcn
                exact hleaf rfl
              obtain ⟨hget, hclp, hbd⟩ := placedN_node hpl
              have hsortne : sortByByte cs ≠ [] := by
                intro hsn
                have := length_sortByByte cs
                rw [hsn] at this
                simp only [List.length_nil] at this
                exact hcsne (List.length_eq_zero.mp this.symm)
              have hsortnn : TrieHash.nNodesList (sortByByte cs) =
                  TrieHash.nNodesList cs := nNodesList_sortByByte cs
              have hchildren : TrieHash.children ⟨raw, b, cs⟩ = cs := rfl
              rw [hchildren] at hclp
              have hfsort : foundHL V (b :: stk) (sortByByte cs) =
                  foundHL V (b :: stk) cs := by
                rw [foundHL_any, foundHL_any]
                exact any_perm (sortByByte_perm cs) _
              obtain ⟨hlist1, hlist2⟩ :=
                ih.2 (sortByByte cs) np (off + 1) 0 (b :: stk) (b :: stk)
                  (by omega) hsortne hclp
                  (fun c hc => WfH_children_wf hwf c (mem_sortByByte.mp hc))
                  (fun c hc => WfH_children_byte hwf c (mem_sortByByte.mp hc))
                  (by omega) (by omega) rfl
              constructor
              · intro hfd
                rw [hfound, hV, htokf] at hfd
                simp only [Bool.false_or, Bool.true_and] at hfd
                obtain ⟨s2, pend2, hbrk⟩ := hlist1 (by rw [hfsort]; exact hfd)
                refine ⟨s2, pend2, ?_⟩
                intro fuel hfuel
                cases fuel with
                | zero => omega
                | succ f =>
                  rw [hvGo_step_acc hoff hres (by rw [htokEq]; exact htokf)]
                  rw [hszEq, if_neg hleaf]
                  exact hbrk f (by omega)
              · intro hfd
                rw [hfound, hV, htokf] at hfd
                simp only [Bool.false_or, Bool.true_and] at hfd
                obtain ⟨pend2, s2, hdrop, hcont⟩ := hlist2 (by rw [hfsort]; exact hfd)
                refine ⟨pend2, s2, ?_, ?_⟩
                · rw [hdrop]
                  exact drop_cons_of_pos b stk hnp1
                · intro fuel hfuel
                  cases fuel with
                  | zero => omega
                  | succ f =>
                    rw [hvGo_step_acc hoff hres (by rw [htokEq]; exact htokf)]
                    rw [hszEq, if_neg hleaf]
                    rw [hcont f (by omega)]
                    have e1 : off + 1 + TrieHash.nNodesList (sortByByte cs) =
                        off + TrieHash.nNodes ⟨raw, b, cs⟩ := by
                      rw [hsortnn, hnn]
                      omega
                    have e2 : f - TrieHash.nNodesList (sortByByte cs) =
                        f + 1 - TrieHash.nNodes ⟨raw, b, cs⟩ := by
                      rw [hsortnn, hnn]
                      omega
                    rw [e1, e2]
        · have hVf : V ((b :: stk).reverse) = false := by
            cases hx : V ((b :: stk).reverse)
            · rfl
            · exact absurd hx hV
          have hres : (stackRec V).try_push_byte ((stackRec V).pop_bytes s pend)
              ((T.nodeAt off).byte) = (false, stk) := by
            rw [hs1, hbyteEq]
            show (if V ((b :: stk).reverse) then (true, b :: stk) else (false, stk)) =
              (false, stk)
            rw [if_neg hV]
          constructor
          · intro hcontra
            rw [hfound, hVf] at hcontra
            simp at hcontra
          · intro _
            refine ⟨np - 1, stk, rfl, ?_⟩
            intro fuel hfuel
            cases fuel with
            | zero => omega
            | succ f =>
              rw [hvGo_step_rej hoff hres]
              rw [hszEq, hnpEq]
              exact hvGo_fuel hpos f (f + 1 - TrieHash.nNodes ⟨raw, b, cs⟩)
                (off + TrieHash.nNodes ⟨raw, b, cs⟩) _ _ (by omega) (by omega)
    refine ⟨hnode, ?_⟩
    intro cs
    induction cs with
    | nil =>
      intro P off pend s stk hM hne
      exact absurd rfl hne
    | cons c rest ihl =>
      intro P off pend s stk hM hne hpl hwf hbyte hlt hreg hstk
      have hnlc : TrieHash.nNodesList (c :: rest) =
          c.nNodes + TrieHash.nNodesList rest := rfl
      have hfcons : foundHL V stk (c :: rest) =
          (foundH V stk c || foundHL V stk rest) := rfl
      obtain ⟨h1, h2⟩ := placedCL_cons hpl
      by_cases hrest : rest = []
      · subst hrest
        obtain ⟨hnp256, hplc⟩ := h1 rfl
        obtain ⟨hc1, hc2⟩ :=
          hnode c (P + 1) off pend s stk
            (by simp only [TrieHash.nNodesList] at hM; omega) hplc
            (hwf c (by simp)) (hbyte c (by simp))
            (by simp only [TrieHash.nNodesList] at hlt; omega)
            (by simp only [TrieHash.nNodesList] at hreg; omega)
            (by omega) hnp256 hstk
        have hnl1 : TrieHash.nNodesList [c] = c.nNodes := by
          simp [TrieHash.nNodesList]
        constructor
        · intro hfd
          rw [hfcons] at hfd
          simp only [foundHL, Bool.or_false] at hfd
          exact hc1 hfd
        · intro hfd
          rw [hfcons] at hfd
          simp only [foundHL, Bool.or_false] at hfd
          obtain ⟨pend2, s2, hdrop, hcont⟩ := hc2 hfd
          refine ⟨pend2, s2, by simpa using hdrop, ?_⟩
          intro fuel hfuel
          rw [hcont fuel hfuel, hnl1]
      · obtain ⟨hplc, hplrest⟩ := h2 hrest
        have hposc := nNodes_pos c
        have hposr : 1 ≤ TrieHash.nNodesList rest := by
          cases rest with
          | nil => exact absurd rfl hrest
          | cons r rs =>
            have := nNodes_pos r
            have hx : TrieHash.nNodesList (r :: rs) =
                r.nNodes + TrieHash.nNodesList rs := rfl
            omega
        obtain ⟨hc1, hc2⟩ :=
          hnode c 1 off pend s stk
            (by omega) hplc (hwf c (by simp)) (hbyte c (by simp))
            (by omega) (by omega) (by omega) (by omega) hstk
        by_cases hfc : foundH V stk c = true
        · constructor
          · intro _
            exact hc1 hfc
          · intro hfd
            rw [hfcons, hfc] at hfd
            simp at hfd
        · have hfcf : foundH V stk c = false := by
            cases hx : foundH V stk c
            · rfl
            · exact absurd hx hfc
          obtain ⟨pend1, s1, hdrop1, hcont1⟩ := hc2 hfcf
          have hstk1 : s1.drop pend1 = stk := by
            simpa using hdrop1
          obtain ⟨hl1, hl2⟩ :=
            ihl P (off + c.nNodes) pend1 s1 stk
              (by omega) hrest hplrest
              (fun c2 hc2 => hwf c2 (by simp [hc2]))
              (fun c2 hc2 => hbyte c2 (by simp [hc2]))
              (by omega) (by omega) hstk1
          constructor
          · intro hfd
            rw [hfcons, hfcf] at hfd
            simp only [Bool.false_or] at hfd
            obtain ⟨s2, pend2, hbrk⟩ := hl1 hfd
            refine ⟨s2, pend2, ?_⟩
            intro fuel hfuel
            rw [hcont1 fuel hfuel]
            exact hbrk (fuel - c.nNodes) (by omega)
          · intro hfd
            rw [hfcons, hfcf] at hfd
            simp only [Bool.false_or] at hfd
            obtain ⟨pend2, s2, hdrop2, hcont2⟩ := hl2 hfd
            refine ⟨pend2, s2, hdrop2, ?_⟩
            intro fuel hfuel
            rw [hcont1 fuel hfuel]
            rw [hcont2 (fuel - c.nNodes) (by omega)]
            have e1 : off + c.nNodes + TrieHash.nNodesList rest =
                off + TrieHash.nNodesList (c :: rest) := by
              rw [hnlc]
              omega
            have e2 : fuel - c.nNodes - TrieHash.nNodesList rest =
                fuel - TrieHash.nNodesList (c :: rest) := by
              rw [hnlc]
              omega
            rw [e1, e2]

theorem nodes_length_built {info : TokRxInfo} {ws : List (List Nat)} {T : TokTrie}
    (h : TokTrie.fromVocab info ws = some T) :
    T.nodes.length = (hashFold (TrieHash.new 255) 0 ws).nNodes := by
  obtain ⟨hvs, hok, nodes, hs, hinfo, hoffs, hdata, hnodes, hfin⟩ := fromVocab_inv h
  rw [hnodes]
  have hs2 : TrieHash.serializeNodes
      (2 * (hashFold (TrieHash.new 255) 0 ws).nNodes + 2)
      (hashFold (TrieHash.new 255) 0 ws) 0 = some nodes := hs
  exact serializeNodes_length hs2

theorem isPfxOf_iff_append : ∀ (a b : List Nat), isPfxOf a b = true ↔ ∃ c, b = a ++ c := by
  intro a
  induction a with
  | nil =>
    intro b
    simp only [isPfxOf, List.nil_append]
    exact ⟨fun _ => ⟨b, rfl⟩, fun _ => trivial⟩
  | cons x xs ih =>
    intro b
    cases b with
    | nil =>
      simp only [isPfxOf]
      constructor
      · intro hf
        cases hf
      · rintro ⟨c, hc⟩
        cases hc
    | cons y ys =>
      simp only [isPfxOf, Bool.and_eq_true, beq_iff_eq]
      constructor
      · rintro ⟨rfl, hp⟩
        obtain ⟨c, rfl⟩ := (ih ys).mp hp
        exact ⟨c, rfl⟩
      · rintro ⟨c, hc⟩
        injection hc with h1 h2
        exact ⟨h1.symm, (ih ys).mpr ⟨c, h2⟩⟩

theorem isPfxOf_append_self (a c : List Nat) : isPfxOf a (a ++ c) = true :=
  (isPfxOf_iff_append a (a ++ c)).mpr ⟨c, rfl⟩

theorem append_ne_self {start q : List Nat} (hq : q ≠ []) : start ++ q ≠ start := by
  intro heq
  apply hq
  have := congrArg List.length heq
  simp only [List.length_append] at this
  exact List.length_eq_zero.mp (by omega)

theorem hasExtSpec_true_iff (ws : List (List Nat)) (V : List Nat → Bool)
    (start : List Nat) :
    hasExtSpec ws V start = true ↔
      ∃ j w, ws.get? j = some w ∧ isPfxOf start w = true ∧ w ≠ start ∧
        acceptsFrom V [] (w.drop start.length) = true := by
  unfold hasExtSpec
  rw [List.any_eq_true]
  constructor
  · rintro ⟨t, htmem, hp⟩
    cases hg : ws.get? t with
    | none =>
      rw [hg] at hp
      cases hp
    | some w =>
      rw [hg] at hp
      simp only [Bool.and_eq_true, bne_iff_ne] at hp
      exact ⟨t, w, hg, hp.1.1, hp.1.2, hp.2⟩
  · rintro ⟨j, w, hg, h1, h2, h3⟩
    have hj : j < ws.length := (List.get?_eq_some.mp hg).1
    refine ⟨j, List.mem_range.mpr hj, ?_⟩
    rw [hg]
    simp only [Bool.and_eq_true, bne_iff_ne]
    exact ⟨⟨h1, h2⟩, h3⟩

/-- Any spec-side witness of a proper extension yields a token-bearing walk in
the built hash-trie. -/
theorem spec_witness_walk {ws : List (List Nat)} {start : List Nat}
    (hbytes : ∀ w2 ∈ ws, ∀ b ∈ w2, b < 256) (hlen : ws.length ≤ 16777215)
    {j : Nat} {w : List Nat} (hget : ws.get? j = some w)
    (h1 : isPfxOf start w = true) (h2 : w ≠ start) :
    ∃ q vf, q ≠ [] ∧ w = start ++ q ∧
      (hashFold (TrieHash.new 255) 0 ws).walk w = some vf ∧
      (tokDecode vf.token_id).isSome = true := by
  obtain ⟨q, rfl⟩ := (isPfxOf_iff_append start w).mp h1
  have hqne : q ≠ [] := by
    intro hq
    rw [hq, List.append_nil] at h2
    exact h2 rfl
  have hwne : start ++ q ≠ [] := by
    intro hn
    exact hqne (List.append_eq_nil.mp hn).2
  obtain ⟨m, hmlt, hmget, hTok⟩ := canon_of_occurrence hbytes hget hwne hlen
  unfold TrieHash.tokenAt at hTok
  cases hwv : (hashFold (TrieHash.new 255) 0 ws).walk (start ++ q) with
  | none =>
    rw [hwv] at hTok
    cases hTok
  | some vf =>
    rw [hwv] at hTok
    have hTok2 : tokDecode vf.token_id = some m := hTok
    refine ⟨q, vf, hqne, rfl, rfl, ?_⟩
    rw [hTok2]
    rfl

/-- C2, amended: on a constructed trie with byte-valued words and fewer than
2^24 tokens, `has_valid_extensions` under a deterministic byte-acceptance
recognizer returns true exactly when some vocabulary token properly extends
`start` and the recognizer accepts its bytes beyond `start`; a token exactly
equal to `start` does not count. -/
theorem has_valid_extensions_iff {info : TokRxInfo} {ws : List (List Nat)}
    {T : TokTrie} (h : TokTrie.fromVocab info ws = some T)
    (hbytes : ∀ w ∈ ws, ∀ b ∈ w, b < 256) (hlen : ws.length ≤ 16777215)
    (V : List Nat → Bool) (start : List Nat) :
    (T.has_valid_extensions (stackRec V) [] start).1 = hasExtSpec ws V start := by
  obtain ⟨hpl, hwf, hlt⟩ := built_facts h hbytes
  set H := hashFold (TrieHash.new 255) 0 ws with hH
  have hwp := walk_placedN start H 0 0 hpl hwf hlt
  have hnlen := nodes_length_built h
  rw [← hH] at hnlen
  cases hwk : H.walk start with
  | none =>
    rw [hwk] at hwp
    have hcode : (T.has_valid_extensions (stackRec V) [] start).1 = false := by
      unfold TokTrie.has_valid_extensions
      rw [hwp]
    rw [hcode]
    cases hspec : hasExtSpec ws V start with
    | false => rfl
    | true =>
      exfalso
      obtain ⟨j, w, hget, h1, h2, h3⟩ := (hasExtSpec_true_iff ws V start).mp hspec
      obtain ⟨q, vf, hqne, hwq, hwalkw, _⟩ := spec_witness_walk hbytes hlen hget h1 h2
      rw [← hH] at hwalkw
      rw [hwq, walk_append, hwk] at hwalkw
      cases hwalkw
  | some u0 =>
    rw [hwk] at hwp
    obtain ⟨off2, np2, hcab, hplu, hwfu, hleu⟩ := hwp
    have hltu : u0.nNodes < 16777216 := by omega
    have hszEqu : (T.nodeAt off2).subtree_size = u0.nNodes := nodeAt_size_exact hplu hltu
    have hbdu := (placedN_node hplu).2.2
    have hpos : ∀ q, q < off2 + (T.nodeAt off2).subtree_size →
        1 ≤ (T.nodeAt q).subtree_size := by
      intro q hq
      rw [hszEqu] at hq
      have hbnd := placedN_bound hplu
      refine placedN_region_size hpl hlt q (by omega) ?_
      omega
    have hnnu : u0.nNodes = 1 + TrieHash.nNodesList u0.children := by
      cases u0 with
      | mk tok b cs => rfl
    have hcode : T.has_valid_extensions (stackRec V) [] start =
        (let r := T.hvGo (stackRec V) (off2 + (T.nodeAt off2).subtree_size)
            (off2 + 1) 0 ((stackRec V).trie_started []) (T.nodes.length + 1)
         let s3 := if start.length = 0 then (stackRec V).pop_bytes r.2.1 r.2.2
           else r.2.1
         (r.1, (stackRec V).trie_finished s3)) := by
      unfold TokTrie.has_valid_extensions
      rw [hcab]
    by_cases hone : u0.nNodes = 1
    · have hchnil : u0.children = [] := by
        apply nNodesList_zero
        omega
      have hveq : (T.has_valid_extensions (stackRec V) [] start).1 = false := by
        rw [hcode]
        dsimp only
        rw [hvGo_at_end (by rw [hszEqu, hone])]
      rw [hveq]
      cases hspec : hasExtSpec ws V start with
      | false => rfl
      | true =>
        exfalso
        obtain ⟨j, w, hget, h1, h2, h3⟩ := (hasExtSpec_true_iff ws V start).mp hspec
        obtain ⟨q, vf, hqne, hwq, hwalkw, _⟩ := spec_witness_walk hbytes hlen hget h1 h2
        rw [← hH] at hwalkw
        rw [hwq, walk_append, hwk] at hwalkw
        have hwalkw2 : u0.walk q = some vf := hwalkw
        cases q with
        | nil => exact hqne rfl
        | cons b q2 =>
          rw [walk_cons, hchnil] at hwalkw2
          simp [findChild] at hwalkw2
    · have hchne : u0.children ≠ [] := by
        intro hcn
        rw [hcn] at hnnu
        simp only [TrieHash.nNodesList] at hnnu
        omega
      have hsortne : sortByByte u0.children ≠ [] := by
        intro hsn
        have := length_sortByByte u0.children
        rw [hsn] at this
        simp only [List.length_nil] at this
        exact hchne (List.length_eq_zero.mp this.symm)
      have hsortnn : TrieHash.nNodesList (sortByByte u0.children) =
          TrieHash.nNodesList u0.children := nNodesList_sortByByte u0.children
      obtain ⟨hget0, hclp, hbd0⟩ := placedN_node hplu
      have hfsort : foundHL V [] (sortByByte u0.children) =
          foundHL V [] u0.children := by
        rw [foundHL_any, foundHL_any]
        exact any_perm (sortByByte_perm u0.children) _
      obtain ⟨hl1, hl2⟩ :=
        (hvGo_main V hpos (TrieHash.nNodesList (sortByByte u0.children))).2
          (sortByByte u0.children) np2 (off2 + 1) 0 [] []
          (Nat.le_refl _) hsortne hclp
          (fun c hc => WfH_children_wf hwfu c (mem_sortByByte.mp hc))
          (fun c hc => WfH_children_byte hwfu c (mem_sortByByte.mp hc))
          (by rw [hsortnn]; omega)
          (by rw [hszEqu, hsortnn]; omega) rfl
      cases hfd : foundHL V [] u0.children with
      | true =>
        obtain ⟨s2, pend2, hbrk⟩ := hl1 (by rw [hfsort]; exact hfd)
        have hveq : (T.has_valid_extensions (stackRec V) [] start).1 = true := by
          rw [hcode]
          dsimp only
          rw [show (stackRec V).trie_started [] = ([] : List Nat) from rfl]
          rw [hbrk (T.nodes.length + 1) (by rw [hszEqu]; omega)]
        rw [hveq]
        obtain ⟨q, v, hqne, hwalkq, hacc, hsome⟩ :=
          (foundHL_node_iff hwfu V []).mp hfd
        obtain ⟨x, hx⟩ := Option.isSome_iff_exists.mp hsome
        have hw2 : H.walk (start ++ q) = some v := by
          rw [walk_append, hwk]
          exact hwalkq
        have hTokw : H.tokenAt (start ++ q) = some x := by
          unfold TrieHash.tokenAt
          rw [hw2]
          exact hx
        rw [hH] at hTokw
        rw [tokenAt_built ws hbytes (start ++ q)] at hTokw
        cases hraw : lastRawFrom 0 ws (start ++ q) with
        | none =>
          rw [hraw] at hTokw
          cases hTokw
        | some raw =>
          obtain ⟨hne2, j, hjlt, hjget, hjraw, _⟩ :=
            (lastRawFrom_char ws 0 (start ++ q) raw (by omega)).mp hraw
          symm
          refine (hasExtSpec_true_iff ws V start).mpr
            ⟨j, start ++ q, hjget, isPfxOf_append_self start q,
              append_ne_self hqne, ?_⟩
          rw [List.drop_left]
          simpa using hacc
      | false =>
        obtain ⟨pend2, s2, hdrop2, hcont⟩ := hl2 (by rw [hfsort]; exact hfd)
        have hveq : (T.has_valid_extensions (stackRec V) [] start).1 = false := by
          rw [hcode]
          dsimp only
          rw [show (stackRec V).trie_started [] = ([] : List Nat) from rfl]
          rw [hcont (T.nodes.length + 1) (by rw [hszEqu]; omega)]
          rw [hvGo_at_end (by rw [hszEqu, hsortnn, hnnu]; omega)]
        rw [hveq]
        cases hspec : hasExtSpec ws V start with
        | false => rfl
        | true =>
          exfalso
          obtain ⟨j, w, hget, h1, h2, h3⟩ := (hasExtSpec_true_iff ws V start).mp hspec
          obtain ⟨q, vf, hqne, hwq, hwalkw, hsome⟩ :=
            spec_witness_walk hbytes hlen hget h1 h2
          rw [← hH] at hwalkw
          rw [hwq, walk_append, hwk] at hwalkw
          have hwalkw2 : u0.walk q = some vf := hwalkw
          have haccq : acceptsFrom V [] q = true := by
            rw [hwq, List.drop_left] at h3
            exact h3
          have : foundHL V [] u0.children = true := by
            refine (foundHL_node_iff hwfu V []).mpr ⟨q, vf, hqne, hwalkw2, ?_, hsome⟩
            simpa using haccq
          rw [hfd] at this
          cases this

/-- Witness for the amended C2 at the vocabulary `{"a"}` with the
always-accepting predicate and empty start. -/
theorem has_valid_extensions_iff_witness :
    TokTrie.fromVocab (TokRxInfo.new 1 0) [[97]] = some Tsample ∧
    (Tsample.has_valid_extensions (stackRec (fun _ => true)) [] []).1 =
      hasExtSpec [[97]] (fun _ => true) [] :=
  ⟨by decide,
    @has_valid_extensions_iff (TokRxInfo.new 1 0) [[97]] Tsample
      (by decide) (by decide) (by decide) (fun _ => true) []⟩

/-- Witness for C3 at the vocabulary `{"a"}` with a concrete recognizer. -/
theorem add_bias_push_pop_balance_witness :
    TokTrie.fromVocab (TokRxInfo.new 1 0) [[97]] = some Tsample ∧
    ((Tsample.add_bias (countRec (stackRec (fun _ => true))) ([], 0, 0) [] []).1).2.1 =
      ((Tsample.add_bias (countRec (stackRec (fun _ => true))) ([], 0, 0) [] []).1).2.2 :=
  ⟨by decide,
    add_bias_push_pop_balance (stackRec (fun _ => true))
      (show TokTrie.fromVocab (TokRxInfo.new 1 0) [[97]] = some Tsample by decide)
      [] []⟩

/-! Little-endian codec round trips and the serialized image layout. -/

theorem writeU32_length (n : Nat) : (writeU32 n).length = 4 := rfl

theorem u32mod_lt (n : Nat) : u32mod n < 4294967296 := by
  unfold u32mod
  omega

theorem mkLE_writeU32 (n : Nat) :
    mkLE (u32mod n % 256) (u32mod n / 256 % 256) (u32mod n / 65536 % 256)
      (u32mod n / 16777216) = u32mod n := by
  have h := u32mod_lt n
  unfold mkLE
  omega

theorem get?_append_len {α : Type} (pre suf : List α) (k : Nat) :
    (pre ++ suf).get? (pre.length + k) = suf.get? k := by
  induction pre with
  | nil => simp
  | cons x xs ih => simpa [Nat.succ_add] using ih

theorem readU32_at (pre suf : List Nat) :
    readU32 (pre ++ suf) pre.length = readU32 suf 0 := by
  unfold readU32
  rw [show (pre ++ suf).get? pre.length = suf.get? 0 from by
    simpa using get?_append_len pre suf 0]
  rw [get?_append_len pre suf 1, get?_append_len pre suf 2, get?_append_len pre suf 3]

theorem readU32_write0 (n : Nat) (rest : List Nat) :
    readU32 (writeU32 n ++ rest) 0 = u32mod n := by
  show mkLE (u32mod n % 256) (u32mod n / 256 % 256) (u32mod n / 65536 % 256)
      (u32mod n / 16777216) = u32mod n
  exact mkLE_writeU32 n

theorem nodesToBytes_length (ns : List TrieNode) :
    (nodesToBytes ns).length = 8 * ns.length := by
  induction ns with
  | nil => rfl
  | cons n ns ih =>
    show (writeU32 n.bits ++ writeU32 n.bits2 ++ nodesToBytes ns).length = _
    simp only [List.length_append, writeU32_length, ih, List.length_cons]
    omega

theorem offsetsToBytes_length (os : List Nat) :
    (offsetsToBytes os).length = 4 * os.length := by
  induction os with
  | nil => rfl
  | cons o os ih =>
    show (writeU32 o ++ offsetsToBytes os).length = _
    simp only [List.length_append, writeU32_length, ih, List.length_cons]
    omega

theorem bytesToNodes_round (ns : List TrieNode)
    (hb : ∀ n ∈ ns, n.bits < 4294967296 ∧ n.bits2 < 4294967296) :
    bytesToNodes (nodesToBytes ns) = some ns := by
  induction ns with
  | nil => rfl
  | cons n ns ih =>
    obtain ⟨h1, h2⟩ := hb n (by simp)
    have hrest := ih (fun m hm => hb m (by simp [hm]))
    show bytesToNodes (u32mod n.bits % 256 :: u32mod n.bits / 256 % 256 ::
      u32mod n.bits / 65536 % 256 :: u32mod n.bits / 16777216 ::
      u32mod n.bits2 % 256 :: u32mod n.bits2 / 256 % 256 ::
      u32mod n.bits2 / 65536 % 256 :: u32mod n.bits2 / 16777216 ::
      nodesToBytes ns) = some (n :: ns)
    show (bytesToNodes (nodesToBytes ns)).map _ = _
    rw [hrest]
    show some (⟨mkLE (u32mod n.bits % 256) (u32mod n.bits / 256 % 256)
        (u32mod n.bits / 65536 % 256) (u32mod n.bits / 16777216),
      mkLE (u32mod n.bits2 % 256) (u32mod n.bits2 / 256 % 256)
        (u32mod n.bits2 / 65536 % 256) (u32mod n.bits2 / 16777216)⟩ :: ns) =
      some (n :: ns)
    rw [mkLE_writeU32, mkLE_writeU32]
    have e1 : u32mod n.bits = n.bits := by
      unfold u32mod
      omega
    have e2 : u32mod n.bits2 = n.bits2 := by
      unfold u32mod
      omega
    rw [e1, e2]

theorem bytesToU32s_round (os : List Nat) (hb : ∀ o ∈ os, o < 4294967296) :
    bytesToU32s (offsetsToBytes os) = some os := by
  induction os with
  | nil => rfl
  | cons o os ih =>
    have h1 := hb o (by simp)
    have hrest := ih (fun x hx => hb x (by simp [hx]))
    show bytesToU32s (u32mod o % 256 :: u32mod o / 256 % 256 ::
      u32mod o / 65536 % 256 :: u32mod o / 16777216 :: offsetsToBytes os) =
      some (o :: os)
    show (bytesToU32s (offsetsToBytes os)).map _ = _
    rw [hrest]
    show some (mkLE (u32mod o % 256) (u32mod o / 256 % 256)
      (u32mod o / 65536 % 256) (u32mod o / 16777216) :: os) = some (o :: os)
    rw [mkLE_writeU32]
    have e1 : u32mod o = o := by
      unfold u32mod
      omega
    rw [e1]

theorem make_bits_lt (b t np s : Nat) :
    (TrieNode.make b t np s).bits < 4294967296 ∧
    (TrieNode.make b t np s).bits2 < 4294967296 := by
  show u32mod (t <<< 8) + b % 256 < 4294967296 ∧
    np % 256 + u32mod (s <<< 8) < 4294967296
  rw [u32mod_shl8, u32mod_shl8]
  omega

/-- All nodes of a constructed trie have 32-bit words. -/
theorem built_nodes_bits {info : TokRxInfo} {ws : List (List Nat)} {T : TokTrie}
    (h : TokTrie.fromVocab info ws = some T) :
    ∀ n ∈ T.nodes, n.bits < 4294967296 ∧ n.bits2 < 4294967296 := by
  obtain ⟨hvs, hok, nodes, hs, hinfo, hoffs, hdata, hnodes, hfin⟩ := fromVocab_inv h
  intro n hn
  rw [hnodes] at hn
  have hs2 : TrieHash.serializeNodes
      (2 * (hashFold (TrieHash.new 255) 0 ws).nNodes + 2)
      (hashFold (TrieHash.new 255) 0 ws) 0 = some nodes := hs
  obtain ⟨u, np2, he, _⟩ := (serialize_elems_aux _).1 _ _ _ hs2 n hn
  rw [he]
  exact make_bits_lt _ _ _ _

/-- All token descriptors of a constructed trie are 32-bit values. -/
theorem descList_mem_lt (ws : List (List Nat)) :
    ∀ dlen, descOKb dlen ws → ∀ x ∈ descList dlen ws, x < 4294967296 := by
  induction ws with
  | nil =>
    intro dlen _ x hx
    cases hx
  | cons w rest ih =>
    intro dlen hok x hx
    obtain ⟨h1, h2, h3⟩ := hok
    rcases List.mem_cons.mp hx with he | hm
    · rw [he]
      omega
    · exact ih (dlen + w.length) h3 x hm

/-! Finalization only depends on the `info` field through `vocab_size`: the
parsed trie re-finalizes identically after a round trip. -/

theorem childScan_info (i1 i2 : TokRxInfo) (o d : List Nat) (nds : List TrieNode)
    (m : Nat) (td : List (Nat × List Nat)) :
    ∀ fuel cur endo,
      TokTrie.childScan ⟨i2, o, d, nds, m, td⟩ cur endo fuel =
      TokTrie.childScan ⟨i1, o, d, nds, m, td⟩ cur endo fuel := by
  intro fuel
  induction fuel with
  | zero =>
    intro cur endo
    rfl
  | succ fuel ih =>
    intro cur endo
    simp only [TokTrie.childScan]
    dsimp only [TokTrie.nodeAt]
    rw [ih]

theorem child_at_byte_info (i1 i2 : TokRxInfo) (o d : List Nat) (nds : List TrieNode)
    (m : Nat) (td : List (Nat × List Nat)) (off b : Nat) :
    TokTrie.child_at_byte ⟨i2, o, d, nds, m, td⟩ off b =
    TokTrie.child_at_byte ⟨i1, o, d, nds, m, td⟩ off b := by
  unfold TokTrie.child_at_byte TokTrie.childOffsets TokTrie.next_node
  dsimp only [TokTrie.nodeAt]
  rw [childScan_info i1 i2]

theorem greedyGo_info (i1 i2 : TokRxInfo) (o d : List Nat) (nds : List TrieNode)
    (m : Nat) (td : List (Nat × List Nat)) (bytes : List Nat) :
    ∀ fuel nidx idx lt li r,
      TokTrie.greedyGo ⟨i2, o, d, nds, m, td⟩ bytes nidx idx lt li r fuel =
      TokTrie.greedyGo ⟨i1, o, d, nds, m, td⟩ bytes nidx idx lt li r fuel := by
  intro fuel
  induction fuel with
  | zero =>
    intro nidx idx lt li r
    rfl
  | succ fuel ih =>
    intro nidx idx lt li r
    simp only [TokTrie.greedyGo]
    by_cases h : idx < bytes.length
    · rw [if_pos h, if_pos h, child_at_byte_info i1 i2]
      cases TokTrie.child_at_byte ⟨i1, o, d, nds, m, td⟩ nidx ((bytes.get? idx).getD 0) with
      | none =>
        cases lt with
        | none => rfl
        | some tk =>
          exact ih 0 (li + 1) (some tk) li (r ++ [tk])
      | some c =>
        dsimp only [TokTrie.nodeAt]
        cases ((nds.get? c).getD (⟨0, 0⟩ : TrieNode)).token_id with
        | none => exact ih c (idx + 1) lt li r
        | some tok => exact ih c (idx + 1) (some tok) idx r
    · rw [if_neg h, if_neg h]

theorem greedy_tokenize_info (i1 i2 : TokRxInfo) (o d : List Nat) (nds : List TrieNode)
    (m : Nat) (td : List (Nat × List Nat)) (bytes : List Nat) :
    TokTrie.greedy_tokenize ⟨i2, o, d, nds, m, td⟩ bytes =
    TokTrie.greedy_tokenize ⟨i1, o, d, nds, m, td⟩ bytes := by
  unfold TokTrie.greedy_tokenize
  rw [greedyGo_info i1 i2]

theorem finalizeLoop_info (i1 i2 : TokRxInfo) (o d : List Nat) (nds : List TrieNode)
    (m : Nat) (td : List (Nat × List Nat)) :
    ∀ rem i maxl dups,
      TokTrie.finalizeLoop ⟨i2, o, d, nds, m, td⟩ i rem maxl dups =
      TokTrie.finalizeLoop ⟨i1, o, d, nds, m, td⟩ i rem maxl dups := by
  intro rem
  induction rem with
  | zero =>
    intro i maxl dups
    rfl
  | succ rem ih =>
    intro i maxl dups
    simp only [TokTrie.finalizeLoop]
    have ht : TokTrie.token (⟨i2, o, d, nds, m, td⟩ : TokTrie) =
        TokTrie.token (⟨i1, o, d, nds, m, td⟩ : TokTrie) := rfl
    rw [ht]
    cases TokTrie.token (⟨i1, o, d, nds, m, td⟩ : TokTrie) i with
    | none => rfl
    | some bytes =>
      have hg := greedy_tokenize_info i1 i2 o d nds m td bytes
      dsimp only
      rw [hg]
      cases TokTrie.greedy_tokenize ⟨i1, o, d, nds, m, td⟩ bytes with
      | none => rfl
      | some tok_ids => exact ih _ _ _

theorem validate_info_go (i1 i2 : TokRxInfo) (hvs : i2.vocab_size = i1.vocab_size)
    (o d : List Nat) (nds : List TrieNode) (m : Nat) (td : List (Nat × List Nat)) :
    ∀ fuel,
      (∀ off ep used,
        TokTrie.validateGo ⟨i2, o, d, nds, m, td⟩ off ep used fuel =
        TokTrie.validateGo ⟨i1, o, d, nds, m, td⟩ off ep used fuel) ∧
      (∀ cur endp used,
        TokTrie.validateKids ⟨i2, o, d, nds, m, td⟩ cur endp used fuel =
        TokTrie.validateKids ⟨i1, o, d, nds, m, td⟩ cur endp used fuel) := by
  intro fuel
  induction fuel with
  | zero => exact ⟨fun _ _ _ => rfl, fun _ _ _ => rfl⟩
  | succ fuel ih =>
    constructor
    · intro off ep used
      simp only [TokTrie.validateGo]
      dsimp only [TokTrie.nodeAt, TokTrie.next_node]
      rw [show (⟨i2, o, d, nds, m, td⟩ : TokTrie).info.vocab_size =
        (⟨i1, o, d, nds, m, td⟩ : TokTrie).info.vocab_size from hvs]
      dsimp only
      cases ((nds.get? off).getD (⟨0, 0⟩ : TrieNode)).token_id with
      | none =>
        dsimp only
        by_cases hle : off + ((nds.get? off).getD (⟨0, 0⟩ : TrieNode)).subtree_size ≤ ep
        · rw [if_pos hle, if_pos hle]
          exact ih.2 _ _ _
        · rw [if_neg hle, if_neg hle]
      | some tok =>
        dsimp only
        by_cases htk : tok < i1.vocab_size
        · rw [if_pos htk]
          cases used.get? tok with
          | none => rfl
          | some b =>
            cases b with
            | true => rfl
            | false =>
              dsimp only
              by_cases hle : off + ((nds.get? off).getD (⟨0, 0⟩ : TrieNode)).subtree_size ≤ ep
              · rw [if_pos hle, if_pos hle]
                exact ih.2 _ _ _
              · rw [if_neg hle, if_neg hle]
        · rw [if_neg htk]
    · intro cur endp used
      simp only [TokTrie.validateKids]
      dsimp only [TokTrie.nodeAt]
      by_cases h : cur < endp
      · rw [if_pos h, if_pos h, ih.1]
        cases TokTrie.validateGo ⟨i1, o, d, nds, m, td⟩ cur endp used fuel with
        | none => rfl
        | some used2 => exact ih.2 _ _ _
      · rw [if_neg h, if_neg h]

theorem touchTokens_info (i1 i2 : TokRxInfo) (o d : List Nat) (nds : List TrieNode)
    (m : Nat) (td : List (Nat × List Nat)) :
    ∀ k, TokTrie.touchTokens ⟨i2, o, d, nds, m, td⟩ k =
      TokTrie.touchTokens ⟨i1, o, d, nds, m, td⟩ k := by
  intro k
  induction k with
  | zero => rfl
  | succ k ih =>
    simp only [TokTrie.touchTokens]
    rw [ih]
    rfl

theorem validate_info (i1 i2 : TokRxInfo) (hvs : i2.vocab_size = i1.vocab_size)
    (o d : List Nat) (nds : List TrieNode) (m : Nat) (td : List (Nat × List Nat)) :
    TokTrie.validate ⟨i2, o, d, nds, m, td⟩ =
    TokTrie.validate ⟨i1, o, d, nds, m, td⟩ := by
  unfold TokTrie.validate
  dsimp only [TokTrie.next_node, TokTrie.nodeAt]
  rw [show (⟨i2, o, d, nds, m, td⟩ : TokTrie).info.vocab_size =
    (⟨i1, o, d, nds, m, td⟩ : TokTrie).info.vocab_size from hvs]
  rw [(validate_info_go i1 i2 hvs o d nds m td _).1]
  rw [touchTokens_info i1 i2]

theorem finalize_ctor_info {i1 i2 : TokRxInfo} (hvs : i2.vocab_size = i1.vocab_size)
    (o d : List Nat) (nds : List TrieNode) {T : TokTrie}
    (h : TokTrie.finalize_ctor ⟨i1, o, d, nds, 0, []⟩ = some T) :
    TokTrie.finalize_ctor ⟨i2, o, d, nds, 0, []⟩ =
      some ⟨i2, o, d, nds, T.max_token_len, T.token_duplicates⟩ := by
  obtain ⟨maxl, dups, hfl, hT, hv⟩ := finalize_inv h
  dsimp only at hfl
  unfold TokTrie.finalize_ctor
  dsimp only
  rw [show (⟨i2, o, d, nds, 0, []⟩ : TokTrie).info.vocab_size = i1.vocab_size from hvs]
  rw [finalizeLoop_info i1 i2, hfl]
  dsimp only
  have hveq : TokTrie.validate ⟨i2, o, d, nds, maxl, dups⟩ =
      TokTrie.validate ⟨i1, o, d, nds, maxl, dups⟩ := validate_info i1 i2 hvs o d nds maxl dups
  have hv2 : TokTrie.validate ⟨i1, o, d, nds, maxl, dups⟩ = some () := by
    rw [hT] at hv
    exact hv
  rw [hveq, hv2]
  rw [hT]

theorem readU32_at_add (pre suf : List Nat) (k : Nat) :
    readU32 (pre ++ suf) (pre.length + k) = readU32 suf k := by
  unfold readU32
  rw [show pre.length + k + 1 = pre.length + (k + 1) from by omega]
  rw [show pre.length + k + 2 = pre.length + (k + 2) from by omega]
  rw [show pre.length + k + 3 = pre.length + (k + 3) from by omega]
  rw [get?_append_len pre suf k, get?_append_len pre suf (k + 1),
    get?_append_len pre suf (k + 2), get?_append_len pre suf (k + 3)]

theorem readU32_cons4 (a : Nat) (suf : List Nat) (k : Nat) :
    readU32 (writeU32 a ++ suf) (4 + k) = readU32 suf k :=
  readU32_at_add (writeU32 a) suf k

/-- The six meaningful header fields read back from a serialized image. -/
theorem readU32_header (a b c d2 e f g : Nat) (rest : List Nat) :
    readU32 (writeU32 a ++ (writeU32 b ++ (writeU32 c ++ (writeU32 d2 ++
      (writeU32 e ++ (writeU32 f ++ (writeU32 g ++ rest))))))) 0 = u32mod a ∧
    readU32 (writeU32 a ++ (writeU32 b ++ (writeU32 c ++ (writeU32 d2 ++
      (writeU32 e ++ (writeU32 f ++ (writeU32 g ++ rest))))))) 4 = u32mod b ∧
    readU32 (writeU32 a ++ (writeU32 b ++ (writeU32 c ++ (writeU32 d2 ++
      (writeU32 e ++ (writeU32 f ++ (writeU32 g ++ rest))))))) 8 = u32mod c ∧
    readU32 (writeU32 a ++ (writeU32 b ++ (writeU32 c ++ (writeU32 d2 ++
      (writeU32 e ++ (writeU32 f ++ (writeU32 g ++ rest))))))) 12 = u32mod d2 ∧
    readU32 (writeU32 a ++ (writeU32 b ++ (writeU32 c ++ (writeU32 d2 ++
      (writeU32 e ++ (writeU32 f ++ (writeU32 g ++ rest))))))) 20 = u32mod f ∧
    readU32 (writeU32 a ++ (writeU32 b ++ (writeU32 c ++ (writeU32 d2 ++
      (writeU32 e ++ (writeU32 f ++ (writeU32 g ++ rest))))))) 24 = u32mod g := by
  refine ⟨readU32_write0 a _, ?_, ?_, ?_, ?_, ?_⟩
  · exact (readU32_cons4 a _ 0).trans (readU32_write0 b _)
  · exact (readU32_cons4 a _ 4).trans
      ((readU32_cons4 b _ 0).trans (readU32_write0 c _))
  · exact (readU32_cons4 a _ 8).trans ((readU32_cons4 b _ 4).trans
      ((readU32_cons4 c _ 0).trans (readU32_write0 d2 _)))
  · exact (readU32_cons4 a _ 16).trans ((readU32_cons4 b _ 12).trans
      ((readU32_cons4 c _ 8).trans ((readU32_cons4 d2 _ 4).trans
      ((readU32_cons4 e _ 0).trans (readU32_write0 f _)))))
  · exact (readU32_cons4 a _ 20).trans ((readU32_cons4 b _ 16).trans
      ((readU32_cons4 c _ 12).trans ((readU32_cons4 d2 _ 8).trans
      ((readU32_cons4 e _ 4).trans ((readU32_cons4 f _ 0).trans
      (readU32_write0 g _))))))

/-- C6, amended: for a constructed trie whose serialized regions fit in the
32-bit header fields (and whose `tok_eos` fits in 32 bits), parsing the
serialized image back reproduces the nodes, descriptors, byte store and the
two binary `info` fields. -/
theorem serialize_round_trip {info : TokRxInfo} {ws : List (List Nat)} {T : TokTrie}
    (h : TokTrie.fromVocab info ws = some T)
    (heos : info.tok_eos < 4294967296)
    (hn : 8 * T.nodes.length < 4294967296)
    (ho : 4 * T.token_offsets.length < 4294967296) :
    ∃ T2, TokTrie.from_bytes T.serialize = some T2 ∧
      T2.nodes = T.nodes ∧ T2.token_offsets = T.token_offsets ∧
      T2.token_data = T.token_data ∧
      T2.info.vocab_size = T.info.vocab_size ∧
      T2.info.tok_eos = T.info.tok_eos := by
  obtain ⟨hvs, hok, nds0, hsnodes, hinfo, hoffs, hdata, hnodes, hfin⟩ := fromVocab_inv h
  rw [← hoffs, ← hdata, ← hnodes] at hfin
  have hnb : (nodesToBytes T.nodes).length = 8 * T.nodes.length := nodesToBytes_length _
  have hob : (offsetsToBytes T.token_offsets).length = 4 * T.token_offsets.length :=
    offsetsToBytes_length _
  have enb : u32mod (nodesToBytes T.nodes).length = (nodesToBytes T.nodes).length := by
    unfold u32mod
    omega
  have eob : u32mod (offsetsToBytes T.token_offsets).length =
      (offsetsToBytes T.token_offsets).length := by
    unfold u32mod
    omega
  have evs : u32mod T.info.vocab_size = T.info.vocab_size := by
    rw [hinfo, hvs]
    unfold u32mod
    omega
  have eeos : u32mod T.info.tok_eos = T.info.tok_eos := by
    rw [hinfo]
    unfold u32mod
    omega
  have hserR : T.serialize = writeU32 MAGIC ++ (writeU32 28 ++
      (writeU32 (nodesToBytes T.nodes).length ++
      (writeU32 (offsetsToBytes T.token_offsets).length ++
      (writeU32 (nodesToBytes T.nodes).length ++
      (writeU32 T.info.vocab_size ++ (writeU32 T.info.tok_eos ++
      (nodesToBytes T.nodes ++ (offsetsToBytes T.token_offsets ++
        T.token_data)))))))) := by
    simp [TokTrie.serialize, List.append_assoc]
  obtain ⟨r0, r4, r8, r12, r20, r24⟩ := readU32_header MAGIC 28
    (nodesToBytes T.nodes).length (offsetsToBytes T.token_offsets).length
    (nodesToBytes T.nodes).length T.info.vocab_size T.info.tok_eos
    (nodesToBytes T.nodes ++ (offsetsToBytes T.token_offsets ++ T.token_data))
  rw [← hserR] at r0 r4 r8 r12 r20 r24
  rw [show u32mod MAGIC = MAGIC from rfl] at r0
  rw [show u32mod 28 = 28 from rfl] at r4
  rw [enb] at r8
  rw [eob] at r12
  rw [evs] at r20
  rw [eeos] at r24
  have hlenS : T.serialize.length = 28 + (nodesToBytes T.nodes).length +
      (offsetsToBytes T.token_offsets).length + T.token_data.length := by
    rw [hserR]
    simp only [List.length_append, writeU32_length]
    omega
  have hser1 : T.serialize =
      (writeU32 MAGIC ++ writeU32 28 ++ writeU32 (nodesToBytes T.nodes).length ++
        writeU32 (offsetsToBytes T.token_offsets).length ++
        writeU32 (nodesToBytes T.nodes).length ++
        writeU32 T.info.vocab_size ++ writeU32 T.info.tok_eos) ++
      (nodesToBytes T.nodes ++ (offsetsToBytes T.token_offsets ++ T.token_data)) := by
    simp [TokTrie.serialize, List.append_assoc]
  have hser2 : T.serialize =
      ((writeU32 MAGIC ++ writeU32 28 ++ writeU32 (nodesToBytes T.nodes).length ++
        writeU32 (offsetsToBytes T.token_offsets).length ++
        writeU32 (nodesToBytes T.nodes).length ++
        writeU32 T.info.vocab_size ++ writeU32 T.info.tok_eos) ++
       nodesToBytes T.nodes) ++
      (offsetsToBytes T.token_offsets ++ T.token_data) := by
    simp [TokTrie.serialize, List.append_assoc]
  have hser3 : T.serialize =
      (((writeU32 MAGIC ++ writeU32 28 ++ writeU32 (nodesToBytes T.nodes).length ++
        writeU32 (offsetsToBytes T.token_offsets).length ++
        writeU32 (nodesToBytes T.nodes).length ++
        writeU32 T.info.vocab_size ++ writeU32 T.info.tok_eos) ++
       nodesToBytes T.nodes) ++ offsetsToBytes T.token_offsets) ++
      T.token_data := by
    simp [TokTrie.serialize, List.append_assoc]
  have hslice0 : sliceQ T.serialize 0 28 =
      some ((T.serialize.drop 0).take (28 - 0)) := by
    unfold sliceQ
    rw [if_pos ⟨Nat.zero_le _, by omega⟩]
  have hslice1 : sliceQ T.serialize 28 (28 + (nodesToBytes T.nodes).length) =
      some (nodesToBytes T.nodes) := by
    unfold sliceQ
    rw [if_pos ⟨by omega, by omega⟩]
    rw [hser1]
    rw [List.drop_left' (by simp only [List.length_append, writeU32_length])]
    rw [show 28 + (nodesToBytes T.nodes).length - 28 =
      (nodesToBytes T.nodes).length from by omega]
    rw [List.take_left' rfl]
  have hslice2 : sliceQ T.serialize (28 + (nodesToBytes T.nodes).length)
      (28 + (nodesToBytes T.nodes).length + (offsetsToBytes T.token_offsets).length) =
      some (offsetsToBytes T.token_offsets) := by
    unfold sliceQ
    rw [if_pos ⟨by omega, by omega⟩]
    rw [hser2]
    rw [List.drop_left' (by simp only [List.length_append, writeU32_length])]
    rw [show 28 + (nodesToBytes T.nodes).length +
      (offsetsToBytes T.token_offsets).length -
      (28 + (nodesToBytes T.nodes).length) =
      (offsetsToBytes T.token_offsets).length from by omega]
    rw [List.take_left' rfl]
  have hdrop3 : T.serialize.drop
      (28 + (nodesToBytes T.nodes).length + (offsetsToBytes T.token_offsets).length) =
      T.token_data := by
    rw [hser3]
    rw [List.drop_left' (by simp only [List.length_append, writeU32_length])]
  have hdecN : bytesToNodes (nodesToBytes T.nodes) = some T.nodes :=
    bytesToNodes_round T.nodes (built_nodes_bits h)
  have hdecO : bytesToU32s (offsetsToBytes T.token_offsets) = some T.token_offsets := by
    refine bytesToU32s_round T.token_offsets ?_
    intro o hoo
    rw [hoffs] at hoo
    exact descList_mem_lt ws 0 hok o hoo
  refine ⟨⟨TokRxInfo.from_bin T.info.vocab_size T.info.tok_eos,
    T.token_offsets, T.token_data, T.nodes,
    T.max_token_len, T.token_duplicates⟩, ?_, rfl, rfl, rfl, rfl, rfl⟩
  unfold TokTrie.from_bytes
  rw [hslice0]
  dsimp only
  rw [r0, r4, r8, r12]
  rw [if_pos (And.intro rfl rfl)]
  rw [hslice1]
  dsimp only
  rw [hslice2]
  dsimp only
  rw [hdecN, hdecO]
  dsimp only
  rw [hdrop3, r20, r24]
  exact finalize_ctor_info (by rw [hinfo]; rfl) T.token_offsets T.token_data T.nodes hfin

theorem serialize_round_trip_witness :
    ∃ T2, TokTrie.from_bytes Tsample.serialize = some T2 ∧
      T2.nodes = Tsample.nodes ∧ T2.token_offsets = Tsample.token_offsets ∧
      T2.token_data = Tsample.token_data ∧
      T2.info.vocab_size = Tsample.info.vocab_size ∧
      T2.info.tok_eos = Tsample.info.tok_eos :=
  @serialize_round_trip (TokRxInfo.new 1 0) [[97]] Tsample (by decide) (by decide)
    (by decide) (by decide)

/-! The `2^30`-word counterexample to the unconditional round trip: the
descriptor region is `4 * 2^30 = 2^32` bytes, so its header field wraps
to `0` and the reparsed trie has an empty descriptor table. -/

theorem buildLoop_replicate_nil (n : Nat) :
    ∀ trie offs idx, buildLoop trie offs [] idx (List.replicate n []) =
      some (trie, offs ++ List.replicate n 0, []) := by
  induction n with
  | zero =>
    intro trie offs idx
    simp [buildLoop]
  | succ n ih =>
    intro trie offs idx
    rw [List.replicate_succ]
    have hstep : buildLoop trie offs [] idx ([] :: List.replicate n []) =
        buildLoop trie (offs ++ [0]) [] (idx + 1) (List.replicate n []) := rfl
    rw [hstep, ih trie (offs ++ [0]) (idx + 1), List.append_assoc]
    rw [show ([0] ++ List.replicate n 0 : List Nat) = List.replicate (n + 1) 0 from by
      simp [List.replicate_succ]]

theorem token_nil_offsets (T : TokTrie) (h : T.token_offsets = []) :
    ∀ i, T.token i = some [] := by
  intro i
  unfold TokTrie.token
  rw [h]
  rw [if_pos (show i ≥ ([] : List Nat).length from Nat.zero_le i)]

theorem token_zero_offsets (T : TokTrie) (hd : T.token_data = [])
    (hz : ∀ x ∈ T.token_offsets, x = 0) : ∀ i, T.token i = some [] := by
  intro i
  unfold TokTrie.token
  by_cases hge : i ≥ T.token_offsets.length
  · rw [if_pos hge]
  · rw [if_neg hge]
    dsimp only
    cases hgx : T.token_offsets.get? i with
    | none =>
      rw [hd]
      rfl
    | some x =>
      rw [hz x (List.get?_mem hgx), hd]
      rfl

theorem finalizeLoop_const (T : TokTrie) (htok : ∀ i, T.token i = some []) :
    ∀ rem i maxl dups, T.finalizeLoop i rem maxl dups = some (maxl, dups) := by
  intro rem
  induction rem with
  | zero =>
    intro i maxl dups
    rfl
  | succ rem ih =>
    intro i maxl dups
    unfold TokTrie.finalizeLoop
    rw [htok i]
    dsimp only
    rw [show T.greedy_tokenize [] = some [] from rfl]
    dsimp only
    rw [show max maxl ([] : List Nat).length = maxl from by simp]
    exact ih _ _ _

theorem touchTokens_const (T : TokTrie) (htok : ∀ i, T.token i = some []) :
    ∀ n, T.touchTokens n = some () := by
  intro n
  induction n with
  | zero => rfl
  | succ n ih =>
    unfold TokTrie.touchTokens
    rw [ih, htok n]

theorem validateKids_stop (T : TokTrie) (cur endp : Nat) (used : List Bool)
    (fuel : Nat) (h : ¬ cur < endp) :
    T.validateKids cur endp used (fuel + 1) = some used := by
  simp only [TokTrie.validateKids]
  rw [if_neg h]

theorem validateGo_notoken (T : TokTrie) (off ep : Nat) (used : List Bool)
    (fuel : Nat) (htid : (T.nodeAt off).token_id = none)
    (hle : T.next_node off ≤ ep) :
    T.validateGo off ep used (fuel + 1) =
      T.validateKids (off + 1) (T.next_node off) used fuel := by
  simp only [TokTrie.validateGo]
  rw [htid]
  dsimp only
  rw [if_pos hle]

theorem validate_unfold (T : TokTrie) :
    TokTrie.validate T =
      match T.validateGo 0 (T.next_node 0) (List.replicate T.info.vocab_size false)
          (2 * T.nodes.length + 4) with
      | none => none
      | some _ => T.touchTokens T.info.vocab_size := by
  unfold TokTrie.validate
  rfl

theorem validate_single (i : TokRxInfo) (o d : List Nat) (m : Nat)
    (td : List (Nat × List Nat)) :
    TokTrie.validate ⟨i, o, d, [⟨4294967295, 256⟩], m, td⟩ =
      TokTrie.touchTokens ⟨i, o, d, [⟨4294967295, 256⟩], m, td⟩ i.vocab_size := by
  have hnode : TokTrie.nodeAt ⟨i, o, d, [⟨4294967295, 256⟩], m, td⟩ 0 =
      ⟨4294967295, 256⟩ := rfl
  have htid : (TokTrie.nodeAt ⟨i, o, d, [⟨4294967295, 256⟩], m, td⟩ 0).token_id =
      none := by
    rw [hnode]
    rfl
  have hnn : TokTrie.next_node ⟨i, o, d, [⟨4294967295, 256⟩], m, td⟩ 0 = 1 := by
    unfold TokTrie.next_node
    rw [hnode]
    rfl
  have hgo : TokTrie.validateGo ⟨i, o, d, [⟨4294967295, 256⟩], m, td⟩ 0 1
      (List.replicate i.vocab_size false) (4 + 1 + 1) =
      some (List.replicate i.vocab_size false) := by
    rw [validateGo_notoken _ 0 1 _ (4 + 1) htid (by rw [hnn])]
    rw [hnn]
    exact validateKids_stop _ (0 + 1) 1 _ 4 (by omega)
  rw [validate_unfold]
  rw [hnn]
  rw [show 2 * (⟨i, o, d, [⟨4294967295, 256⟩], m, td⟩ : TokTrie).nodes.length + 4 =
    4 + 1 + 1 from by norm_num]
  rw [show List.replicate
      (⟨i, o, d, [⟨4294967295, 256⟩], m, td⟩ : TokTrie).info.vocab_size false =
      List.replicate i.vocab_size false from rfl]
  rw [hgo]

theorem finalize_ctor_unfold (T : TokTrie) :
    T.finalize_ctor =
      match T.finalizeLoop 0 T.info.vocab_size T.max_token_len T.token_duplicates with
      | none => none
      | some (maxl, dups) =>
        match TokTrie.validate
            { T with max_token_len := maxl, token_duplicates := dups } with
        | none => none
        | some _ =>
          some { T with max_token_len := maxl, token_duplicates := dups } := by
  unfold TokTrie.finalize_ctor
  rfl

theorem finalize_ctor_of_loop (T : TokTrie) (maxl : Nat)
    (dups : List (Nat × List Nat))
    (hl : T.finalizeLoop 0 T.info.vocab_size T.max_token_len T.token_duplicates =
      some (maxl, dups))
    (hv : TokTrie.validate
      { T with max_token_len := maxl, token_duplicates := dups } = some ()) :
    T.finalize_ctor =
      some { T with max_token_len := maxl, token_duplicates := dups } := by
  rw [finalize_ctor_unfold, hl]
  dsimp only
  rw [hv]

theorem finalize_ctor_const (i : TokRxInfo) (o d : List Nat)
    (htok : ∀ k, TokTrie.token ⟨i, o, d, [⟨4294967295, 256⟩], 0, []⟩ k = some []) :
    TokTrie.finalize_ctor ⟨i, o, d, [⟨4294967295, 256⟩], 0, []⟩ =
      some ⟨i, o, d, [⟨4294967295, 256⟩], 0, []⟩ := by
  have hv : TokTrie.validate ⟨i, o, d, [⟨4294967295, 256⟩], 0, []⟩ = some () := by
    rw [validate_single]
    exact touchTokens_const _ htok _
  have hmain := finalize_ctor_of_loop ⟨i, o, d, [⟨4294967295, 256⟩], 0, []⟩ 0 []
    (finalizeLoop_const _ htok _ _ _ _) hv
  exact hmain

theorem offsetsToBytes_replicate (n : Nat) :
    offsetsToBytes (List.replicate n 0) = List.replicate (4 * n) 0 := by
  induction n with
  | zero => rfl
  | succ n ih =>
    rw [List.replicate_succ]
    show writeU32 0 ++ offsetsToBytes (List.replicate n 0) = _
    rw [ih]
    rw [show 4 * (n + 1) = 4 * n + 1 + 1 + 1 + 1 from by omega]
    simp [List.replicate_succ, writeU32, u32mod]

theorem fromVocab_of (info : TokRxInfo) (words : List (List Nat))
    (trie : TrieHash) (offs data : List Nat) (nodes : List TrieNode)
    (R : Option TokTrie)
    (hvs : info.vocab_size = u32mod words.length)
    (hb : buildLoop (TrieHash.new 255) [] [] 0 words = some (trie, offs, data))
    (hs : trie.serialize 0 = some nodes)
    (hf : TokTrie.finalize_ctor ⟨info, offs, data, nodes, 0, []⟩ = R) :
    TokTrie.fromVocab info words = R := by
  unfold TokTrie.fromVocab
  rw [if_pos hvs, hb]
  dsimp only
  rw [hs]
  dsimp only
  exact hf

theorem from_bytes_of (bytes : List Nat) (hdr : List Nat) (tb ob vs eos : Nat)
    (nodeB offB : List Nat) (nodes : List TrieNode) (offsets : List Nat)
    (R : Option TokTrie)
    (h0 : sliceQ bytes 0 28 = some hdr)
    (hm : readU32 bytes 0 = MAGIC) (h4 : readU32 bytes 4 = 28)
    (h8 : readU32 bytes 8 = tb) (h12 : readU32 bytes 12 = ob)
    (h20 : readU32 bytes 20 = vs) (h24 : readU32 bytes 24 = eos)
    (hs1 : sliceQ bytes 28 (28 + tb) = some nodeB)
    (hs2 : sliceQ bytes (28 + tb) (28 + tb + ob) = some offB)
    (hdN : bytesToNodes nodeB = some nodes)
    (hdO : bytesToU32s offB = some offsets)
    (hf : TokTrie.finalize_ctor ⟨TokRxInfo.from_bin vs eos,
      offsets, bytes.drop (28 + tb + ob), nodes, 0, []⟩ = R) :
    TokTrie.from_bytes bytes = R := by
  unfold TokTrie.from_bytes
  rw [h0]
  dsimp only
  rw [h8, h12, hm, h4]
  rw [if_pos (And.intro rfl rfl)]
  rw [hs1]
  dsimp only
  rw [hs2]
  dsimp only
  rw [hdN, hdO]
  dsimp only
  rw [h20, h24]
  exact hf

theorem cex_fromVocab :
    TokTrie.fromVocab (TokRxInfo.new 1073741824 0) (List.replicate 1073741824 []) =
      some ⟨TokRxInfo.new 1073741824 0, List.replicate 1073741824 0, [],
        [⟨4294967295, 256⟩], 0, []⟩ := by
  have htokA : ∀ k, TokTrie.token ⟨TokRxInfo.new 1073741824 0,
      List.replicate 1073741824 0, [], [⟨4294967295, 256⟩], 0, []⟩ k = some [] :=
    token_zero_offsets _ rfl (fun x hx => List.eq_of_mem_replicate hx)
  have hbuild : buildLoop (TrieHash.new 255) [] [] 0 (List.replicate 1073741824 []) =
      some (TrieHash.new 255, List.replicate 1073741824 0, []) := by
    have h := buildLoop_replicate_nil 1073741824 (TrieHash.new 255) [] 0
    rw [List.nil_append] at h
    exact h
  have hserN : (TrieHash.new 255).serialize 0 = some [⟨4294967295, 256⟩] := by decide
  exact fromVocab_of _ _ (TrieHash.new 255) (List.replicate 1073741824 0) []
    [⟨4294967295, 256⟩] _
    (by rw [List.length_replicate]; rfl)
    hbuild hserN
    (finalize_ctor_const _ _ _ htokA)

theorem len_append_w (x : Nat) (s : List Nat) :
    (writeU32 x ++ s).length = 4 + s.length := by
  rw [List.length_append, writeU32_length]

theorem cex_serialize_form :
    (⟨TokRxInfo.new 1073741824 0, List.replicate 1073741824 0, [], [⟨4294967295, 256⟩], 0, []⟩ : TokTrie).serialize =
      writeU32 MAGIC ++ (writeU32 28 ++ (writeU32 8 ++ (writeU32 4294967296 ++
      (writeU32 8 ++ (writeU32 1073741824 ++ (writeU32 0 ++
      (nodesToBytes [⟨4294967295, 256⟩] ++
        offsetsToBytes (List.replicate 1073741824 0)))))))) := by
  have hlen1 : (nodesToBytes [(⟨4294967295, 256⟩ : TrieNode)]).length = 8 := rfl
  have hlen2 : (offsetsToBytes (List.replicate 1073741824 0)).length = 4294967296 := by
    rw [offsetsToBytes_replicate, List.length_replicate]
  show writeU32 MAGIC ++ writeU32 28 ++
      writeU32 (nodesToBytes [(⟨4294967295, 256⟩ : TrieNode)]).length ++
      writeU32 (offsetsToBytes (List.replicate 1073741824 0)).length ++
      writeU32 (nodesToBytes [(⟨4294967295, 256⟩ : TrieNode)]).length ++
      writeU32 (TokRxInfo.new 1073741824 0).vocab_size ++
      writeU32 (TokRxInfo.new 1073741824 0).tok_eos ++
      nodesToBytes [⟨4294967295, 256⟩] ++
      offsetsToBytes (List.replicate 1073741824 0) ++ [] = _
  rw [hlen1, hlen2]
  rw [show (TokRxInfo.new 1073741824 0).vocab_size = 1073741824 from rfl]
  rw [show (TokRxInfo.new 1073741824 0).tok_eos = 0 from rfl]
  rw [List.append_nil]
  simp only [List.append_assoc]

theorem cex_serialize_length :
    ((⟨TokRxInfo.new 1073741824 0, List.replicate 1073741824 0, [], [⟨4294967295, 256⟩], 0, []⟩ : TokTrie).serialize).length = 4294967332 := by
  rw [cex_serialize_form]
  rw [len_append_w, len_append_w, len_append_w, len_append_w, len_append_w,
    len_append_w, len_append_w]
  rw [List.length_append]
  rw [show (nodesToBytes [(⟨4294967295, 256⟩ : TrieNode)]).length = 8 from rfl]
  rw [offsetsToBytes_replicate, List.length_replicate]

theorem cex_drop28 :
    ((⟨TokRxInfo.new 1073741824 0, List.replicate 1073741824 0, [], [⟨4294967295, 256⟩], 0, []⟩ : TokTrie).serialize).drop 28 =
      nodesToBytes [⟨4294967295, 256⟩] ++
        offsetsToBytes (List.replicate 1073741824 0) := by
  rw [cex_serialize_form]
  rfl

theorem cex_slice1 :
    sliceQ (⟨TokRxInfo.new 1073741824 0, List.replicate 1073741824 0, [], [⟨4294967295, 256⟩], 0, []⟩ : TokTrie).serialize 28 (28 + 8) = some (nodesToBytes [⟨4294967295, 256⟩]) := by
  unfold sliceQ
  rw [if_pos ⟨by omega, by rw [cex_serialize_length]; omega⟩]
  rw [cex_drop28]
  rfl

theorem cex_slice2 :
    sliceQ (⟨TokRxInfo.new 1073741824 0, List.replicate 1073741824 0, [], [⟨4294967295, 256⟩], 0, []⟩ : TokTrie).serialize (28 + 8) (28 + 8 + 0) = some [] := by
  unfold sliceQ
  rw [if_pos ⟨by omega, by rw [cex_serialize_length]; omega⟩]
  rw [show 28 + 8 + 0 - (28 + 8) = 0 from rfl, List.take_zero]

theorem cex_from_bytes :
    TokTrie.from_bytes (⟨TokRxInfo.new 1073741824 0, List.replicate 1073741824 0, [], [⟨4294967295, 256⟩], 0, []⟩ : TokTrie).serialize =
      some ⟨TokRxInfo.from_bin 1073741824 0, [],
        ((⟨TokRxInfo.new 1073741824 0, List.replicate 1073741824 0, [], [⟨4294967295, 256⟩], 0, []⟩ : TokTrie).serialize).drop (28 + 8 + 0), [⟨4294967295, 256⟩], 0, []⟩ := by
  obtain ⟨r0, r4, r8, r12, r20, r24⟩ := readU32_header MAGIC 28 8 4294967296 8
    1073741824 0
    (nodesToBytes [⟨4294967295, 256⟩] ++ offsetsToBytes (List.replicate 1073741824 0))
  rw [← cex_serialize_form] at r0 r4 r8 r12 r20 r24
  rw [show u32mod MAGIC = MAGIC from rfl] at r0
  rw [show u32mod 28 = 28 from rfl] at r4
  rw [show u32mod 8 = 8 from rfl] at r8
  rw [show u32mod 4294967296 = 0 from rfl] at r12
  rw [show u32mod 1073741824 = 1073741824 from rfl] at r20
  rw [show u32mod 0 = 0 from rfl] at r24
  have hslice0 : sliceQ (⟨TokRxInfo.new 1073741824 0, List.replicate 1073741824 0, [], [⟨4294967295, 256⟩], 0, []⟩ : TokTrie).serialize 0 28 =
      some ((((⟨TokRxInfo.new 1073741824 0, List.replicate 1073741824 0, [], [⟨4294967295, 256⟩], 0, []⟩ : TokTrie).serialize).drop 0).take (28 - 0)) := by
    unfold sliceQ
    rw [if_pos ⟨by omega, by rw [cex_serialize_length]; omega⟩]
  have htokB : ∀ k, TokTrie.token ⟨TokRxInfo.from_bin 1073741824 0, [],
      ((⟨TokRxInfo.new 1073741824 0, List.replicate 1073741824 0, [], [⟨4294967295, 256⟩], 0, []⟩ : TokTrie).serialize).drop (28 + 8 + 0), [⟨4294967295, 256⟩], 0, []⟩ k = some [] :=
    token_nil_offsets _ rfl
  exact from_bytes_of (⟨TokRxInfo.new 1073741824 0, List.replicate 1073741824 0, [], [⟨4294967295, 256⟩], 0, []⟩ : TokTrie).serialize
    ((((⟨TokRxInfo.new 1073741824 0, List.replicate 1073741824 0, [], [⟨4294967295, 256⟩], 0, []⟩ : TokTrie).serialize).drop 0).take (28 - 0)) 8 0 1073741824 0
    (nodesToBytes [⟨4294967295, 256⟩]) [] [⟨4294967295, 256⟩] [] _
    hslice0 r0 r4 r8 r12 r20 r24 cex_slice1 cex_slice2 rfl rfl
    (finalize_ctor_const _ _ _ htokB)

/-- C6 counterexample: with `2^30` (empty) words the descriptor region is
`2^32` bytes, its header field wraps to `0`, and the reparsed trie has an
empty descriptor table while the original has `2^30` entries. -/
theorem serialize_round_trip_cex :
    ((TokTrie.fromVocab (TokRxInfo.new 1073741824 0)
        (List.replicate 1073741824 [])).bind
      (fun T => (TokTrie.from_bytes T.serialize).map
        (fun T2 => (T.token_offsets.length, T2.token_offsets.length)))) =
      some (1073741824, 0) := by
  rw [cex_fromVocab, Option.some_bind]
  dsimp only
  rw [cex_from_bytes, Option.map_some']
  dsimp only
  rw [List.length_replicate]
  rfl

/-! C1 groundwork: membership behaviour of the token set operations and the
duplicate-mirroring fold. -/

theorem beq_eq_decide (x t : Nat) : (x == t) = decide (x = t) := by
  by_cases h : x = t <;> simp [h]

theorem contains_allow (v : SimpleVob) (t x : Nat) :
    (v.allow_token t).contains x = (x == t || v.contains x) := by
  simp [SimpleVob.allow_token, List.contains_cons, beq_eq_decide]

theorem contains_disallow (v : SimpleVob) (d x : Nat) :
    (v.disallow_token d).contains x = (v.contains x && (x != d)) := by
  unfold SimpleVob.disallow_token
  induction v with
  | nil => simp
  | cons a v ih =>
    by_cases ha : a = d
    · subst ha
      rw [List.filter_cons_of_neg (by simp)]
      rw [ih]
      by_cases hx : x = a
      · subst hx
        simp [List.contains_cons]
      · simp [List.contains_cons, hx]
    · rw [List.filter_cons_of_pos (by simp [ha])]
      simp only [List.contains_cons, ih]
      by_cases hx : x = a
      · subst hx
        simp [ha]
      · simp [hx, beq_eq_decide]

theorem foldAllow_contains (l : List Nat) :
    ∀ (lg : SimpleVob) (x : Nat),
      (l.foldl (fun a d => a.allow_token d) lg).contains x =
        (lg.contains x || l.contains x) := by
  induction l with
  | nil =>
    intro lg x
    simp
  | cons a l ih =>
    intro lg x
    simp only [List.foldl_cons, ih, contains_allow, List.contains_cons]
    by_cases hx : x = a
    · subst hx
      simp
    · simp [hx, beq_eq_decide]

theorem any_congr_mem {α : Type} {l : List α} {p q : α → Bool}
    (h : ∀ a ∈ l, p a = q a) : l.any p = l.any q := by
  induction l with
  | nil => rfl
  | cons a l ih =>
    simp only [List.any_cons]
    rw [h a (by simp), ih (fun b hb => h b (by simp [hb]))]

theorem dupPush_any (d : List (Nat × List Nat)) (k v : Nat) (P : Nat → Bool)
    (x : Nat) :
    (dupPush d k v).any (fun kl => kl.2.contains x && P kl.1) =
      (d.any (fun kl => kl.2.contains x && P kl.1) || (x == v && P k)) := by
  induction d with
  | nil =>
    simp [dupPush, List.contains_cons, beq_eq_decide]
  | cons kl0 d ih =>
    obtain ⟨k0, l0⟩ := kl0
    by_cases hk : k0 = k
    · subst hk
      unfold dupPush
      rw [if_pos rfl]
      simp only [List.any_cons]
      have hcat : (l0 ++ [v]).contains x = (l0.contains x || x == v) := by
        induction l0 with
        | nil => simp [List.contains_cons, beq_eq_decide]
        | cons b l0 ih0 => simp [List.contains_cons, ih0, Bool.or_assoc, beq_eq_decide]
      rw [hcat]
      cases hP : P k0 <;> cases l0.contains x <;> cases hx : x == v <;>
        cases d.any (fun kl => kl.2.contains x && P kl.1) <;> simp [hP, hx]
    · unfold dupPush
      rw [if_neg hk]
      simp only [List.any_cons, ih]
      cases l0.contains x && P k0 <;> simp [Bool.or_assoc]

theorem mem_dupPush {d : List (Nat × List Nat)} {k v : Nat} {kl : Nat × List Nat}
    (h : kl ∈ dupPush d k v) :
    (∃ kl0 ∈ d, kl.1 = kl0.1 ∧ ∀ x ∈ kl.2, x ∈ kl0.2 ∨ (x = v ∧ kl.1 = k)) ∨
      (kl.1 = k ∧ ∀ x ∈ kl.2, x = v) := by
  induction d with
  | nil =>
    simp only [dupPush, List.mem_singleton] at h
    subst h
    exact Or.inr ⟨rfl, fun x hx => by simpa using hx⟩
  | cons kl0 d ih =>
    obtain ⟨k0, l0⟩ := kl0
    by_cases hk : k0 = k
    · subst hk
      unfold dupPush at h
      rw [if_pos rfl] at h
      rcases List.mem_cons.mp h with he | hm
      · subst he
        refine Or.inl ⟨(k0, l0), List.mem_cons_self _ _, rfl, ?_⟩
        intro x hx
        rcases List.mem_append.mp hx with h1 | h2
        · exact Or.inl h1
        · exact Or.inr ⟨by simpa using h2, rfl⟩
      · exact Or.inl ⟨kl, List.mem_cons_of_mem _ hm, rfl, fun x hx => Or.inl hx⟩
    · unfold dupPush at h
      rw [if_neg hk] at h
      rcases List.mem_cons.mp h with he | hm
      · subst he
        exact Or.inl ⟨(k0, l0), List.mem_cons_self _ _, rfl, fun x hx => Or.inl hx⟩
      · rcases ih hm with ⟨kl1, hmem1, h1, h2⟩ | hr
        · exact Or.inl ⟨kl1, List.mem_cons_of_mem _ hmem1, h1, h2⟩
        · exact Or.inr hr

theorem dupFold_contains :
    ∀ (dups : List (Nat × List Nat)) (S : SimpleVob),
      (∀ kl ∈ dups, ∀ kl2 ∈ dups, ∀ x ∈ kl2.2, x ≠ kl.1) →
      ∀ t, (dups.foldl (fun lg kl =>
          if lg.is_allowed kl.1 then kl.2.foldl (fun l d => l.allow_token d) lg
          else lg) S).contains t =
        (S.contains t || dups.any (fun kl => kl.2.contains t && S.contains kl.1)) := by
  intro dups
  induction dups with
  | nil =>
    intro S _ t
    simp
  | cons kl rest ih =>
    intro S hdisj t
    have hrest : ∀ kl1 ∈ rest, ∀ kl2 ∈ rest, ∀ x ∈ kl2.2, x ≠ kl1.1 := by
      intro kl1 h1 kl2 h2 x hx
      exact hdisj kl1 (List.mem_cons_of_mem _ h1) kl2 (List.mem_cons_of_mem _ h2) x hx
    simp only [List.foldl_cons, List.any_cons]
    by_cases hall : S.is_allowed kl.1 = true
    · rw [if_pos hall]
      rw [ih _ hrest t]
      rw [foldAllow_contains]
      have hkeys : rest.any (fun e => e.2.contains t &&
          (kl.2.foldl (fun l d => l.allow_token d) S).contains e.1) =
          rest.any (fun e => e.2.contains t && S.contains e.1) := by
        refine any_congr_mem ?_
        intro e he
        rw [foldAllow_contains]
        have hnc : kl.2.contains e.1 = false := by
          cases hc : kl.2.contains e.1
          · rfl
          · exfalso
            have hmem : e.1 ∈ kl.2 := by simpa using hc
            exact hdisj e (List.mem_cons_of_mem _ he) kl (List.mem_cons_self _ _)
              e.1 hmem rfl
        rw [hnc]
        simp
      rw [hkeys]
      have hallc : S.contains kl.1 = true := hall
      rw [hallc]
      cases kl.2.contains t <;> cases S.contains t <;>
        cases rest.any (fun e => e.2.contains t && S.contains e.1) <;> simp
    · rw [if_neg hall]
      rw [ih _ hrest t]
      have hallc : S.contains kl.1 = false := by
        cases hc : S.contains kl.1
        · rfl
        · exact absurd hc hall
      rw [hallc]
      simp

theorem apply_duplicates_of_disjoint (T : TokTrie) (S : SimpleVob)
    (hdisj : ∀ kl ∈ T.token_duplicates, ∀ kl2 ∈ T.token_duplicates,
      ∀ x ∈ kl2.2, x ≠ kl.1) (t : Nat) :
    (T.apply_duplicates S).contains t =
      (S.contains t ||
        T.token_duplicates.any (fun kl => kl.2.contains t && S.contains kl.1)) := by
  unfold TokTrie.apply_duplicates
  exact dupFold_contains T.token_duplicates S hdisj t

theorem aliasTo_inv {ws : List (List Nat)} {j m : Nat}
    (hlen : ws.length ≤ 16777215) (h : aliasTo ws j = some m) :
    ∃ w, ws.get? j = some w ∧ w ≠ [] ∧ lastRawFrom 0 ws w = some m ∧ m ≠ j := by
  unfold aliasTo at h
  cases hg : ws.get? j with
  | none =>
    rw [hg] at h
    cases h
  | some w =>
    rw [hg] at h
    dsimp only at h
    by_cases hw : w = []
    · rw [if_pos hw] at h
      cases h
    · rw [if_neg hw] at h
      cases hr : lastRawFrom 0 ws w with
      | none =>
        rw [hr] at h
        cases h
      | some m0 =>
        rw [hr] at h
        dsimp only at h
        by_cases hm : m0 = j
        · rw [if_pos hm] at h
          cases h
        · rw [if_neg hm] at h
          cases h
          exact ⟨w, rfl, hw, hr, hm⟩

theorem aliasTo_canon {ws : List (List Nat)} {j m : Nat}
    (hlen : ws.length ≤ 16777215) (h : aliasTo ws j = some m) :
    isCanon ws m := by
  obtain ⟨w, hg, hw, hr, hm⟩ := aliasTo_inv hlen h
  obtain ⟨hne, j2, hj2lt, hj2get, hk, _⟩ :=
    (lastRawFrom_char ws 0 w m (by omega)).mp hr
  refine ⟨w, ?_, hw, hr⟩
  rw [hk]
  simpa using hj2get

theorem isCanon_no_alias {ws : List (List Nat)} {c : Nat}
    (hlen : ws.length ≤ 16777215) (hc : isCanon ws c) :
    ∀ m, aliasTo ws c ≠ some m := by
  intro m halias
  obtain ⟨w, hg, hw, hr, hm⟩ := aliasTo_inv hlen halias
  obtain ⟨wc, hgc, hwc, hrc⟩ := hc
  rw [hg] at hgc
  cases hgc
  rw [hr] at hrc
  cases hrc
  exact hm rfl

theorem dupPush_good {ws : List (List Nat)} {d : List (Nat × List Nat)}
    {k v : Nat} (hlen : ws.length ≤ 16777215)
    (hgood : ∀ kl ∈ d, GoodDup ws kl) (hv : aliasTo ws v = some k) :
    ∀ kl ∈ dupPush d k v, GoodDup ws kl := by
  intro kl hmem
  rcases mem_dupPush hmem with ⟨kl0, hmem0, hkey, hvals⟩ | ⟨hkey, hvals⟩
  · obtain ⟨hg1, hg2⟩ := hgood kl0 hmem0
    constructor
    · intro x hx
      rcases hvals x hx with hin | ⟨hxv, hklk⟩
      · rw [hkey]
        exact hg1 x hin
      · rw [hxv, hklk]
        exact hv
    · rw [hkey]
      exact hg2
  · constructor
    · intro x hx
      rw [hvals x hx, hkey]
      exact hv
    · rw [hkey]
      exact aliasTo_canon hlen hv

theorem good_disjoint {ws : List (List Nat)} {d : List (Nat × List Nat)}
    (hlen : ws.length ≤ 16777215) (hgood : ∀ kl ∈ d, GoodDup ws kl) :
    ∀ kl ∈ d, ∀ kl2 ∈ d, ∀ x ∈ kl2.2, x ≠ kl.1 := by
  intro kl hm kl2 hm2 x hx heq
  have halias : aliasTo ws x = some kl2.1 := (hgood kl2 hm2).1 x hx
  have hcanon : isCanon ws kl.1 := (hgood kl hm).2
  subst heq
  exact isCanon_no_alias hlen hcanon kl2.1 halias

/-- The greedy tokenization of a nonempty vocabulary word on a constructed
trie is the single canonical (last-occurrence) id of that word. -/
theorem greedy_canon {info : TokRxInfo} {ws : List (List Nat)} {T : TokTrie}
    (h : TokTrie.fromVocab info ws = some T)
    (hbytes : ∀ w ∈ ws, ∀ b ∈ w, b < 256) (hlen : ws.length ≤ 16777215)
    {t : Nat} {w : List Nat} (hget : ws.get? t = some w) (hne : w ≠ []) :
    ∃ m, lastRawFrom 0 ws w = some m ∧ m < ws.length ∧ ws.get? m = some w ∧
      T.greedy_tokenize w = some [m] := by
  have hj : t < ws.length := (List.get?_eq_some.mp hget).1
  obtain ⟨m, hmlt, hmget, hmmax⟩ := exists_max_occurrence ws w t hj hget
  have hraw : lastRawFrom 0 ws w = some m := by
    have := (lastRawFrom_char ws 0 w (0 + m) (by omega)).mpr
      ⟨hne, m, hmlt, hmget, rfl, hmmax⟩
    simpa using this
  have hTok : (hashFold (TrieHash.new 255) 0 ws).tokenAt w = some m := by
    rw [tokenAt_built ws hbytes w, hraw]
    have hmod : u32mod m = m := by
      unfold u32mod
      omega
    show tokDecode m = some m
    have := @tokDecode_small m (by omega)
    rw [hmod] at this
    exact this
  obtain ⟨hpl, hwf, hlt⟩ := built_facts h hbytes
  have hwpos : 0 < w.length := List.length_pos.mpr hne
  refine ⟨m, hraw, hmlt, hmget, ?_⟩
  unfold TokTrie.greedy_tokenize
  rw [if_neg (by omega)]
  have hfuel : w.length + 1 ≤ (w.length + 2) * (w.length + 2) := by
    have := Nat.le_mul_of_pos_left (w.length + 2) (show 0 < w.length + 2 by omega)
    omega
  have := greedyGo_along hTok w.length 0 0 (hashFold (TrieHash.new 255) 0 ws) 0
    none 0 [] ((w.length + 2) * (w.length + 2)) (by omega) rfl hpl hwf hlt
    (fun hk => absurd hk (by omega)) hfuel
  simpa using this

/-- The alias map, as `greedy_canon` exposes it per index. -/
theorem aliasTo_of_canon {ws : List (List Nat)} {j m : Nat} {w : List Nat}
    (hget : ws.get? j = some w) (hne : w ≠ [])
    (hraw : lastRawFrom 0 ws w = some m) (hm : m ≠ j) :
    aliasTo ws j = some m := by
  unfold aliasTo
  rw [hget]
  dsimp only
  rw [if_neg hne, hraw]
  dsimp only
  rw [if_neg hm]

theorem aliasTo_none_of_canon {ws : List (List Nat)} {j : Nat} {w : List Nat}
    (hget : ws.get? j = some w) (hne : w ≠ [])
    (hraw : lastRawFrom 0 ws w = some j) :
    aliasTo ws j = none := by
  unfold aliasTo
  rw [hget]
  dsimp only
  rw [if_neg hne, hraw]
  dsimp only
  rw [if_pos rfl]

theorem aliasTo_none_of_nil {ws : List (List Nat)} {j : Nat}
    (hget : ws.get? j = some []) :
    aliasTo ws j = none := by
  unfold aliasTo
  rw [hget]
  rfl

/-- The finalization loop over a constructed trie: it succeeds, and the
duplicate map it extends records exactly the aliases of the scanned range. -/
theorem finalizeLoop_built {info : TokRxInfo} {ws : List (List Nat)} {T : TokTrie}
    (h : TokTrie.fromVocab info ws = some T)
    (hbytes : ∀ w ∈ ws, ∀ b ∈ w, b < 256) (hlen : ws.length ≤ 16777215) :
    ∀ rem i maxl dups, i + rem ≤ ws.length →
      ∃ maxl2 dups2, T.finalizeLoop i rem maxl dups = some (maxl2, dups2) ∧
        (∀ (x : Nat) (Q : Nat → Bool),
          dups2.any (fun kl => kl.2.contains x && Q kl.1) =
            (dups.any (fun kl => kl.2.contains x && Q kl.1) ||
              (List.range' i rem).any (fun j => x == j &&
                match aliasTo ws j with
                | some m => Q m
                | none => false))) ∧
        ((∀ kl ∈ dups, GoodDup ws kl) → ∀ kl ∈ dups2, GoodDup ws kl) := by
  intro rem
  induction rem with
  | zero =>
    intro i maxl dups hle
    refine ⟨maxl, dups, rfl, ?_, fun hg => hg⟩
    intro x Q
    simp [List.range']
  | succ rem ih =>
    intro i maxl dups hle
    have hi : i < ws.length := by omega
    obtain ⟨w, hget⟩ : ∃ w, ws.get? i = some w := by
      rw [List.get?_eq_getElem?, List.getElem?_eq_getElem hi]
      exact ⟨_, rfl⟩
    have htoki : T.token i = some w := token_built h i w hget
    have hrange : List.range' i (rem + 1) = i :: List.range' (i + 1) rem := by
      rw [List.range'_succ]
    by_cases hw : w = []
    · subst hw
      obtain ⟨maxl2, dups2, hloop, hany, hgood⟩ := ih (i + 1) (max maxl 0) dups
        (by omega)
      refine ⟨maxl2, dups2, ?_, ?_, hgood⟩
      · unfold TokTrie.finalizeLoop
        rw [htoki]
        dsimp only
        rw [show T.greedy_tokenize [] = some [] from rfl]
        dsimp only
        rw [show ([] : List Nat).length = 0 from rfl]
        exact hloop
      · intro x Q
        rw [hany x Q, hrange]
        simp only [List.any_cons]
        rw [aliasTo_none_of_nil hget]
        simp
    · obtain ⟨m, hraw, hmlt, hmget, hg⟩ := greedy_canon h hbytes hlen hget hw
      by_cases hmi : m = i
      · obtain ⟨maxl2, dups2, hloop, hany, hgood⟩ := ih (i + 1) (max maxl w.length)
          dups (by omega)
        refine ⟨maxl2, dups2, ?_, ?_, hgood⟩
        · unfold TokTrie.finalizeLoop
          rw [htoki]
          dsimp only
          rw [hg]
          dsimp only
          rw [if_pos hmi]
          exact hloop
        · intro x Q
          rw [hany x Q, hrange]
          simp only [List.any_cons]
          rw [aliasTo_none_of_canon hget hw (hmi ▸ hraw)]
          simp
      · have halias : aliasTo ws i = some m := aliasTo_of_canon hget hw hraw hmi
        obtain ⟨maxl2, dups2, hloop, hany, hgood⟩ := ih (i + 1) (max maxl w.length)
          (dupPush dups m i) (by omega)
        refine ⟨maxl2, dups2, ?_, ?_, ?_⟩
        · unfold TokTrie.finalizeLoop
          rw [htoki]
          dsimp only
          rw [hg]
          dsimp only
          rw [if_neg hmi]
          exact hloop
        · intro x Q
          rw [hany x Q, hrange]
          simp only [List.any_cons]
          rw [dupPush_any, halias]
          cases dups.any (fun kl => kl.2.contains x && Q kl.1) <;>
            cases hx : x == i <;> simp [hx, Bool.or_assoc]
        · intro hgd
          exact hgood (dupPush_good hlen hgd halias)

theorem prefixGo_placed {T : TokTrie} :
    ∀ (bytes : List Nat) (u : TrieHash) (np off idx : Nat) (last : Nat × Nat),
      placedN T.nodes u np off → WfH u → u.nNodes < 16777216 →
      T.prefixGo bytes off idx last = prefixSpecGo bytes u idx last := by
  intro bytes
  induction bytes with
  | nil =>
    intro u np off idx last _ _ _
    rfl
  | cons b rest ih =>
    intro u np off idx last h hwf hlt
    have hcab := child_at_byte_placedN h hwf hlt b
    show (match T.child_at_byte off b with
      | none => last
      | some c =>
        match (T.nodeAt c).token_id with
        | some tok => T.prefixGo rest c (idx + 1) (tok, idx + 1)
        | none => T.prefixGo rest c (idx + 1) last) = _
    cases hfc : findChild u.children b with
    | none =>
      rw [hfc] at hcab
      rw [hcab]
      show last = prefixSpecGo (b :: rest) u idx last
      unfold prefixSpecGo
      rw [hfc]
    | some c =>
      rw [hfc] at hcab
      obtain ⟨off2, np2, heq, hplc⟩ := hcab
      rw [heq]
      dsimp only
      have hcmem : c ∈ u.children := (findChild_eq_some hfc).1
      have hcwf : WfH c := WfH_children_wf hwf c hcmem
      have hcle : c.nNodes ≤ u.nNodes := by
        have h1 := mem_nNodesList hcmem
        cases u with
        | mk tok b2 cs =>
          show c.nNodes ≤ TrieHash.nNodes ⟨tok, b2, cs⟩
          simp only [TrieHash.nNodes]
          simp only [TrieHash.children] at h1
          omega
      have hclt : c.nNodes < 16777216 := by omega
      have htid : (T.nodeAt off2).token_id = tokDecode c.token_id := by
        rw [nodeAt_placedN hplc]
        exact make_token_id _ _ _ _
      rw [htid]
      show _ = prefixSpecGo (b :: rest) u idx last
      unfold prefixSpecGo
      rw [hfc]
      dsimp only
      cases htd : tokDecode c.token_id with
      | none => exact ih c np2 off2 (idx + 1) last hplc hcwf hclt
      | some tok => exact ih c np2 off2 (idx + 1) (tok, idx + 1) hplc hcwf hclt

theorem prefixSpecGo_full :
    ∀ (bytes : List Nat) (u : TrieHash) (idx : Nat) (last : Nat × Nat) (x : Nat),
      last.2 ≤ idx → bytes ≠ [] →
      (prefixSpecGo bytes u idx last = (x, idx + bytes.length) ↔
        ∃ v, u.walk bytes = some v ∧ tokDecode v.token_id = some x) := by
  intro bytes
  induction bytes with
  | nil =>
    intro u idx last x _ hne
    exact absurd rfl hne
  | cons b rest ih =>
    intro u idx last x hlast _
    unfold prefixSpecGo
    rw [walk_cons]
    cases hfc : findChild u.children b with
    | none =>
      constructor
      · intro heq
        exfalso
        have h2 : last.2 = idx + (b :: rest).length := congrArg Prod.snd heq
        simp only [List.length_cons] at h2
        omega
      · rintro ⟨v, hw, _⟩
        cases hw
    | some c =>
      dsimp only
      cases hrest : rest with
      | nil =>
        cases htd : tokDecode c.token_id with
        | none =>
          show (prefixSpecGo [] c (idx + 1) last = _) ↔ _
          unfold prefixSpecGo
          constructor
          · intro heq
            exfalso
            have h2 : last.2 = idx + (b :: ([] : List Nat)).length :=
              congrArg Prod.snd heq
            simp only [List.length_cons, List.length_nil] at h2
            omega
          · rintro ⟨v, hw, hv⟩
            have hv2 : c = v := by simpa [TrieHash.walk] using hw
            rw [← hv2] at hv
            rw [htd] at hv
            cases hv
        | some tok =>
          show (prefixSpecGo [] c (idx + 1) (tok, idx + 1) = _) ↔ _
          unfold prefixSpecGo
          constructor
          · intro heq
            have h1 := congrArg Prod.fst heq
            simp only at h1
            refine ⟨c, rfl, ?_⟩
            rw [htd, h1]
          · rintro ⟨v, hw, hv⟩
            have hv2 : c = v := by simpa [TrieHash.walk] using hw
            rw [← hv2] at hv
            rw [htd] at hv
            cases hv
            rfl
      | cons b2 rest2 =>
        have hne2 : rest ≠ [] := by rw [hrest]; simp
        rw [← hrest]
        have harith : idx + (b :: rest).length = (idx + 1) + rest.length := by
          simp only [List.length_cons]
          omega
        rw [harith]
        cases htd : tokDecode c.token_id with
        | none =>
          exact ih c (idx + 1) last x (by omega) hne2
        | some tok =>
          exact ih c (idx + 1) (tok, idx + 1) x (by omega) hne2

/-- `TokTrie::token_id` on a constructed trie is exactly the canonical token
of the hash-trie at that (nonempty) path. -/
theorem token_id_built {info : TokRxInfo} {ws : List (List Nat)} {T : TokTrie}
    (h : TokTrie.fromVocab info ws = some T)
    (hbytes : ∀ w ∈ ws, ∀ b ∈ w, b < 256) (bytes : List Nat) :
    T.token_id bytes =
      if bytes = [] then none
      else (hashFold (TrieHash.new 255) 0 ws).tokenAt bytes := by
  obtain ⟨hpl, hwf, hlt⟩ := built_facts h hbytes
  by_cases hne : bytes = []
  · rw [if_pos hne, hne]
    rfl
  · rw [if_neg hne]
    have hlen2 : bytes.length ≠ 0 := by
      intro h0
      exact hne (List.length_eq_zero.mp h0)
    unfold TokTrie.token_id TokTrie.prefix_token_id
    rw [if_neg hlen2]
    dsimp only
    rw [prefixGo_placed bytes _ 0 0 0 (0, 0) hpl hwf hlt]
    obtain ⟨p, hp⟩ :
        ∃ p, prefixSpecGo bytes (hashFold (TrieHash.new 255) 0 ws) 0 (0, 0) = p :=
      ⟨_, rfl⟩
    rw [hp]
    obtain ⟨tok, len⟩ := p
    dsimp only
    unfold TrieHash.tokenAt
    by_cases hl : len = bytes.length
    · rw [if_pos hl]
      have hfull := (prefixSpecGo_full bytes _ 0 (0, 0) tok (Nat.le_refl 0) hne).mp
        (by rw [hp, hl, Nat.zero_add])
      obtain ⟨v, hw, hv⟩ := hfull
      rw [hw]
      exact hv.symm
    · rw [if_neg hl]
      cases hw : (hashFold (TrieHash.new 255) 0 ws).walk bytes with
      | none => rfl
      | some v =>
        cases htd : tokDecode v.token_id with
        | none => exact htd.symm
        | some x =>
          exfalso
          have hps := (prefixSpecGo_full bytes _ 0 (0, 0) x (Nat.le_refl 0) hne).mpr
            ⟨v, hw, htd⟩
          rw [hp] at hps
          have h2 : len = 0 + bytes.length := congrArg Prod.snd hps
          omega

theorem foldTok_contains (f : Nat → Option Nat) (l : List Nat) :
    ∀ (toks : SimpleVob) (x : Nat),
      (l.foldl (fun acc i =>
        match f i with
        | some tok => acc.allow_token tok
        | none => acc) toks).contains x =
      (toks.contains x || l.any (fun i => f i == some x)) := by
  induction l with
  | nil =>
    intro toks x
    simp
  | cons a l ih =>
    intro toks x
    simp only [List.foldl_cons, List.any_cons]
    cases hf : f a with
    | none =>
      rw [ih]
      simp [hf]
    | some tok =>
      rw [ih, contains_allow]
      by_cases hx : x = tok
      · subst hx
        simp
      · have h1 : (x == tok) = false := by simp [hx]
        have h2 : ((some tok : Option Nat) == some x) = false := by
          simp [beq_iff_eq]
          exact fun he => hx he.symm
        rw [h1, h2]
        simp

theorem prefixAllow_contains (T : TokTrie) (start : List Nat) (toks : SimpleVob)
    (x : Nat) :
    (T.prefixAllow start toks).contains x =
      (toks.contains x ||
        (List.range start.length).any
          (fun i => T.token_id (start.take (i + 1)) == some x)) := by
  unfold TokTrie.prefixAllow
  exact foldTok_contains (fun i => T.token_id (start.take (i + 1)))
    (List.range start.length) toks x

theorem isPfxOf_take {w start : List Nat} (hlw : w.length ≤ start.length)
    (ht : start.take w.length = w) : isPfxOf w start = true := by
  rw [isPfxOf_iff_append]
  have hsplit := List.take_append_drop w.length start
  rw [ht] at hsplit
  exact ⟨start.drop w.length, hsplit.symm⟩

theorem take_of_isPfxOf {w start : List Nat} (h : isPfxOf w start = true) :
    start.take w.length = w ∧ w.length ≤ start.length := by
  obtain ⟨c, hc⟩ := (isPfxOf_iff_append w start).mp h
  subst hc
  constructor
  · rw [List.take_left]
  · simp

theorem isCanon_lt {ws : List (List Nat)} {x : Nat} (h : isCanon ws x) :
    x < ws.length := by
  obtain ⟨w, hg, _, _⟩ := h
  exact (List.get?_eq_some.mp hg).1

theorem biasSpecBase_iff (ws : List (List Nat)) (V : List Nat → Bool)
    (start : List Nat) (x : Nat) :
    biasSpecBase ws V start x = true ↔
      ((∃ w, ws.get? x = some w ∧ w ≠ [] ∧ isPfxOf w start = true) ∨
       (∃ w, ws.get? x = some w ∧ isPfxOf start w = true ∧ w ≠ start ∧
         acceptsFrom V [] (w.drop start.length) = true)) := by
  unfold biasSpecBase
  cases hg : ws.get? x with
  | none =>
    constructor
    · intro hh
      cases hh
    · rintro (⟨w, hw, _⟩ | ⟨w, hw, _⟩) <;> cases hw
  | some w =>
    simp only [Bool.or_eq_true, Bool.and_eq_true, bne_iff_ne]
    constructor
    · rintro (⟨h1, h2⟩ | ⟨⟨h1, h2⟩, h3⟩)
      · refine Or.inl ⟨w, rfl, ?_, h2⟩
        intro h0
        rw [h0] at h1
        simp at h1
      · exact Or.inr ⟨w, rfl, h1, h2, h3⟩
    · rintro (⟨w2, hw2, hne2, hp2⟩ | ⟨w2, hw2, hp2, hne2, ha2⟩)
      · cases hw2
        refine Or.inl ⟨?_, hp2⟩
        cases w with
        | nil => exact absurd rfl hne2
        | cons a as => rfl
      · cases hw2
        exact Or.inr ⟨⟨hp2, hne2⟩, ha2⟩

/-- The token set produced by `add_bias` on a constructed trie, for a
deterministic byte-acceptance recognizer started from fresh state: exactly the
canonical ids whose word satisfies the base bias specification. -/
theorem add_bias_allowed_iff {info : TokRxInfo} {ws : List (List Nat)}
    {T : TokTrie} (h : TokTrie.fromVocab info ws = some T)
    (hbytes : ∀ w ∈ ws, ∀ b ∈ w, b < 256) (hlen : ws.length ≤ 16777215)
    (V : List Nat → Bool) (start : List Nat) :
    ∀ x, ((T.add_bias (stackRec V) [] [] start).2).contains x = true ↔
      (isCanon ws x ∧ biasSpecBase ws V start x = true) := by
  obtain ⟨hvs, hok, nodes0, hs0, hinfo, hoffs, hdata, hnodes0, hfin⟩ := fromVocab_inv h
  obtain ⟨hpl, hwf, hlt⟩ := built_facts h hbytes
  set H := hashFold (TrieHash.new 255) 0 ws with hH
  have hvocab : T.vocab_size = ws.length := by
    unfold TokTrie.vocab_size
    rw [hinfo, hvs]
    unfold u32mod
    omega
  -- the prefix phase
  have htoks0 : ∀ x,
      ((if start.length > 0 then T.prefixAllow start [] else []) : SimpleVob).contains
        x =
      (List.range start.length).any
        (fun i => T.token_id (start.take (i + 1)) == some x) := by
    intro x
    by_cases hs : start.length > 0
    · rw [if_pos hs, prefixAllow_contains]
      rfl
    · rw [if_neg hs]
      have h0 : start.length = 0 := by omega
      rw [h0]
      rfl
  have hprefIff : ∀ x,
      ((List.range start.length).any
        (fun i => T.token_id (start.take (i + 1)) == some x) = true) ↔
      (isCanon ws x ∧ ∃ w, ws.get? x = some w ∧ w ≠ [] ∧ isPfxOf w start = true) := by
    intro x
    rw [List.any_eq_true]
    constructor
    · rintro ⟨i, hi, hpi⟩
      have hilt : i < start.length := List.mem_range.mp hi
      have htid : T.token_id (start.take (i + 1)) = some x := by
        simpa using hpi
      rw [token_id_built h hbytes] at htid
      have hne : start.take (i + 1) ≠ [] := by
        intro h0
        have := congrArg List.length h0
        simp only [List.length_take, List.length_nil] at this
        omega
      rw [if_neg hne] at htid
      rw [← hH] at htid
      rw [hH, tokenAt_built ws hbytes] at htid
      cases hraw : lastRawFrom 0 ws (start.take (i + 1)) with
      | none =>
        rw [hraw] at htid
        cases htid
      | some raw =>
        rw [hraw] at htid
        obtain ⟨hne2, j, hjlt, hjget, hjraw, hjmax⟩ :=
          (lastRawFrom_char ws 0 (start.take (i + 1)) raw (by omega)).mp hraw
        have hraww : raw = j := by omega
        have htid2 : tokDecode raw = some x := htid
        have hjsmall : u32mod j = j := by
          unfold u32mod
          omega
        have htj : tokDecode j = some j := by
          have := @tokDecode_small j (by omega)
          rw [hjsmall] at this
          exact this
        rw [hraww, htj] at htid2
        have hxj : x = j := (Option.some_inj.mp htid2).symm
        subst hxj
        rw [hraww] at hraw
        constructor
        · exact ⟨start.take (i + 1), hjget, hne, hraw⟩
        · refine ⟨start.take (i + 1), hjget, hne, ?_⟩
          refine isPfxOf_take (by simp [List.length_take]) ?_
          rw [List.length_take, Nat.min_eq_left (by omega)]
    · rintro ⟨⟨wc, hgc, hwc, hrc⟩, w, hg, hw, hpfx⟩
      have hww : w = wc := by
        rw [hg] at hgc
        exact Option.some_inj.mp hgc
      subst hww
      obtain ⟨htake, hlw⟩ := take_of_isPfxOf hpfx
      have hwpos : 0 < w.length := List.length_pos.mpr hw
      refine ⟨w.length - 1, List.mem_range.mpr (by omega), ?_⟩
      have hidx : w.length - 1 + 1 = w.length := by omega
      rw [hidx, htake]
      have htid : T.token_id w = some x := by
        rw [token_id_built h hbytes, if_neg hw]
        rw [tokenAt_built ws hbytes, hrc]
        have hxlt : x < ws.length := (List.get?_eq_some.mp hg).1
        have hxs : u32mod x = x := by
          unfold u32mod
          omega
        have := @tokDecode_small x (by omega)
        rw [hxs] at this
        exact this
      rw [htid]
      simp
  have hbase := biasSpecBase_iff ws V start
  have hwp := walk_placedN start H 0 0 hpl hwf hlt
  have hnlen := nodes_length_built h
  rw [← hH] at hnlen
  intro x
  cases hwk : H.walk start with
  | none =>
    rw [hwk] at hwp
    have hcode : (T.add_bias (stackRec V) [] [] start).2 =
        (if start.length > 0 then T.prefixAllow start [] else []) := by
      unfold TokTrie.add_bias
      rw [hwp]
    rw [hcode, htoks0 x]
    constructor
    · intro hp
      obtain ⟨hc, hd⟩ := (hprefIff x).mp hp
      exact ⟨hc, (hbase x).mpr (Or.inl hd)⟩
    · rintro ⟨hc, hb⟩
      rcases (hbase x).mp hb with h1 | ⟨w, hg, hp1, hp2, hp3⟩
      · exact (hprefIff x).mpr ⟨hc, h1⟩
      · exfalso
        obtain ⟨q, vf, hqne, hwq, hwalkw, _⟩ :=
          spec_witness_walk hbytes hlen hg hp1 (by intro h0; exact hp2 h0)
        rw [← hH] at hwalkw
        rw [hwq, walk_append, hwk] at hwalkw
        cases hwalkw
  | some u0 =>
    rw [hwk] at hwp
    obtain ⟨off2, np2, hcab, hplu, hwfu, hleu⟩ := hwp
    have hltu : u0.nNodes < 16777216 := by omega
    have hszEqu : (T.nodeAt off2).subtree_size = u0.nNodes := nodeAt_size_exact hplu hltu
    have hpos : ∀ q, q < off2 + (T.nodeAt off2).subtree_size →
        1 ≤ (T.nodeAt q).subtree_size := by
      intro q hq
      rw [hszEqu] at hq
      have hbnd := placedN_bound hplu
      refine placedN_region_size hpl hlt q (by omega) ?_
      omega
    have hnnu : u0.nNodes = 1 + TrieHash.nNodesList u0.children := by
      cases u0 with
      | mk tok b cs => rfl
    have hcode : (T.add_bias (stackRec V) [] [] start).2 =
        ((T.biasGo (stackRec V) (off2 + (T.nodeAt off2).subtree_size) (off2 + 1) 0
          ((stackRec V).trie_started [])
          (if start.length > 0 then T.prefixAllow start [] else [])
          (T.nodes.length + 1)).2.1).disallow_token T.vocab_size := by
      unfold TokTrie.add_bias TokTrie.add_bias_inner
      rw [hcab]
    rw [hcode]
    rw [show (stackRec V).trie_started [] = ([] : List Nat) from rfl]
    by_cases hone : u0.nNodes = 1
    · have hchnil : u0.children = [] := by
        apply nNodesList_zero
        omega
      rw [biasGo_at_end (by rw [hszEqu, hone])]
      rw [show ((([] : List Nat),
        (if start.length > 0 then T.prefixAllow start [] else [] : SimpleVob),
        (0 : Nat)).2.1) =
        (if start.length > 0 then T.prefixAllow start [] else [] : SimpleVob) from rfl]
      rw [contains_disallow]
      rw [htoks0 x]
      constructor
      · intro hh
        rw [Bool.and_eq_true] at hh
        obtain ⟨hp, _⟩ := hh
        obtain ⟨hc, hd⟩ := (hprefIff x).mp hp
        exact ⟨hc, (hbase x).mpr (Or.inl hd)⟩
      · rintro ⟨hc, hb⟩
        rcases (hbase x).mp hb with h1 | ⟨w, hg, hp1, hp2, hp3⟩
        · have hxlt : x < ws.length := isCanon_lt hc
          rw [(hprefIff x).mpr ⟨hc, h1⟩]
          rw [show (x != T.vocab_size) = true from by
            rw [hvocab]
            exact bne_iff_ne.mpr (by omega)]
          rfl
        · exfalso
          obtain ⟨q, vf, hqne, hwq, hwalkw, _⟩ :=
            spec_witness_walk hbytes hlen hg hp1 (by intro h0; exact hp2 h0)
          rw [← hH] at hwalkw
          rw [hwq, walk_append, hwk] at hwalkw
          have hwalkw2 : u0.walk q = some vf := hwalkw
          cases q with
          | nil => exact hqne rfl
          | cons b q2 =>
            rw [walk_cons, hchnil] at hwalkw2
            simp [findChild] at hwalkw2
    · have hchne : u0.children ≠ [] := by
        intro hcn
        rw [hcn] at hnnu
        simp only [TrieHash.nNodesList] at hnnu
        omega
      have hsortne : sortByByte u0.children ≠ [] := by
        intro hsn
        have := length_sortByByte u0.children
        rw [hsn] at this
        simp only [List.length_nil] at this
        exact hchne (List.length_eq_zero.mp this.symm)
      have hsortnn : TrieHash.nNodesList (sortByByte u0.children) =
          TrieHash.nNodesList u0.children := nNodesList_sortByByte u0.children
      obtain ⟨hget0, hclp, hbd0⟩ := placedN_node hplu
      obtain ⟨pend2, s2, toks2, hdrop2, hcont, hloop⟩ :=
        (biasGo_main V hpos (TrieHash.nNodesList (sortByByte u0.children))).2
          (sortByByte u0.children) np2 (off2 + 1) 0 [] []
          (if start.length > 0 then T.prefixAllow start [] else [])
          (Nat.le_refl _) hsortne hclp
          (fun c hc => WfH_children_wf hwfu c (mem_sortByByte.mp hc))
          (fun c hc => WfH_children_byte hwfu c (mem_sortByByte.mp hc))
          (by rw [hsortnn]; omega)
          (by rw [hszEqu, hsortnn]; omega) rfl
      rw [hloop (T.nodes.length + 1) (by rw [hszEqu]; omega)]
      rw [biasGo_at_end (by rw [hszEqu, hsortnn, hnnu]; omega)]
      rw [show ((s2, toks2, pend2).2.1) = toks2 from rfl]
      rw [contains_disallow]
      rw [hcont x, htoks0 x]
      have hcollEq : collectHL V T.vocab_size [] x (sortByByte u0.children) =
          collectHL V T.vocab_size [] x u0.children := by
        rw [collectHL_any, collectHL_any]
        exact any_perm (sortByByte_perm u0.children) _
      rw [hcollEq]
      constructor
      · intro hh
        rw [Bool.and_eq_true] at hh
        obtain ⟨hor, hnev⟩ := hh
        rw [Bool.or_eq_true] at hor
        rcases hor with hp | hcoll
        · obtain ⟨hc, hd⟩ := (hprefIff x).mp hp
          exact ⟨hc, (hbase x).mpr (Or.inl hd)⟩
        · obtain ⟨q, v, hqne, hwalkq, hacc, hx⟩ :=
            (collectHL_node_iff hwfu V T.vocab_size [] x).mp hcoll
          have hw2 : H.walk (start ++ q) = some v := by
            rw [walk_append, hwk]
            exact hwalkq
          cases htd : tokDecode v.token_id with
          | none =>
            exfalso
            rw [htd] at hx
            simp only [Option.getD_none] at hx
            rw [hx] at hnev
            simp at hnev
          | some m =>
            rw [htd] at hx
            simp only [Option.getD_some] at hx
            rw [hx]
            have hTokw : H.tokenAt (start ++ q) = some m := by
              unfold TrieHash.tokenAt
              rw [hw2]
              exact htd
            rw [hH, tokenAt_built ws hbytes (start ++ q)] at hTokw
            cases hraw : lastRawFrom 0 ws (start ++ q) with
            | none =>
              rw [hraw] at hTokw
              cases hTokw
            | some raw =>
              rw [hraw] at hTokw
              obtain ⟨hne2, j, hjlt, hjget, hjraw, hjmax⟩ :=
                (lastRawFrom_char ws 0 (start ++ q) raw (by omega)).mp hraw
              have hraww : raw = j := by omega
              have hjsmall : u32mod j = j := by
                unfold u32mod
                omega
              have htj : tokDecode j = some j := by
                have := @tokDecode_small j (by omega)
                rw [hjsmall] at this
                exact this
              have hTokw2 : tokDecode raw = some m := hTokw
              rw [hraww, htj] at hTokw2
              have hmj : m = j := (Option.some_inj.mp hTokw2).symm
              subst hmj
              rw [hraww] at hraw
              constructor
              · exact ⟨start ++ q, hjget, fun h0 =>
                  hqne (List.append_eq_nil.mp h0).2, hraw⟩
              · refine (hbase m).mpr (Or.inr ⟨start ++ q, hjget,
                  isPfxOf_append_self start q, append_ne_self hqne, ?_⟩)
                rw [List.drop_left]
                simpa using hacc
      · rintro ⟨hc, hb⟩
        have hxlt : x < ws.length := isCanon_lt hc
        have hnev : (x != T.vocab_size) = true := by
          rw [hvocab]
          exact bne_iff_ne.mpr (by omega)
        rw [hnev]
        rcases (hbase x).mp hb with h1 | ⟨w, hg, hp1, hp2, hp3⟩
        · rw [(hprefIff x).mpr ⟨hc, h1⟩]
          rfl
        · obtain ⟨q, vf, hqne, hwq, hwalkw, hsome⟩ :=
            spec_witness_walk hbytes hlen hg hp1 (by intro h0; exact hp2 h0)
          rw [← hH] at hwalkw
          rw [hwq, walk_append, hwk] at hwalkw
          have hwalkw2 : u0.walk q = some vf := hwalkw
          obtain ⟨wc, hgc, hwc, hrc⟩ := hc
          have hww : w = wc := by
            rw [hg] at hgc
            exact Option.some_inj.mp hgc
          subst hww
          have haccq : acceptsFrom V [] q = true := by
            rw [hwq, List.drop_left] at hp3
            exact hp3
          have hWw : H.walk (start ++ q) = some vf := by
            rw [walk_append, hwk]
            exact hwalkw2
          have htdvf : tokDecode vf.token_id = some x := by
            have hTokw : H.tokenAt (start ++ q) = tokDecode vf.token_id := by
              unfold TrieHash.tokenAt
              rw [hWw]
            have hTok3 : H.tokenAt (start ++ q) = tokDecode x := by
              rw [hH, tokenAt_built ws hbytes (start ++ q), ← hwq, hrc]
            have hxs : u32mod x = x := by
              unfold u32mod
              omega
            have htx : tokDecode x = some x := by
              have h5 := @tokDecode_small x (by omega)
              rw [hxs] at h5
              exact h5
            rw [← hTokw, hTok3]
            exact htx
          have hcoll : collectHL V T.vocab_size [] x u0.children = true := by
            refine (collectHL_node_iff hwfu V T.vocab_size [] x).mpr
              ⟨q, vf, hqne, hwalkw2, by simpa using haccq, ?_⟩
            rw [htdvf]
            rfl
          rw [hcoll]
          simp

theorem childScan_mtd (i : TokRxInfo) (o d : List Nat) (nds : List TrieNode)
    (m1 m2 : Nat) (td1 td2 : List (Nat × List Nat)) :
    ∀ fuel cur endo,
      TokTrie.childScan ⟨i, o, d, nds, m2, td2⟩ cur endo fuel =
      TokTrie.childScan ⟨i, o, d, nds, m1, td1⟩ cur endo fuel := by
  intro fuel
  induction fuel with
  | zero =>
    intro cur endo
    rfl
  | succ fuel ih =>
    intro cur endo
    simp only [TokTrie.childScan]
    dsimp only [TokTrie.nodeAt]
    rw [ih]

theorem child_at_byte_mtd (i : TokRxInfo) (o d : List Nat) (nds : List TrieNode)
    (m1 m2 : Nat) (td1 td2 : List (Nat × List Nat)) (off b : Nat) :
    TokTrie.child_at_byte ⟨i, o, d, nds, m2, td2⟩ off b =
    TokTrie.child_at_byte ⟨i, o, d, nds, m1, td1⟩ off b := by
  unfold TokTrie.child_at_byte TokTrie.childOffsets TokTrie.next_node
  dsimp only [TokTrie.nodeAt]
  rw [childScan_mtd i o d nds m1 m2 td1 td2]

theorem greedyGo_mtd (i : TokRxInfo) (o d : List Nat) (nds : List TrieNode)
    (m1 m2 : Nat) (td1 td2 : List (Nat × List Nat)) (bytes : List Nat) :
    ∀ fuel nidx idx lt li r,
      TokTrie.greedyGo ⟨i, o, d, nds, m2, td2⟩ bytes nidx idx lt li r fuel =
      TokTrie.greedyGo ⟨i, o, d, nds, m1, td1⟩ bytes nidx idx lt li r fuel := by
  intro fuel
  induction fuel with
  | zero =>
    intro nidx idx lt li r
    rfl
  | succ fuel ih =>
    intro nidx idx lt li r
    simp only [TokTrie.greedyGo]
    by_cases h : idx < bytes.length
    · rw [if_pos h, if_pos h, child_at_byte_mtd i o d nds m1 m2 td1 td2]
      cases TokTrie.child_at_byte ⟨i, o, d, nds, m1, td1⟩ nidx ((bytes.get? idx).getD 0) with
      | none =>
        cases lt with
        | none => rfl
        | some tk =>
          exact ih 0 (li + 1) (some tk) li (r ++ [tk])
      | some c =>
        dsimp only [TokTrie.nodeAt]
        cases ((nds.get? c).getD (⟨0, 0⟩ : TrieNode)).token_id with
        | none => exact ih c (idx + 1) lt li r
        | some tok => exact ih c (idx + 1) (some tok) idx r
    · rw [if_neg h, if_neg h]

theorem greedy_tokenize_mtd (i : TokRxInfo) (o d : List Nat) (nds : List TrieNode)
    (m1 m2 : Nat) (td1 td2 : List (Nat × List Nat)) (bytes : List Nat) :
    TokTrie.greedy_tokenize ⟨i, o, d, nds, m2, td2⟩ bytes =
    TokTrie.greedy_tokenize ⟨i, o, d, nds, m1, td1⟩ bytes := by
  unfold TokTrie.greedy_tokenize
  rw [greedyGo_mtd i o d nds m1 m2 td1 td2]

theorem finalizeLoop_mtd (i : TokRxInfo) (o d : List Nat) (nds : List TrieNode)
    (m1 m2 : Nat) (td1 td2 : List (Nat × List Nat)) :
    ∀ rem k maxl dups,
      TokTrie.finalizeLoop ⟨i, o, d, nds, m2, td2⟩ k rem maxl dups =
      TokTrie.finalizeLoop ⟨i, o, d, nds, m1, td1⟩ k rem maxl dups := by
  intro rem
  induction rem with
  | zero =>
    intro k maxl dups
    rfl
  | succ rem ih =>
    intro k maxl dups
    simp only [TokTrie.finalizeLoop]
    have ht : TokTrie.token (⟨i, o, d, nds, m2, td2⟩ : TokTrie) =
        TokTrie.token (⟨i, o, d, nds, m1, td1⟩ : TokTrie) := rfl
    rw [ht]
    cases TokTrie.token (⟨i, o, d, nds, m1, td1⟩ : TokTrie) k with
    | none => rfl
    | some bytes =>
      have hg := greedy_tokenize_mtd i o d nds m1 m2 td1 td2 bytes
      dsimp only
      rw [hg]
      cases TokTrie.greedy_tokenize ⟨i, o, d, nds, m1, td1⟩ bytes with
      | none => rfl
      | some tok_ids => exact ih _ _ _

theorem range_any_point (f : Nat → Bool) (x : Nat) :
    ∀ n i, (List.range' i n).any (fun j => x == j && f j) =
      if i ≤ x ∧ x < i + n then f x else false := by
  intro n
  induction n with
  | zero =>
    intro i
    rw [if_neg (by omega)]
    rfl
  | succ n ih =>
    intro i
    rw [List.range'_succ]
    simp only [List.any_cons]
    rw [ih (i + 1)]
    by_cases hx : x = i
    · subst hx
      rw [if_neg (by omega), if_pos (by omega)]
      simp
    · rw [show (x == i) = false from beq_eq_false_iff_ne.mpr hx]
      by_cases h2 : i + 1 ≤ x ∧ x < i + 1 + n
      · rw [if_pos h2, if_pos (by omega)]
        simp
      · rw [if_neg h2, if_neg (by omega)]
        simp

theorem lastRawFrom_word {ws : List (List Nat)} {w : List Nat} {m : Nat}
    (hlen : ws.length ≤ 16777215) (h : lastRawFrom 0 ws w = some m) :
    ws.get? m = some w := by
  obtain ⟨hne, j, hjlt, hjget, hk, _⟩ :=
    (lastRawFrom_char ws 0 w m (by omega)).mp h
  have : m = j := by omega
  rw [this]
  exact hjget

theorem biasSpecBase_word {ws : List (List Nat)} {a b : Nat} {w : List Nat}
    (V : List Nat → Bool) (start : List Nat)
    (ha : ws.get? a = some w) (hb : ws.get? b = some w) :
    biasSpecBase ws V start a = biasSpecBase ws V start b := by
  unfold biasSpecBase
  rw [ha, hb]

theorem biasSpecBase_nil {ws : List (List Nat)} (V : List Nat → Bool)
    (start : List Nat) {t : Nat} (hg : ws.get? t = some []) :
    biasSpecBase ws V start t = false := by
  unfold biasSpecBase
  rw [hg]
  cases start with
  | nil => simp [isPfxOf]
  | cons b bs => simp [isPfxOf]

/-- The duplicate map of a constructed trie holds exactly the aliases: its
mirror test at any token and canonical predicate is the alias-map lookup, and
every entry is a well-formed (alias-list, canonical-id) pair. -/
theorem dups_built {info : TokRxInfo} {ws : List (List Nat)} {T : TokTrie}
    (h : TokTrie.fromVocab info ws = some T)
    (hbytes : ∀ w ∈ ws, ∀ b ∈ w, b < 256) (hlen : ws.length ≤ 16777215) :
    (∀ (x : Nat) (Q : Nat → Bool),
      T.token_duplicates.any (fun kl => kl.2.contains x && Q kl.1) =
        (List.range' 0 ws.length).any (fun j => x == j &&
          match aliasTo ws j with
          | some m => Q m
          | none => false)) ∧
    (∀ kl ∈ T.token_duplicates, GoodDup ws kl) := by
  obtain ⟨hvs, hok, nodes0, hs0, hinfo, hoffs, hdata, hnodes0, hfin⟩ := fromVocab_inv h
  obtain ⟨maxl, dups, hloopP, hT, _⟩ := finalize_inv hfin
  have hvs2 : info.vocab_size = ws.length := by
    rw [hvs]
    unfold u32mod
    omega
  have hTdups : T.token_duplicates = dups := by
    rw [hT]
  have hloopP2 : TokTrie.finalizeLoop ⟨info, descList 0 ws, ws.flatten, nodes0, 0, []⟩
      0 ws.length 0 [] = some (maxl, dups) := by
    rw [← hvs2]
    exact hloopP
  have hPT : (⟨info, descList 0 ws, ws.flatten, nodes0, maxl, dups⟩ : TokTrie) = T := by
    rw [hT]
  have hTloop : T.finalizeLoop 0 ws.length 0 [] = some (maxl, dups) := by
    rw [← hPT]
    rw [finalizeLoop_mtd info (descList 0 ws) ws.flatten nodes0 0 maxl [] dups]
    exact hloopP2
  obtain ⟨maxl2, dups2, hloopT, hany, hgood⟩ :=
    finalizeLoop_built h hbytes hlen ws.length 0 0 [] (by omega)
  rw [hTloop] at hloopT
  have hpair : maxl = maxl2 ∧ dups = dups2 := by
    have := Option.some_inj.mp hloopT
    exact ⟨congrArg Prod.fst this, congrArg Prod.snd this⟩
  obtain ⟨hm12, hd12⟩ := hpair
  constructor
  · intro x Q
    rw [hTdups, hd12, hany x Q]
    simp only [List.any_nil, Bool.false_or]
  · rw [hTdups, hd12]
    exact hgood (by intro kl hkl; cases hkl)

/-- C1, amended with the 24-bit size bound `ws.length ≤ 16777215` under which
every token id survives the packed node encoding: over a constructed trie,
`apply_duplicates` after `add_bias` (as composed by `compute_bias_ext`) allows
exactly the tokens of `biasSpec`: tokens whose bytes are a nonempty prefix of
`start`, tokens properly extending `start` with the extension accepted by the
recognizer from the current state, and every duplicate-map alias of an allowed
canonical token — and no others. -/
theorem add_bias_bias_spec {info : TokRxInfo} {ws : List (List Nat)}
    {T : TokTrie} (h : TokTrie.fromVocab info ws = some T)
    (hbytes : ∀ w ∈ ws, ∀ b ∈ w, b < 256) (hlen : ws.length ≤ 16777215)
    (V : List Nat → Bool) (start : List Nat) (t : Nat) :
    (T.apply_duplicates ((T.add_bias (stackRec V) [] [] start).2)).is_allowed t =
      biasSpec T.token_duplicates ws V start t := by
  obtain ⟨hdq, hgood⟩ := dups_built h hbytes hlen
  have hiff := add_bias_allowed_iff h hbytes hlen V start
  set S := (T.add_bias (stackRec V) [] [] start).2 with hS
  unfold SimpleVob.is_allowed biasSpec
  rw [apply_duplicates_of_disjoint T S (good_disjoint hlen hgood) t]
  rw [hdq t (fun k => S.contains k), hdq t (fun k => biasSpecBase ws V start k)]
  rw [range_any_point (fun j =>
      match aliasTo ws j with
      | some m => S.contains m
      | none => false) t ws.length 0]
  rw [range_any_point (fun j =>
      match aliasTo ws j with
      | some m => biasSpecBase ws V start m
      | none => false) t ws.length 0]
  by_cases htl : t < ws.length
  · rw [if_pos (by omega), if_pos (by omega)]
    cases haz : aliasTo ws t with
    | none =>
      dsimp only
      by_cases hcan : isCanon ws t
      · have hsc : S.contains t = biasSpecBase ws V start t := by
          cases hbt : biasSpecBase ws V start t with
          | true => exact (hiff t).mpr ⟨hcan, hbt⟩
          | false =>
            cases hs : S.contains t with
            | false => rfl
            | true =>
              have h2 := ((hiff t).mp hs).2
              rw [hbt] at h2
              exact Bool.noConfusion h2
        rw [hsc]
      · obtain ⟨w, hgt⟩ : ∃ w, ws.get? t = some w := by
          rw [List.get?_eq_getElem?, List.getElem?_eq_getElem htl]
          exact ⟨_, rfl⟩
        by_cases hwnil : w = []
        · subst hwnil
          have hbt : biasSpecBase ws V start t = false := biasSpecBase_nil V start hgt
          have hst : S.contains t = false := by
            cases hs : S.contains t with
            | false => rfl
            | true => exact absurd ((hiff t).mp hs).1 hcan
          rw [hst, hbt]
        · exfalso
          obtain ⟨m0, hraw, _, _, _⟩ := greedy_canon h hbytes hlen hgt hwnil
          by_cases hmt : m0 = t
          · exact hcan ⟨w, hgt, hwnil, hmt ▸ hraw⟩
          · have halias := aliasTo_of_canon hgt hwnil hraw hmt
            rw [haz] at halias
            exact Option.noConfusion halias
    | some m =>
      dsimp only
      obtain ⟨w, hgt, hwne, hraw, hmne⟩ := aliasTo_inv hlen haz
      have hcm : isCanon ws m := aliasTo_canon hlen haz
      have hgm : ws.get? m = some w := lastRawFrom_word hlen hraw
      have hbtm : biasSpecBase ws V start t = biasSpecBase ws V start m :=
        biasSpecBase_word V start hgt hgm
      have hst : S.contains t = false := by
        cases hs : S.contains t with
        | false => rfl
        | true => exact absurd haz (isCanon_no_alias hlen ((hiff t).mp hs).1 m)
      have hsm : S.contains m = biasSpecBase ws V start m := by
        cases hbm : biasSpecBase ws V start m with
        | true => exact (hiff m).mpr ⟨hcm, hbm⟩
        | false =>
          cases hs : S.contains m with
          | false => rfl
          | true =>
            have h2 := ((hiff m).mp hs).2
            rw [hbm] at h2
            exact Bool.noConfusion h2
      rw [hst, hsm, hbtm]
      cases biasSpecBase ws V start m <;> rfl
  · rw [if_neg (by omega), if_neg (by omega)]
    have hst : S.contains t = false := by
      cases hs : S.contains t with
      | false => rfl
      | true => exact absurd (isCanon_lt ((hiff t).mp hs).1) htl
    have hbt : biasSpecBase ws V start t = false := by
      unfold biasSpecBase
      rw [List.get?_eq_none.mpr (by omega)]
    rw [hst, hbt]

theorem add_bias_bias_spec_witness :
    (Tsample.apply_duplicates
        ((Tsample.add_bias (stackRec (fun _ => true)) [] [] []).2)).is_allowed 0 =
      biasSpec Tsample.token_duplicates [[97]] (fun _ => true) [] 0 :=
  @add_bias_bias_spec (TokRxInfo.new 1 0) [[97]] Tsample (by decide) (by decide)
    (by decide) (fun _ => true) [] 0

theorem get?_append_lt {α : Type} (pre suf : List α) :
    ∀ k, k < pre.length → (pre ++ suf).get? k = pre.get? k := by
  induction pre with
  | nil =>
    intro k hk
    rw [List.length_nil] at hk
    omega
  | cons x xs ih =>
    intro k hk
    cases k with
    | zero => rfl
    | succ k2 =>
      rw [List.length_cons] at hk
      exact ih k2 (by omega)

theorem replicate_get? {α : Type} (a : α) :
    ∀ n k, k < n → (List.replicate n a).get? k = some a := by
  intro n
  induction n with
  | zero =>
    intro k hk
    omega
  | succ n ih =>
    intro k hk
    rw [List.replicate_succ]
    cases k with
    | zero => rfl
    | succ k2 => exact ih k2 (by omega)

theorem token_eval (T : TokTrie) (k e : Nat) (hlt : ¬ k ≥ T.token_offsets.length)
    (he : T.token_offsets.get? k = some e) :
    T.token k = sliceQ T.token_data (e / 1024) (e / 1024 + e % 1024) := by
  unfold TokTrie.token
  rw [if_neg hlt, he]
  rfl

theorem cex1_buildLoop_nil (n : Nat) :
    ∀ (trie : TrieHash) (offs : List Nat) (idx : Nat) (rest : List (List Nat)),
      buildLoop trie offs [] idx (List.replicate n [] ++ rest) =
      buildLoop trie (offs ++ List.replicate n 0) [] (idx + n) rest := by
  induction n with
  | zero =>
    intro trie offs idx rest
    rw [show List.replicate 0 ([] : List Nat) = [] from rfl, List.nil_append]
    rw [show List.replicate 0 (0 : Nat) = [] from rfl, List.append_nil, Nat.add_zero]
  | succ n ih =>
    intro trie offs idx rest
    rw [List.replicate_succ, List.cons_append]
    have hstep : buildLoop trie offs [] idx ([] :: (List.replicate n [] ++ rest)) =
        buildLoop trie (offs ++ [0]) [] (idx + 1) (List.replicate n [] ++ rest) := rfl
    rw [hstep, ih trie (offs ++ [0]) (idx + 1) rest, List.append_assoc]
    rw [show ([0] ++ List.replicate n 0 : List Nat) = List.replicate (n + 1) 0 from by
      rw [List.replicate_succ]
      rfl]
    rw [show idx + 1 + n = idx + (n + 1) from by omega]

theorem cex1_buildLoop :
    buildLoop (TrieHash.new 255) [] [] 0 (List.replicate 16777216 [] ++ [[99]]) =
      some (⟨16777215, 255, [⟨16777216, 99, []⟩]⟩,
        List.replicate 16777216 0 ++ [1], [99]) := by
  rw [cex1_buildLoop_nil 16777216 (TrieHash.new 255) [] 0 [[99]]]
  rw [List.nil_append, Nat.zero_add]
  rfl

theorem cex1_serialize :
    TrieHash.serialize ⟨16777215, 255, [⟨16777216, 99, []⟩]⟩ 0 =
      some [⟨4294967295, 512⟩, ⟨99, 257⟩] := by decide

theorem cex1_offs_length :
    (List.replicate 16777216 0 ++ [1] : List Nat).length = 16777217 := by
  rw [List.length_append, List.length_replicate]
  rfl

theorem cex1_token_small (i : TokRxInfo) (nds : List TrieNode) (m : Nat)
    (td : List (Nat × List Nat)) (k : Nat) (hk : k < 16777216) :
    TokTrie.token ⟨i, List.replicate 16777216 0 ++ [1], [99], nds, m, td⟩ k =
      some [] := by
  have h1 : ¬ k ≥ (TokTrie.mk i (List.replicate 16777216 0 ++ [1]) [99] nds m
      td).token_offsets.length := by
    rw [show (TokTrie.mk i (List.replicate 16777216 0 ++ [1]) [99] nds m
        td).token_offsets = List.replicate 16777216 0 ++ [1] from rfl]
    rw [cex1_offs_length]
    omega
  have h2 : (TokTrie.mk i (List.replicate 16777216 0 ++ [1]) [99] nds m
      td).token_offsets.get? k = some 0 := by
    rw [show (TokTrie.mk i (List.replicate 16777216 0 ++ [1]) [99] nds m
        td).token_offsets = List.replicate 16777216 0 ++ [1] from rfl]
    rw [get?_append_lt (List.replicate 16777216 0) [1] k (by
      rw [List.length_replicate]
      omega)]
    exact replicate_get? 0 16777216 k hk
  rw [token_eval _ k 0 h1 h2]
  rfl

theorem cex1_token_last (i : TokRxInfo) (nds : List TrieNode) (m : Nat)
    (td : List (Nat × List Nat)) :
    TokTrie.token ⟨i, List.replicate 16777216 0 ++ [1], [99], nds, m, td⟩
      16777216 = some [99] := by
  have h1 : ¬ 16777216 ≥ (TokTrie.mk i (List.replicate 16777216 0 ++ [1]) [99]
      nds m td).token_offsets.length := by
    rw [show (TokTrie.mk i (List.replicate 16777216 0 ++ [1]) [99] nds m
        td).token_offsets = List.replicate 16777216 0 ++ [1] from rfl]
    rw [cex1_offs_length]
    omega
  have h2 : (TokTrie.mk i (List.replicate 16777216 0 ++ [1]) [99] nds m
      td).token_offsets.get? 16777216 = some 1 := by
    have h3 := get?_append_len (List.replicate 16777216 (0 : Nat)) [1] 0
    rw [List.length_replicate, Nat.add_zero] at h3
    exact h3.trans rfl
  rw [token_eval _ 16777216 1 h1 h2]
  rfl

theorem cex1_greedy :
    TokTrie.greedy_tokenize ⟨TokRxInfo.new 16777217 0,
      List.replicate 16777216 0 ++ [1], [99],
      [⟨4294967295, 512⟩, ⟨99, 257⟩], 0, []⟩ [99] = some [0] := by
  rfl

theorem finalizeLoop_nil_step (T : TokTrie) (i rem maxl : Nat)
    (dups : List (Nat × List Nat)) (h0 : T.token i = some []) :
    T.finalizeLoop i (rem + 1) maxl dups = T.finalizeLoop (i + 1) rem maxl dups := by
  conv_lhs => unfold TokTrie.finalizeLoop
  rw [h0]
  dsimp only
  rw [show T.greedy_tokenize [] = some [] from rfl]
  dsimp only
  rw [show ([] : List Nat).length = 0 from rfl]
  rw [Nat.max_zero]

theorem finalizeLoop_nil_pre (T : TokTrie) :
    ∀ n rem i maxl dups, (∀ k, k < n → T.token (i + k) = some []) →
      T.finalizeLoop i (n + rem) maxl dups = T.finalizeLoop (i + n) rem maxl dups := by
  intro n
  induction n with
  | zero =>
    intro rem i maxl dups _
    rw [Nat.zero_add, Nat.add_zero]
  | succ n ih =>
    intro rem i maxl dups hall
    have h0 : T.token i = some [] := by
      have := hall 0 (by omega)
      rwa [Nat.add_zero] at this
    rw [show n + 1 + rem = (n + rem) + 1 from by omega]
    rw [finalizeLoop_nil_step T i (n + rem) maxl dups h0]
    rw [ih rem (i + 1) maxl dups (by
      intro k hk
      have := hall (k + 1) (by omega)
      rwa [show i + (k + 1) = i + 1 + k from by omega] at this)]
    rw [show i + 1 + n = i + (n + 1) from by omega]

theorem finalizeLoop_one (T : TokTrie) (i maxl : Nat) (dups : List (Nat × List Nat))
    (w : List Nat) (k : Nat) (htok : T.token i = some w)
    (hg : T.greedy_tokenize w = some [k]) (hki : ¬ k = i) :
    T.finalizeLoop i 1 maxl dups = some (max maxl w.length, dupPush dups k i) := by
  have h1 : T.finalizeLoop i 1 maxl dups = T.finalizeLoop i (0 + 1) maxl dups := rfl
  rw [h1]
  unfold TokTrie.finalizeLoop
  rw [htok]
  dsimp only
  rw [hg]
  dsimp only
  rw [if_neg hki]
  rfl

theorem cex1_finalizeLoop (T : TokTrie)
    (htok : ∀ k, k < 16777216 → T.token k = some [])
    (htokL : T.token 16777216 = some [99])
    (hg : T.greedy_tokenize [99] = some [0]) :
    T.finalizeLoop 0 16777217 0 [] = some (1, [(0, [16777216])]) := by
  rw [show (16777217 : Nat) = 16777216 + 1 from rfl]
  rw [finalizeLoop_nil_pre T 16777216 1 0 0 [] (by
    intro k hk
    rw [Nat.zero_add]
    exact htok k hk)]
  rw [Nat.zero_add]
  rw [finalizeLoop_one T 16777216 0 [] [99] 0 htokL hg (by omega)]
  rfl

theorem validateGo_token (T : TokTrie) (off ep : Nat) (used : List Bool)
    (fuel tok : Nat) (htid : (T.nodeAt off).token_id = some tok)
    (htk : tok < T.info.vocab_size) (hget : used.get? tok = some false)
    (hle : T.next_node off ≤ ep) :
    T.validateGo off ep used (fuel + 1) =
      T.validateKids (off + 1) (T.next_node off) (used.set tok true) fuel := by
  simp only [TokTrie.validateGo]
  rw [htid]
  dsimp only
  rw [if_pos htk, hget]
  dsimp only
  rw [if_pos hle]

theorem validateKids_step (T : TokTrie) (cur endp : Nat) (used used2 : List Bool)
    (fuel : Nat) (h : cur < endp)
    (hgo : T.validateGo cur endp used fuel = some used2) :
    T.validateKids cur endp used (fuel + 1) =
      T.validateKids (cur + (T.nodeAt cur).subtree_size) endp used2 fuel := by
  simp only [TokTrie.validateKids]
  rw [if_pos h, hgo]

theorem touchTokens_all (T : TokTrie) :
    ∀ n, (∀ i, i < n → (T.token i).isSome = true) → T.touchTokens n = some () := by
  intro n
  induction n with
  | zero =>
    intro _
    rfl
  | succ n ih =>
    intro hall
    unfold TokTrie.touchTokens
    rw [ih (fun i hi => hall i (by omega))]
    cases htk : T.token n with
    | none =>
      have := hall n (by omega)
      rw [htk] at this
      exact Bool.noConfusion this
    | some w => rfl

theorem cex1_validate (i : TokRxInfo) (o d : List Nat) (m : Nat)
    (td : List (Nat × List Nat)) (hvs : 0 < i.vocab_size) :
    TokTrie.validate ⟨i, o, d, [⟨4294967295, 512⟩, ⟨99, 257⟩], m, td⟩ =
      TokTrie.touchTokens ⟨i, o, d, [⟨4294967295, 512⟩, ⟨99, 257⟩], m, td⟩
        i.vocab_size := by
  have hnode0 : TokTrie.nodeAt ⟨i, o, d, [⟨4294967295, 512⟩, ⟨99, 257⟩], m, td⟩ 0 =
      ⟨4294967295, 512⟩ := rfl
  have htid0 : (TokTrie.nodeAt ⟨i, o, d, [⟨4294967295, 512⟩, ⟨99, 257⟩], m, td⟩
      0).token_id = none := by
    rw [hnode0]
    rfl
  have hnn0 : TokTrie.next_node ⟨i, o, d, [⟨4294967295, 512⟩, ⟨99, 257⟩], m, td⟩
      0 = 2 := by
    unfold TokTrie.next_node
    rw [hnode0]
    rfl
  have hnode1 : TokTrie.nodeAt ⟨i, o, d, [⟨4294967295, 512⟩, ⟨99, 257⟩], m, td⟩ 1 =
      ⟨99, 257⟩ := rfl
  have htid1 : (TokTrie.nodeAt ⟨i, o, d, [⟨4294967295, 512⟩, ⟨99, 257⟩], m, td⟩
      1).token_id = some 0 := by
    rw [hnode1]
    rfl
  have hnn1 : TokTrie.next_node ⟨i, o, d, [⟨4294967295, 512⟩, ⟨99, 257⟩], m, td⟩
      1 = 2 := by
    unfold TokTrie.next_node
    rw [hnode1]
    rfl
  have hget0 : (List.replicate i.vocab_size false).get? 0 = some false :=
    replicate_get? false i.vocab_size 0 hvs
  have hgo1 : TokTrie.validateGo ⟨i, o, d, [⟨4294967295, 512⟩, ⟨99, 257⟩], m, td⟩
      1 2 (List.replicate i.vocab_size false) (5 + 1) =
      some ((List.replicate i.vocab_size false).set 0 true) := by
    rw [validateGo_token _ 1 2 _ 5 0 htid1 hvs hget0 (by rw [hnn1])]
    rw [hnn1]
    exact validateKids_stop _ (1 + 1) 2 _ 4 (by omega)
  have hkids : TokTrie.validateKids ⟨i, o, d, [⟨4294967295, 512⟩, ⟨99, 257⟩], m, td⟩
      1 2 (List.replicate i.vocab_size false) (5 + 1 + 1) =
      some ((List.replicate i.vocab_size false).set 0 true) := by
    rw [validateKids_step _ 1 2 _ _ (5 + 1) (by omega) hgo1]
    rw [show 1 + ((TokTrie.nodeAt ⟨i, o, d, [⟨4294967295, 512⟩, ⟨99, 257⟩], m, td⟩
        1).subtree_size) = 2 from by rw [hnode1]; rfl]
    exact validateKids_stop _ 2 2 _ 5 (by omega)
  have hgo0 : TokTrie.validateGo ⟨i, o, d, [⟨4294967295, 512⟩, ⟨99, 257⟩], m, td⟩
      0 2 (List.replicate i.vocab_size false) (5 + 1 + 1 + 1) =
      some ((List.replicate i.vocab_size false).set 0 true) := by
    rw [validateGo_notoken _ 0 2 _ (5 + 1 + 1) htid0 (by rw [hnn0])]
    rw [hnn0]
    exact hkids
  rw [validate_unfold]
  rw [hnn0]
  rw [show 2 * (⟨i, o, d, [⟨4294967295, 512⟩, ⟨99, 257⟩], m, td⟩ :
      TokTrie).nodes.length + 4 = 5 + 1 + 1 + 1 from by norm_num]
  rw [show List.replicate
      (⟨i, o, d, [⟨4294967295, 512⟩, ⟨99, 257⟩], m, td⟩ : TokTrie).info.vocab_size
      false = List.replicate i.vocab_size false from rfl]
  rw [hgo0]

theorem cex1_fromVocab :
    TokTrie.fromVocab (TokRxInfo.new 16777217 0)
        (List.replicate 16777216 [] ++ [[99]]) =
      some ⟨TokRxInfo.new 16777217 0, List.replicate 16777216 0 ++ [1], [99],
        [⟨4294967295, 512⟩, ⟨99, 257⟩], 1, [(0, [16777216])]⟩ := by
  have hvs : (TokRxInfo.new 16777217 0).vocab_size =
      u32mod (List.replicate 16777216 ([] : List Nat) ++ [[99]]).length := by
    rw [List.length_append, List.length_replicate]
    rfl
  refine fromVocab_of _ _ _ _ _ _ _ hvs cex1_buildLoop cex1_serialize ?_
  have htokS : ∀ k, k < 16777216 →
      TokTrie.token ⟨TokRxInfo.new 16777217 0, List.replicate 16777216 0 ++ [1],
        [99], [⟨4294967295, 512⟩, ⟨99, 257⟩], 0, []⟩ k = some [] :=
    fun k hk => cex1_token_small _ _ _ _ k hk
  have htokL : TokTrie.token ⟨TokRxInfo.new 16777217 0,
      List.replicate 16777216 0 ++ [1], [99],
      [⟨4294967295, 512⟩, ⟨99, 257⟩], 0, []⟩ 16777216 = some [99] :=
    cex1_token_last _ _ _ _
  have hl : TokTrie.finalizeLoop ⟨TokRxInfo.new 16777217 0,
      List.replicate 16777216 0 ++ [1], [99],
      [⟨4294967295, 512⟩, ⟨99, 257⟩], 0, []⟩ 0 16777217 0 [] =
      some (1, [(0, [16777216])]) :=
    cex1_finalizeLoop _ htokS htokL cex1_greedy
  have hv : TokTrie.validate ⟨TokRxInfo.new 16777217 0,
      List.replicate 16777216 0 ++ [1], [99],
      [⟨4294967295, 512⟩, ⟨99, 257⟩], 1, [(0, [16777216])]⟩ = some () := by
    rw [cex1_validate (TokRxInfo.new 16777217 0) _ _ _ _ (by
      rw [show (TokRxInfo.new 16777217 0).vocab_size = 16777217 from rfl]
      omega)]
    refine touchTokens_all _ _ ?_
    intro k hk
    rw [show (TokRxInfo.new 16777217 0).vocab_size = 16777217 from rfl] at hk
    by_cases hk2 : k < 16777216
    · rw [cex1_token_small _ _ _ _ k hk2]
      rfl
    · rw [show k = 16777216 from by omega, cex1_token_last]
      rfl
  exact finalize_ctor_of_loop _ 1 [(0, [16777216])] hl hv

/-- Counterexample to the unamended C1 at a vocabulary of 2^24 + 1 entries:
the packed node field truncates token id 2^24 to 0, so the bias pass allows
canonical id 0 (whose own word is empty and extends nothing) and the
duplicate map mirrors the truncated id — the computed set allows token 0
while the specified set does not. -/
theorem add_bias_bias_spec_cex :
    ((TokTrie.fromVocab (TokRxInfo.new 16777217 0)
        (List.replicate 16777216 [] ++ [[99]])).map
      (fun T =>
        ((T.apply_duplicates
            ((T.add_bias (stackRec (fun _ => true)) [] [] []).2)).is_allowed 0,
          biasSpec T.token_duplicates (List.replicate 16777216 [] ++ [[99]])
            (fun _ => true) [] 0))) = some (true, false) := by
  rw [cex1_fromVocab, Option.map_some']
  rfl

end Toktrie
